import Mathlib

/-!
Verification of the wcag-crawler scan pipeline and deduplication engine.

The development shallowly embeds the server's core modules:
  * `src/packages/server/src/utils/url.utils.ts` (URL normalization),
  * `src/packages/server/src/utils/fingerprint.ts` (structural fingerprints),
  * `src/packages/server/src/services/crawler.service.ts` (breadth-first crawl),
  * `src/packages/server/src/services/scanner.service.ts` (per-page scanning),
  * `src/packages/server/src/services/deduplication.service.ts` (grouping),
  * `src/packages/server/src/routes/scan.routes.ts` (scan pipeline driver).

External collaborators (the WHATWG URL parser of the JS runtime, the SHA-256
digest of node's crypto, the browser) are modelled explicitly; everything else
is translated from the TypeScript source.
-/

set_option maxRecDepth 10000

/-! ## Generic list helpers -/

/-- Split a character list on a separator character, keeping empty segments
(the semantics of JS `String.prototype.split` with a single-character
separator). -/
def splitOnChar (sep : Char) (l : List Char) : List (List Char) :=
  l.foldr
    (fun c acc =>
      match acc with
      | [] => [[c]]
      | a :: as => if c = sep then [] :: a :: as else (c :: a) :: as)
    [[]]

/-- Interleave a separator character between segments (inverse of
`splitOnChar`). -/
def joinWithChar (sep : Char) : List (List Char) → List Char
  | [] => []
  | [a] => a
  | a :: as => a ++ sep :: joinWithChar sep as

/-- Stable insertion of an element into a list according to a boolean
"less-or-equal" test: the element is placed before the first entry it
compares less-or-equal to. -/
def insertLe (le : α → α → Bool) (x : α) : List α → List α
  | [] => [x]
  | y :: ys => if le x y then x :: y :: ys else y :: insertLe le x ys

/-- Stable sort by repeated insertion; models the (stable) default
`Array.prototype.sort` of modern JS engines. -/
def sortByLe (le : α → α → Bool) : List α → List α
  | [] => []
  | x :: xs => insertLe le x (sortByLe le xs)

/-- Lexicographic comparison of character lists by code point, the order JS
uses when comparing strings with `<`. -/
def charsLe : List Char → List Char → Bool
  | [], _ => true
  | _ :: _, [] => false
  | a :: as, b :: bs => if a < b then true else if b < a then false else charsLe as bs

/-- String comparison used for JS default `sort()` on strings. -/
def strLe (a b : String) : Bool := charsLe a.toList b.toList

/-- JS truthiness of a nullable string: `null`/`undefined` and the empty
string are falsy. -/
def truthy : Option String → Bool
  | none => false
  | some s => s ≠ ""

/-- JS `a || b` on nullable strings: returns `a` unless it is falsy. -/
def jsOr (a b : Option String) : Option String :=
  if truthy a then a else if truthy b then b else none

/-- Append to the bucket of a key in an insertion-ordered association list,
creating the bucket at the end if absent (JS `Map` building pattern). -/
def pushBucket [DecidableEq α] (k : α) (x : β) : List (α × List β) → List (α × List β)
  | [] => [(k, [x])]
  | (k', xs) :: rest =>
      if k' = k then (k', xs ++ [x]) :: rest else (k', xs) :: pushBucket k x rest

/-- Set a key in an insertion-ordered association list, overwriting in place
(JS `Map.prototype.set`). -/
def setKey [DecidableEq α] (k : α) (v : β) : List (α × β) → List (α × β)
  | [] => [(k, v)]
  | (k', v') :: rest =>
      if k' = k then (k', v) :: rest else (k', v') :: setKey k v rest

/-- Insert into an insertion-ordered set (JS `Set.prototype.add`). -/
def addSet [DecidableEq α] (x : α) (l : List α) : List α :=
  if x ∈ l then l else l ++ [x]

/-- Insertion-ordered deduplication (JS `new Set(list)` then iteration). -/
def dedupList [DecidableEq α] (l : List α) : List α :=
  l.foldl (fun acc x => addSet x acc) []

/-! ## The URL model

`normalizeUrl` and friends in `url.utils.ts` are built on the JS runtime's
WHATWG `URL` parser.  Modelled from the spec: the parser below covers
`scheme://host[:port][/path][?query][#fragment]` URLs whose components use the
plain (unescaped) character sets; host and scheme are lowercased at parse
time, an empty path becomes `/`, and the fragment is separated out.  Inputs
outside this shape are reported unparsable, which the TypeScript code treats
through its `catch` branches. -/

structure UrlRec where
  scheme : List Char
  host : List Char
  port : Option (List Char)
  path : List Char
  query : Option (List Char)
deriving DecidableEq, Repr

/-- Split a character list at the first occurrence of `"://"`. -/
def splitSchemeAux : List Char → Option (List Char × List Char)
  | ':' :: '/' :: '/' :: rest => some ([], rest)
  | c :: rest =>
      match splitSchemeAux rest with
      | some (a, b) => some (c :: a, b)
      | none => none
  | [] => none

def isHostChar (c : Char) : Bool := c.isAlpha ∨ c.isDigit ∨ c = '.' ∨ c = '-'

def isAuthorityEnd (c : Char) : Bool := c = '/' ∨ c = '?' ∨ c = '#'

def isPathEnd (c : Char) : Bool := c = '?' ∨ c = '#'

/-- The `host[:port]` part of an authority. -/
def parsePort : List Char → Option (Option (List Char))
  | [] => some none
  | ':' :: [] => some none
  | ':' :: ds => if ds.all Char.isDigit then some (some ds) else none
  | _ => none

def parseUrlCs (l : List Char) : Option UrlRec :=
  match splitSchemeAux l with
  | none => none
  | some (schemeCs, rest) =>
    if schemeCs ≠ [] ∧ schemeCs.all Char.isAlpha then
      let auth := rest.takeWhile (fun c => ¬ isAuthorityEnd c)
      let rest1 := rest.dropWhile (fun c => ¬ isAuthorityEnd c)
      let hostCs := auth.takeWhile (· ≠ ':')
      match parsePort (auth.dropWhile (· ≠ ':')) with
      | none => none
      | some port =>
        if hostCs ≠ [] ∧ hostCs.all isHostChar then
          let pathCs := rest1.takeWhile (fun c => ¬ isPathEnd c)
          let rest2 := rest1.dropWhile (fun c => ¬ isPathEnd c)
          let query : Option (List Char) :=
            match rest2 with
            | '?' :: qs => some (qs.takeWhile (· ≠ '#'))
            | _ => none
          some
            { scheme := schemeCs.map Char.toLower
              host := hostCs.map Char.toLower
              port := port
              path := if pathCs = [] then ['/'] else pathCs
              query := query }
        else none
    else none

def serializeUrlCs (r : UrlRec) : List Char :=
  r.scheme ++ (':' :: '/' :: '/' :: []) ++ r.host ++
    (match r.port with | none => [] | some p => ':' :: p) ++
    r.path ++
    (match r.query with | none => [] | some q => '?' :: q)

/-- `URLSearchParams` parsing of a raw query string: split on `&`, drop empty
segments, split each segment at its first `=`. -/
def parseParams (qs : List Char) : List (List Char × List Char) :=
  (splitOnChar '&' qs).filterMap fun piece =>
    if piece = [] then none
    else
      some (piece.takeWhile (· ≠ '='),
        match piece.dropWhile (· ≠ '=') with
        | '=' :: v => v
        | _ => [])

/-- `URLSearchParams.prototype.toString` on decoded pairs. -/
def serializeParams (ps : List (List Char × List Char)) : List Char :=
  joinWithChar '&' (ps.map fun p => p.1 ++ '=' :: p.2)

/-- The comparison JS `Array.prototype.sort()` applies to `[key, value]`
entries: lexicographic on the string `key + "," + value`. -/
def pairLe (a b : List Char × List Char) : Bool :=
  charsLe (a.1 ++ ',' :: a.2) (b.1 ++ ',' :: b.2)

/-- Strip one trailing slash from a pathname unless it is the bare root. -/
def stripSlashCs (p : List Char) : List Char :=
  if p ≠ ['/'] ∧ p.getLast? = some '/' then p.dropLast else p

/-- `normalizeUrl` from `url.utils.ts`: parse, drop the fragment, sort the
query parameters, strip one trailing slash (except on the root path),
lowercase the hostname, reserialize; unparsable input is returned verbatim. -/
def normalizeUrl (s : String) : String :=
  match parseUrlCs s.toList with
  | none => s
  | some r =>
      let pairs := parseParams (match r.query with | none => [] | some q => q)
      let sorted := sortByLe pairLe pairs
      let qser := serializeParams sorted
      String.mk (serializeUrlCs
        { r with
          host := r.host.map Char.toLower
          path := stripSlashCs r.path
          query := if qser = [] then none else some qser })

/-- The WHATWG origin of a URL record. -/
def originOfRec (r : UrlRec) : List Char :=
  r.scheme ++ (':' :: '/' :: '/' :: []) ++ r.host ++
    (match r.port with | none => [] | some p => ':' :: p)

/-- `isSameOrigin` from `url.utils.ts`. -/
def isSameOrigin (url1 url2 : String) : Bool :=
  match parseUrlCs url1.toList, parseUrlCs url2.toList with
  | some r1, some r2 => originOfRec r1 = originOfRec r2
  | _, _ => false

example : normalizeUrl "https://Example.com/a/" = "https://example.com/a" := by decide
example : normalizeUrl "https://example.com/a" = "https://example.com/a" := by decide
example : normalizeUrl "https://h.x/p?b=2&a=1#frag" = "https://h.x/p?a=1&b=2" := by decide
example : normalizeUrl "not a url" = "not a url" := by decide
example : normalizeUrl "https://h.x/a//" = "https://h.x/a/" := by decide
example : normalizeUrl "https://h.x/a/" = "https://h.x/a" := by decide

/-! ## The fingerprint engine (`src/.../utils/fingerprint.ts`)

`normalizeHtmlStructure` is a pipeline of five global regex replacements over
the raw HTML string.  Each replacement is embedded as a left-to-right scanner
(structurally recursive on a fuel argument that is always instantiated with
the input length, which bounds the number of scanning steps). -/

/-- Pass 1, `/>([^<]+)</g → "><"`: drop every nonempty run of non-`<`
characters enclosed between `>` and `<`. -/
def stripTextAux : Nat → List Char → List Char
  | _, [] => []
  | 0, l => l
  | n + 1, '>' :: rest =>
      match rest.dropWhile (· ≠ '<') with
      | '<' :: tail =>
          if rest.takeWhile (· ≠ '<') = [] then '>' :: stripTextAux n rest
          else '>' :: '<' :: stripTextAux n tail
      | _ => '>' :: rest
  | n + 1, c :: rest => c :: stripTextAux n rest

/-- Case-insensitive literal match of `name`, returning the remainder. -/
def dropNameCI : List Char → List Char → Option (List Char)
  | [], l => some l
  | c :: cs, d :: ds => if d.toLower = c.toLower then dropNameCI cs ds else none
  | _ :: _, [] => none

/-- Match `name="value"` (the part of `/\sname="[^"]*"/i` after the
whitespace), returning the remainder after the closing quote. -/
def matchAttr (name l : List Char) : Option (List Char) :=
  match dropNameCI name l with
  | none => none
  | some l1 =>
    match l1 with
    | '=' :: '"' :: l2 =>
        match l2.dropWhile (· ≠ '"') with
        | '"' :: rem => some rem
        | _ => none
    | _ => none

/-- Pass 2 for one simple attribute name, `/\sname="[^"]*"/gi → ""`. -/
def removeAttrAux (name : List Char) : Nat → List Char → List Char
  | _, [] => []
  | 0, l => l
  | n + 1, c :: rest =>
      if c.isWhitespace then
        match matchAttr name rest with
        | some rem => removeAttrAux name n rem
        | none => c :: removeAttrAux name n rest
      else c :: removeAttrAux name n rest

/-- Match the part of `/\sdata-[^=]*="[^"]*"/i` after the whitespace. -/
def matchDataAttr (l : List Char) : Option (List Char) :=
  match dropNameCI ['d', 'a', 't', 'a', '-'] l with
  | none => none
  | some l1 =>
      match l1.dropWhile (· ≠ '=') with
      | '=' :: '"' :: l2 =>
          match l2.dropWhile (· ≠ '"') with
          | '"' :: rem => some rem
          | _ => none
      | _ => none

/-- Pass 2 for the `data-` wildcard entry of the volatile attribute list. -/
def removeDataAttrAux : Nat → List Char → List Char
  | _, [] => []
  | 0, l => l
  | n + 1, c :: rest =>
      if c.isWhitespace then
        match matchDataAttr rest with
        | some rem => removeDataAttrAux n rem
        | none => c :: removeDataAttrAux n rest
      else c :: removeDataAttrAux n rest

/-- The volatile attribute list of the source:
`['id', 'style', 'nonce', 'csrf', 'value', 'data-[^=]*']` (the last entry is
handled by `removeDataAttrAux`). -/
def volatileSimpleNames : List (List Char) :=
  [['i', 'd'], ['s', 't', 'y', 'l', 'e'], ['n', 'o', 'n', 'c', 'e'],
   ['c', 's', 'r', 'f'], ['v', 'a', 'l', 'u', 'e']]

def removeVolatileAttrs (l : List Char) : List Char :=
  let l1 := volatileSimpleNames.foldl (fun acc nm => removeAttrAux nm acc.length acc) l
  removeDataAttrAux l1.length l1

/-- `classes.split(/\s+/).filter(Boolean).sort().join(' ')`. -/
def sortClassTokens (v : List Char) : List Char :=
  joinWithChar ' ' (sortByLe charsLe ((v.splitOnP (·.isWhitespace)).filter (· ≠ [])))

/-- Match the literal `class="value"`, returning value and remainder. -/
def matchClassAttr : List Char → Option (List Char × List Char)
  | 'c' :: 'l' :: 'a' :: 's' :: 's' :: '=' :: '"' :: l2 =>
      (match l2.dropWhile (· ≠ '"') with
       | '"' :: rem => some (l2.takeWhile (· ≠ '"'), rem)
       | _ => none)
  | _ => none

/-- Pass 3, `/class="([^"]*)"/g`, replacing the class value by its sorted
token list. -/
def sortClassesAux : Nat → List Char → List Char
  | _, [] => []
  | 0, l => l
  | n + 1, c :: rest =>
      match matchClassAttr (c :: rest) with
      | some (v, rem) =>
          ('c' :: 'l' :: 'a' :: 's' :: 's' :: '=' :: '"' :: sortClassTokens v) ++
            '"' :: sortClassesAux n rem
      | none => c :: sortClassesAux n rest

/-- Pass 4, `/>\s+</g → "><"`. -/
def collapseWsAux : Nat → List Char → List Char
  | _, [] => []
  | 0, l => l
  | n + 1, '>' :: rest =>
      match rest.dropWhile Char.isWhitespace with
      | '<' :: tail =>
          if rest.takeWhile Char.isWhitespace = [] then '>' :: collapseWsAux n rest
          else '>' :: '<' :: collapseWsAux n tail
      | _ => '>' :: collapseWsAux n rest
  | n + 1, c :: rest => c :: collapseWsAux n rest

def isUpperDigit (c : Char) : Bool := c.isUpper ∨ c.isDigit

/-- Pass 5, `/<\/?[A-Z][A-Z0-9]*/g`, lowercasing the matched run. -/
def lowerTagsAux : Nat → List Char → List Char
  | _, [] => []
  | 0, l => l
  | n + 1, '<' :: rest =>
      (match rest with
       | '/' :: c :: cs =>
           if c.isUpper then
             '<' :: '/' :: (c :: cs.takeWhile isUpperDigit).map Char.toLower ++
               lowerTagsAux n (cs.dropWhile isUpperDigit)
           else '<' :: lowerTagsAux n rest
       | c :: cs =>
           if c.isUpper then
             '<' :: (c :: cs.takeWhile isUpperDigit).map Char.toLower ++
               lowerTagsAux n (cs.dropWhile isUpperDigit)
           else '<' :: lowerTagsAux n rest
       | [] => ['<'])
  | n + 1, c :: rest => c :: lowerTagsAux n rest

/-- JS `String.prototype.trim`. -/
def trimChars (l : List Char) : List Char :=
  ((l.dropWhile Char.isWhitespace).reverse.dropWhile Char.isWhitespace).reverse

/-- `normalizeHtmlStructure` from `fingerprint.ts`: strip inter-tag text,
remove volatile attributes, sort class tokens, collapse inter-tag whitespace,
lowercase tag names, trim. -/
def normalizeHtmlStructure (s : String) : String :=
  let l0 := s.toList
  let l1 := stripTextAux l0.length l0
  let l2 := removeVolatileAttrs l1
  let l3 := sortClassesAux l2.length l2
  let l4 := collapseWsAux l3.length l3
  let l5 := lowerTagsAux l4.length l4
  String.mk (trimChars l5)

/-- Modelled from the spec: SHA-256 (node's `crypto`, not in `src/`) is a
collision-resistant digest and "hash equality is treated as exact-string
equality", so the digest is idealized as an injective function — here the
canonical string itself. -/
def sha256 (content : String) : String := content

/-- `generateFingerprint` from `fingerprint.ts`. -/
def generateFingerprint (html : String) : String :=
  sha256 (normalizeHtmlStructure html)

def containsSub (pat l : List Char) : Bool := l.tails.any (pat.isPrefixOf ·)

def strIncludes (s sub : String) : Bool := containsSub sub.toList s.toList

/-- `detectRegionFromSelector` from `fingerprint.ts`. -/
def detectRegionFromSelector (selector : String) : String :=
  let lower := String.mk (selector.toList.map Char.toLower)
  if strIncludes lower "header" ∨ strIncludes lower "[role=\"banner\"]" then "header"
  else if strIncludes lower "nav" ∨ strIncludes lower "[role=\"navigation\"]" then "nav"
  else if strIncludes lower "footer" ∨ strIncludes lower "[role=\"contentinfo\"]" then "footer"
  else if strIncludes lower "aside" ∨ strIncludes lower "[role=\"complementary\"]" then "aside"
  else if strIncludes lower "main" ∨ strIncludes lower "[role=\"main\"]" then "main"
  else "unknown"

example : generateFingerprint "<a href=\"x\"></a>" ≠ generateFingerprint "<a href=\"y\"></a>" := by decide
example : generateFingerprint "<div id=\"a\">hello</div>" = generateFingerprint "<div id=\"b\">world</div>" := by decide
example : generateFingerprint "<div class=\"b a\"></div>" = generateFingerprint "<div class=\"a  b\"></div>" := by decide
example : generateFingerprint "<DIV>x</DIV>" = generateFingerprint "<div>y</div>" := by decide
example : generateFingerprint "<div data-x=\"1\"></div>" = generateFingerprint "<div data-y=\"2\"></div>" := by decide
example : normalizeHtmlStructure "<div> <span>t</span> </div>" = "<div><span></span></div>" := by decide
example : detectRegionFromSelector "#main-nav > a" = "nav" := by decide

/-! ## Remaining URL utilities used by the crawler -/

def binaryExtensions : List String :=
  [".pdf", ".jpg", ".jpeg", ".png", ".gif", ".svg", ".ico", ".zip", ".tar",
   ".gz", ".mp3", ".mp4", ".webm", ".woff", ".woff2", ".ttf", ".eot"]

/-- Find the first occurrence of `seg` in `l`, returning the remainder after
it. -/
def findSegFrom (seg : List Char) (l : List Char) : Option (List Char) :=
  if seg.isPrefixOf l then some (l.drop seg.length)
  else
    match l with
    | [] => none
    | _ :: rest => findSegFrom seg rest

/-- Unanchored test of a `*`-wildcard pattern (the source turns each exclude
pattern into a regex by `pattern.replace(/\*/g, '.*')` and calls `.test`;
other characters are treated literally in this model). -/
def wildcardSegs : List (List Char) → List Char → Bool
  | [], _ => true
  | seg :: segs, l =>
      match findSegFrom seg l with
      | some rem => wildcardSegs segs rem
      | none => false

/-- `shouldSkipUrl` from `url.utils.ts`. -/
def shouldSkipUrl (url : String) (excludePatterns : List String) : Bool :=
  let lowerUrl := url.toList.map Char.toLower
  if binaryExtensions.any (fun ext => ext.toList.isSuffixOf lowerUrl) then true
  else excludePatterns.any (fun p => wildcardSegs (splitOnChar '*' p.toList) url.toList)

/-- `resolveUrl` from `url.utils.ts` (`new URL(relativeUrl, baseUrl)`).
Modelled from the spec: the WHATWG reference resolution is restricted to
absolute references and root-relative references (`/...`); other relative
forms are reported unresolvable. -/
def resolveUrl (baseUrl relativeUrl : String) : Option String :=
  match parseUrlCs relativeUrl.toList with
  | some r => some (String.mk (serializeUrlCs r))
  | none =>
    match relativeUrl.toList, parseUrlCs baseUrl.toList with
    | '/' :: rest, some b =>
        let cs := '/' :: rest
        let pathCs := cs.takeWhile (fun c => ¬ isPathEnd c)
        let rest2 := cs.dropWhile (fun c => ¬ isPathEnd c)
        let query : Option (List Char) :=
          match rest2 with
          | '?' :: qs => some (qs.takeWhile (· ≠ '#'))
          | _ => none
        some (String.mk (serializeUrlCs { b with path := pathCs, query := query }))
    | _, _ => none

/-! ## The crawl coordinator (`crawler.service.ts`)

The browser is a navigation oracle: for a URL it either yields the final
(post-redirect) URL together with the outbound links of the rendered page, or
fails.  The loop is embedded with an explicit fuel argument bounding the
number of `while` iterations; termination is a theorem, not an assumption. -/

inductive PageStatus
  | pending
  | scanning
  | complete
  | error
deriving DecidableEq, Repr

structure CrawlConfig where
  maxPages : Nat
  maxDepth : Nat
  concurrency : Nat
  excludePatterns : List String
deriving Repr

structure NavOut where
  finalUrl : String
  links : List String
deriving DecidableEq, Repr

structure CrawlSt where
  visited : List String
  queue : List (String × Nat)
  pagesCreated : List (String × PageStatus)
  discovered : List String
deriving DecidableEq, Repr

/-- `CrawlerService.crawlPage`: the visited/skip/origin checks run before the
navigation; on success a pending Page record is created for the *queued* URL
and the page's links are returned, on navigation failure an error Page record
is created.  The oracle's `finalUrl` is never consulted. -/
def crawlPage (cfg : CrawlConfig) (rootOrigin : String) (nav : String → Option NavOut)
    (st : CrawlSt) (url : String) (_depth : Nat) :
    CrawlSt × Option (String × List String) :=
  if st.visited.contains url then (st, none)
  else if shouldSkipUrl url cfg.excludePatterns then (st, none)
  else if ¬ isSameOrigin url rootOrigin then (st, none)
  else
    let st1 := { st with visited := st.visited ++ [url] }
    match nav url with
    | some out =>
        ({ st1 with pagesCreated := st1.pagesCreated ++ [(url, .pending)] },
          some (url, out.links))
    | none =>
        ({ st1 with pagesCreated := st1.pagesCreated ++ [(url, .error)] }, none)

/-- `CrawlerService.processLinks`. -/
def processLinks (cfg : CrawlConfig) (rootOrigin : String) (st : CrawlSt)
    (links : List String) (currentUrl : String) (currentDepth : Nat) : CrawlSt :=
  if cfg.maxDepth ≤ currentDepth then st
  else
    links.foldl
      (fun s link =>
        match resolveUrl currentUrl link with
        | none => s
        | some resolved =>
            let normalized := normalizeUrl resolved
            if ¬ s.visited.contains normalized ∧
                ¬ s.queue.any (fun q => q.1 = normalized) ∧
                isSameOrigin normalized rootOrigin ∧
                ¬ shouldSkipUrl normalized cfg.excludePatterns then
              { s with queue := s.queue ++ [(normalized, currentDepth + 1)] }
            else s)
      st

/-- One batch of `crawlPage` calls (the `Promise.all`); the visited-set
checks and inserts of a batch happen sequentially in call order, before any
navigation resolves. -/
def runBatch (cfg : CrawlConfig) (rootOrigin : String) (nav : String → Option NavOut)
    (st0 : CrawlSt) (batch : List (String × Nat)) :
    CrawlSt × List (Option (String × List String)) :=
  batch.foldl
    (fun acc item =>
      let r := crawlPage cfg rootOrigin nav acc.1 item.1 item.2
      (r.1, acc.2 ++ [r.2]))
    (st0, [])

/-- One iteration of the crawl `while` loop: splice a batch off the queue,
crawl it, then process the links of every successful result with the *first*
batch item's depth (`batch[0]?.depth ?? 0`). -/
def crawlStep (cfg : CrawlConfig) (rootOrigin : String) (nav : String → Option NavOut)
    (st : CrawlSt) : CrawlSt :=
  let batch := st.queue.take cfg.concurrency
  let rb :=
    runBatch cfg rootOrigin nav { st with queue := st.queue.drop cfg.concurrency } batch
  let headDepth := match batch with | [] => 0 | b :: _ => b.2
  rb.2.foldl
    (fun s r =>
      match r with
      | some (url, links) =>
          processLinks cfg rootOrigin { s with discovered := s.discovered ++ [url] }
            links url headDepth
      | none => s)
    rb.1

/-- The `while` guard: queue nonempty and fewer visited URLs than
`maxPages`. -/
def crawlGuard (cfg : CrawlConfig) (st : CrawlSt) : Bool :=
  !st.queue.isEmpty && st.visited.length < cfg.maxPages

/-- The crawl loop with explicit fuel; the boolean reports whether the guard
became false within the allotted iterations. -/
def crawlLoop (cfg : CrawlConfig) (rootOrigin : String) (nav : String → Option NavOut) :
    Nat → CrawlSt → CrawlSt × Bool
  | 0, st => (st, !crawlGuard cfg st)
  | n + 1, st =>
      if crawlGuard cfg st then crawlLoop cfg rootOrigin nav n (crawlStep cfg rootOrigin nav st)
      else (st, true)

def initialCrawlSt (rootUrl : String) : CrawlSt :=
  { visited := [], queue := [(normalizeUrl rootUrl, 0)], pagesCreated := [], discovered := [] }

/-- `new URL(normalizedRoot).origin` (an unparsable root throws in the source
and aborts the scan before the loop; the empty-origin default is never
reached in the theorems below). -/
def crawlRootOrigin (rootUrl : String) : String :=
  match parseUrlCs (normalizeUrl rootUrl).toList with
  | some r => String.mk (originOfRec r)
  | none => ""

/-- `CrawlerService.crawl`. -/
def crawl (cfg : CrawlConfig) (rootUrl : String) (nav : String → Option NavOut)
    (fuel : Nat) : CrawlSt × Bool :=
  crawlLoop cfg (crawlRootOrigin rootUrl) nav fuel (initialCrawlSt rootUrl)

/-! ## The scan orchestrator (`scanner.service.ts`) -/

structure AxeNodeRec where
  target : List String
  html : String
  failureSummary : Option String
deriving DecidableEq, Repr

structure AxeViolationRec where
  ruleId : String
  description : String
  help : String
  helpUrl : String
  impact : String
  tags : List String
  nodes : List AxeNodeRec
deriving DecidableEq, Repr

structure PageRec where
  id : Nat
  url : String
  title : Option String
  status : PageStatus
  regions_fingerprint : Option (List (String × String))
deriving DecidableEq, Repr

structure IssueRec where
  id : Nat
  page_id : Nat
  axe_rule_id : String
  description : String
  impact : String
  wcag_tags : List String
  target_selector : Option String
  html_snippet : Option String
  dom_region : Option String
  region_fingerprint : Option String
  failure_summary : Option String
  is_shared_component : Bool
  shared_component_group : Option Nat
deriving DecidableEq, Repr

/-- Outcome of the fingerprint extraction race: the resolved region map, the
10s timeout (which resolves the race with an empty object), or a rejection of
`page.evaluate` itself. -/
inductive FpOutcome
  | ok (m : List (String × String))
  | timeout
  | err
deriving DecidableEq, Repr

/-- Per-page behaviour of the browser and evaluator: whether navigation
succeeds, the axe-core result (`none` meaning the 60s timeout or a thrown
analysis error), and the fingerprint-extraction outcome. -/
structure PageOracle where
  navOk : Bool
  axe : Option (List AxeViolationRec)
  fp : FpOutcome

def strStartsWith (s pre : String) : Bool := pre.toList.isPrefixOf s.toList

/-- The issue records built from the axe violations of one page
(`ScannerService.scanPage`'s violation loop). -/
def issuesFor (pageId : Nat) (idBase : Nat) (viols : List AxeViolationRec)
    (regionsFingerprint : List (String × String)) : List IssueRec :=
  let nodesFlat := viols.flatMap (fun v => v.nodes.map (fun n => (v, n)))
  nodesFlat.enum.map fun e =>
    let v := e.2.1
    let n := e.2.2
    let targetSelector := String.intercalate " " n.target
    let domRegion := detectRegionFromSelector targetSelector
    let regionFingerprint :=
      (fun o => if truthy o then o else none) (regionsFingerprint.lookup domRegion)
    { id := idBase + e.1
      page_id := pageId
      axe_rule_id := v.ruleId
      description := v.description
      impact := v.impact
      wcag_tags := v.tags.filter (fun t => strStartsWith t "wcag")
      target_selector := some targetSelector
      html_snippet := some (String.mk (n.html.toList.take 500))
      dom_region := some domRegion
      region_fingerprint := regionFingerprint
      failure_summary := n.failureSummary
      is_shared_component := false
      shared_component_group := none }

/-- `ScannerService.scanPage`: navigation failure, an axe-core
timeout/throw, or a fingerprint-extraction *rejection* mark the page
`error` with no issues; a fingerprint *timeout* resolves the race with an
empty map and the page still completes with its issues. -/
def scanPage (p : PageRec) (o : PageOracle) (idBase : Nat) : PageRec × List IssueRec :=
  let p1 := { p with status := PageStatus.scanning }
  if ¬ o.navOk then ({ p1 with status := .error }, [])
  else
    match o.axe with
    | none => ({ p1 with status := .error }, [])
    | some viols =>
        let fpM : Option (List (String × String)) :=
          match o.fp with
          | .ok mm => some mm
          | .timeout => some []
          | .err => none
        match fpM with
        | none => ({ p1 with status := .error }, [])
        | some m =>
            let issues := issuesFor p.id idBase viols m
            ({ p1 with status := .complete, regions_fingerprint := some m }, issues)

/-- `ScannerService.scanPages`: every page in status `pending` is processed;
a per-page failure never removes later pages from the batch schedule. -/
def scanPages (pages : List PageRec) (oracle : Nat → PageOracle) :
    List PageRec × List IssueRec :=
  (pages.filter (fun p => p.status = PageStatus.pending)).foldl
    (fun acc p =>
      let r := scanPage p (oracle p.id) acc.2.length
      (acc.1 ++ [r.1], acc.2 ++ r.2))
    ([], [])

/-! ## The deduplication engine (`deduplication.service.ts`)

The persistent store is a record of page, issue and shared-component tables;
`nanoid` id generation is modelled by a counter held in the store, so ids are
natural numbers and every `sc_<nanoid>` allocation increments the counter. -/

structure SharedComponent where
  id : Nat
  scan_id : String
  region : String
  fingerprint : String
  label : String
  page_count : Nat
  issue_count : Nat
  sample_html : Option String
  page_urls : List String
deriving DecidableEq, Repr

structure Db where
  pages : List PageRec
  issues : List IssueRec
  sharedComponents : List SharedComponent
  nextId : Nat
deriving DecidableEq, Repr

/-- `deduplicationThreshold = 0.5` (the default; `totalPages * 0.5` is exact
in binary floating point for every page count the route validation admits, so
rational arithmetic models `Math.ceil` faithfully). -/
def deduplicationThreshold : ℚ := 1 / 2

/-- `Math.ceil(totalPages * this.deduplicationThreshold)`, written as the
equal natural-number ceiling division so that the model evaluates inside the
kernel; `minPagesForShared_eq_ceil` below proves it is exactly
`⌈totalPages × threshold⌉`. -/
def minPagesForShared (totalPages : Nat) : Nat := (totalPages + 1) / 2

theorem minPagesForShared_eq_ceil (n : ℕ) :
    minPagesForShared n = Nat.ceil ((n : ℚ) * deduplicationThreshold) := by
  rw [minPagesForShared, deduplicationThreshold]
  rcases Nat.even_or_odd n with ⟨k, hk⟩ | ⟨k, hk⟩ <;> subst hk
  · rw [show ((k + k : ℕ) : ℚ) * (1 / 2) = (k : ℚ) by push_cast; ring]
    rw [Nat.ceil_natCast]
    omega
  · rw [show ((2 * k + 1 : ℕ) : ℚ) * (1 / 2) = (k : ℚ) + 1 / 2 by push_cast; ring]
    rw [show (2 * k + 1 + 1) / 2 = k + 1 by omega]
    symm
    rw [Nat.ceil_eq_iff (by omega)]
    constructor
    · push_cast
      norm_num
    · push_cast
      norm_num

/-- The `REGION_LABELS` record. -/
def regionLabelsLookup (region : String) : Option String :=
  if region = "header" then some "Site Header"
  else if region = "nav" then some "Main Navigation"
  else if region = "footer" then some "Site Footer"
  else if region = "aside" then some "Sidebar"
  else if region = "repeated-element" then some "Repeated Element"
  else if region = "duplicate-page" then some "Duplicate Page Content"
  else none

def regionLabel (region : String) : String :=
  match regionLabelsLookup region with
  | some l => l
  | none => "Shared " ++ region

/-- Append a URL to the nested `Map<region, Map<fingerprint, urls[]>>`. -/
def pushRegionFp (rg fp url : String) :
    List (String × List (String × List String)) → List (String × List (String × List String))
  | [] => [(rg, [(fp, [url])])]
  | (rg', fm) :: rest =>
      if rg' = rg then (rg', pushBucket fp url fm) :: rest
      else (rg', fm) :: pushRegionFp rg fp url rest

/-- `DeduplicationService.groupByFingerprints`. -/
def groupByFingerprints (pages : List PageRec) :
    List (String × List (String × List String)) :=
  pages.foldl
    (fun acc p =>
      match p.regions_fingerprint with
      | none => acc
      | some m => m.foldl (fun acc2 rf => pushRegionFp rf.1 rf.2 p.url acc2) acc)
    []

/-- `DeduplicationService.identifySharedComponents`: one component per
(region, fingerprint) pair shared by at least `minPages` page URLs. -/
def identifySharedComponents (scanId : String)
    (regionFingerprints : List (String × List (String × List String)))
    (minPages : Nat) (nextId : Nat) : List SharedComponent × Nat :=
  regionFingerprints.foldl
    (fun acc rgroup =>
      rgroup.2.foldl
        (fun acc2 fpg =>
          if minPages ≤ fpg.2.length then
            (acc2.1 ++
              [{ id := acc2.2
                 scan_id := scanId
                 region := rgroup.1
                 fingerprint := fpg.1
                 label := regionLabel rgroup.1
                 page_count := fpg.2.length
                 issue_count := 0
                 sample_html := none
                 page_urls := fpg.2 }], acc2.2 + 1)
          else acc2)
        acc)
    ([], nextId)

def isWordChar (c : Char) : Bool := c.isAlpha ∨ c.isDigit ∨ c = '_'

def isWordDash (c : Char) : Bool := isWordChar c ∨ c = '-'

/-- First match of `/#([\w-]+)/`. -/
def findHashRun : List Char → Option (List Char)
  | [] => none
  | '#' :: rest =>
      let run := rest.takeWhile isWordDash
      if run ≠ [] then some run else findHashRun rest
  | _ :: rest => findHashRun rest

/-- First match of `/\.([\w-]+)/`. -/
def findDotRun : List Char → Option (List Char)
  | [] => none
  | '.' :: rest =>
      let run := rest.takeWhile isWordDash
      if run ≠ [] then some run else findDotRun rest
  | _ :: rest => findDotRun rest

def dashUnderToSpace (l : List Char) : List Char :=
  l.map (fun c => if c = '-' ∨ c = '_' then ' ' else c)

/-- `/(\d+)/g → ' $1'`: a space before every maximal digit run. -/
def spaceDigitsAux : Bool → List Char → List Char
  | _, [] => []
  | prevDigit, c :: rest =>
      if c.isDigit then
        if prevDigit then c :: spaceDigitsAux true rest
        else ' ' :: c :: spaceDigitsAux true rest
      else c :: spaceDigitsAux false rest

def capitalizeWord : List Char → List Char
  | [] => []
  | c :: rest => c.toUpper :: rest

/-- `DeduplicationService.generateSelectorLabel`. -/
def generateSelectorLabel (selector : String) (_ruleId : String) : String :=
  let cs := selector.toList
  match findHashRun cs with
  | some run =>
      "Repeated: " ++ String.mk (trimChars (joinWithChar ' '
        ((splitOnChar ' ' (spaceDigitsAux false (dashUnderToSpace run))).map capitalizeWord)))
  | none =>
    match findDotRun cs with
    | some run =>
        "Repeated: " ++ String.mk (trimChars (joinWithChar ' '
          ((splitOnChar ' ' (dashUnderToSpace run)).map capitalizeWord)))
    | none =>
      match cs.takeWhile isWordChar with
      | [] => "Repeated: Element"
      | run => "Repeated: " ++ String.mk (capitalizeWord run)

/-- `IssueModel.markManyAsSharedComponent`: set the shared flag and the
group id on the listed issues. -/
def markMany (issueIds : List Nat) (componentGroupId : Nat)
    (issues : List IssueRec) : List IssueRec :=
  issues.map fun i =>
    if issueIds.contains i.id then
      { i with is_shared_component := true, shared_component_group := some componentGroupId }
    else i

def findPageById (db : Db) (pid : Nat) : Option PageRec :=
  db.pages.find? (fun p => p.id = pid)

def findIssuesByPageId (db : Db) (pid : Nat) : List IssueRec :=
  db.issues.filter (fun i => i.page_id = pid)

def selOrEmpty (i : IssueRec) : String :=
  match i.target_selector with
  | some s => s
  | none => ""

structure SelGroup where
  ruleId : String
  selector : String
  issues : List IssueRec
  pageIds : List Nat
  pageUrls : List String
  sampleHtml : Option String

/-- Update the value at a key of an association list in place. -/
def updateKey [DecidableEq α] (k : α) (f : β → β) : List (α × β) → List (α × β)
  | [] => []
  | (k', v) :: rest => if k' = k then (k', f v) :: rest else (k', v) :: updateKey k f rest

/-- One iteration of Phase 2b's component-creation loop: a selector group
spanning at least `minPages` distinct pages becomes a `repeated-element`
component whose issues are marked at once. -/
def isbsStep (scanId : String) (minPages : Nat)
    (acc : List SharedComponent × Db) (kg : String × SelGroup) :
    List SharedComponent × Db :=
  let g := kg.2
  if minPages ≤ g.pageIds.length then
    let comp : SharedComponent :=
      { id := acc.2.nextId
        scan_id := scanId
        region := "repeated-element"
        fingerprint := "selector:" ++ kg.1
        label := generateSelectorLabel g.selector g.ruleId
        page_count := g.pageIds.length
        issue_count := 1
        sample_html := g.sampleHtml
        page_urls := g.pageUrls }
    (acc.1 ++ [comp],
      { acc.2 with
        nextId := acc.2.nextId + 1
        issues := markMany (g.issues.map (·.id)) comp.id acc.2.issues })
  else acc

/-- `DeduplicationService.identifySharedBySelector` (Phase 2b): group the
issues that are not yet flagged shared by (rule id, target selector); every
group spanning at least `minPages` distinct pages becomes a
`repeated-element` component, and its issues are marked immediately. -/
def identifySharedBySelector (scanId : String) (db : Db) (minPages : Nat) :
    List SharedComponent × Db :=
  let issues := db.issues
  let selectorGroups :=
    issues.foldl
      (fun (m : List (String × SelGroup)) i =>
        if i.is_shared_component then m
        else if ¬ truthy i.target_selector then m
        else
          let sel := selOrEmpty i
          let key := i.axe_rule_id ++ ":" ++ sel
          let m1 :=
            if (m.lookup key).isSome then m
            else m ++ [(key,
              { ruleId := i.axe_rule_id, selector := sel, issues := [], pageIds := [],
                pageUrls := [], sampleHtml := i.html_snippet })]
          updateKey key
            (fun g =>
              let g1 := { g with issues := g.issues ++ [i], pageIds := addSet i.page_id g.pageIds }
              match findPageById db i.page_id with
              | some p => { g1 with pageUrls := addSet p.url g1.pageUrls }
              | none => g1)
            m1)
      []
  selectorGroups.foldl (isbsStep scanId minPages) ([], db)

/-- `DeduplicationService.saveSharedComponents`: plain `INSERT` rows, never a
delete or an update. -/
def saveSharedComponents (db : Db) (components : List SharedComponent) : Db :=
  { db with sharedComponents := db.sharedComponents ++ components }

/-- One iteration of Phase 3's per-component loop: collapse the component's
issues by (rule id, selector), mark them all with the component id, and store
the unique-issue count on the component row. -/
def markCompStep (d : Db) (ci : Nat × List IssueRec) : Db :=
  let uniqueIssues :=
    ci.2.foldl
      (fun (u : List (String × List IssueRec)) i =>
        pushBucket (i.axe_rule_id ++ ":" ++ selOrEmpty i) i u)
      []
  let d1 :=
    uniqueIssues.foldl
      (fun dd grp => { dd with issues := markMany (grp.2.map (·.id)) ci.1 dd.issues })
      d
  { d1 with
    sharedComponents :=
      d1.sharedComponents.map fun c =>
        if c.id = ci.1 then { c with issue_count := uniqueIssues.length } else c }

/-- `DeduplicationService.markSharedIssues` (Phase 3): route every issue
carrying a (region, fingerprint) pair of a saved component to that component,
collapse duplicates inside each component by (rule id, selector), mark them
all, and store the unique-issue count on the component row.  The
`is_shared_component` flag is not consulted here. -/
def buildFpToComp (sharedComponents : List SharedComponent) :
    List (String × SharedComponent) :=
  sharedComponents.foldl (fun m c => setKey (c.region ++ ":" ++ c.fingerprint) c m) []

/-- Route one issue to the component matching its (region, fingerprint)
pair, if any. -/
def routeStep (fpToComp : List (String × SharedComponent))
    (m : List (Nat × List IssueRec)) (i : IssueRec) : List (Nat × List IssueRec) :=
  if ¬ truthy i.dom_region ∨ ¬ truthy i.region_fingerprint then m
  else
    let key :=
      (match i.dom_region with | some s => s | none => "") ++ ":" ++
        (match i.region_fingerprint with | some s => s | none => "")
    match fpToComp.lookup key with
    | some c => pushBucket c.id i m
    | none => m

def markSharedIssues (db : Db) (sharedComponents : List SharedComponent) : Db :=
  let fingerprintToComponent := buildFpToComp sharedComponents
  let componentIssues := db.issues.foldl (routeStep fingerprintToComponent) []
  componentIssues.foldl markCompStep db

/-- The content fingerprint of a page:
`page.regions_fingerprint?.main || page.regions_fingerprint?.body`. -/
def contentFingerprintOf (p : PageRec) : Option String :=
  match p.regions_fingerprint with
  | none => none
  | some m => jsOr (m.lookup "main") (m.lookup "body")

/-- `new URL(u).pathname`, falling back to the raw string. -/
def pathnameOf (u : String) : String :=
  match parseUrlCs u.toList with
  | some r => String.mk r.path
  | none => u

/-- One iteration of Phase 4's loop over content-fingerprint groups: fetch
the candidate pages' issues fresh, group the not-yet-shared ones by
(rule id, selector), mark the groups spanning at least two pages, and create
a `duplicate-page` component when anything was marked (the id is allocated
either way). -/
def dupPagesStep (scanId : String) (acc : List SharedComponent × Db)
    (fg : String × List PageRec) : List SharedComponent × Db :=
  let duplicatePages := fg.2
  if duplicatePages.length < 2 then acc
  else
    let d := acc.2
    let pageUrls := duplicatePages.map (·.url)
    let allIssues := duplicatePages.flatMap (fun p => findIssuesByPageId d p.id)
    let issueGroups :=
      allIssues.foldl
        (fun (u : List (String × List IssueRec)) i =>
          if i.is_shared_component then u
          else pushBucket (i.axe_rule_id ++ ":" ++ selOrEmpty i) i u)
        []
    let componentId := d.nextId
    let d0 := { d with nextId := d.nextId + 1 }
    let step : Db × Nat :=
      issueGroups.foldl
        (fun (s : Db × Nat) grp =>
          if 2 ≤ (dedupList (grp.2.map (·.page_id))).length then
            ({ s.1 with issues := markMany (grp.2.map (·.id)) componentId s.1.issues },
              s.2 + 1)
          else s)
        (d0, 0)
    if 0 < step.2 then
      let shortUrls := pageUrls.map pathnameOf
      (acc.1 ++
        [{ id := componentId
           scan_id := scanId
           region := "duplicate-page"
           fingerprint := "main:" ++ fg.1
           label := "Duplicate Page: " ++ String.intercalate ", " shortUrls
           page_count := duplicatePages.length
           issue_count := step.2
           sample_html := none
           page_urls := pageUrls }], step.1)
    else (acc.1, step.1)

/-- `DeduplicationService.identifyDuplicatePages` (Phase 4). -/
def identifyDuplicatePages (scanId : String) (db : Db) (pages : List PageRec) :
    List SharedComponent × Db :=
  let mainFingerprintGroups :=
    pages.foldl
      (fun (m : List (String × List PageRec)) p =>
        match contentFingerprintOf p with
        | none => m
        | some cf => pushBucket cf p m)
      []
  mainFingerprintGroups.foldl (dupPagesStep scanId) ([], db)

/-- One iteration of Phase 4.5's loop over (title, issue-signature) groups,
with the same marking procedure as Phase 4. -/
def dupSigStep (scanId : String) (acc : List SharedComponent × Db)
    (sg : String × List (PageRec × String)) : List SharedComponent × Db :=
  if sg.2.length < 2 then acc
  else
    let d := acc.2
    let duplicatePages := sg.2.map (·.1)
    let pageUrls := duplicatePages.map (·.url)
    let allIssues := duplicatePages.flatMap (fun p => findIssuesByPageId d p.id)
    let issueGroups :=
      allIssues.foldl
        (fun (u : List (String × List IssueRec)) i =>
          if i.is_shared_component then u
          else pushBucket (i.axe_rule_id ++ ":" ++ selOrEmpty i) i u)
        []
    let componentId := d.nextId
    let d0 := { d with nextId := d.nextId + 1 }
    let step : Db × Nat :=
      issueGroups.foldl
        (fun (s : Db × Nat) grp =>
          if 2 ≤ (dedupList (grp.2.map (·.page_id))).length then
            ({ s.1 with issues := markMany (grp.2.map (·.id)) componentId s.1.issues },
              s.2 + 1)
          else s)
        (d0, 0)
    if 0 < step.2 then
      let shortUrls := pageUrls.map pathnameOf
      (acc.1 ++
        [{ id := componentId
           scan_id := scanId
           region := "duplicate-page"
           fingerprint := "issue-sig:" ++ String.intercalate "+" shortUrls
           label := "Duplicate Page: " ++ String.intercalate ", " shortUrls
           page_count := duplicatePages.length
           issue_count := step.2
           sample_html := none
           page_urls := pageUrls }], step.1)
    else (acc.1, step.1)

/-- `DeduplicationService.identifyDuplicatesByIssueSignature` (Phase 4.5). -/
def identifyDuplicatesByIssueSignature (scanId : String) (db : Db)
    (pages : List PageRec) : List SharedComponent × Db :=
  let pageSignatures :=
    pages.foldl
      (fun (m : List (Nat × (PageRec × String × String))) p =>
        match findPageById db p.id with
        | none => m
        | some fullPage =>
          if ¬ truthy fullPage.title then m
          else
            let title := match fullPage.title with | some t => t | none => ""
            let issues := findIssuesByPageId db p.id
            if issues = [] then m
            else
              let sigParts :=
                sortByLe strLe
                  ((issues.filter (fun i => ¬ i.is_shared_component)).map
                    (fun i => i.axe_rule_id ++ ":" ++ selOrEmpty i))
              if sigParts = [] then m
              else
                let groupKey := title ++ "::" ++ String.intercalate "|" sigParts
                setKey p.id (p, title, groupKey) m)
      []
  let signatureGroups :=
    pageSignatures.foldl
      (fun (g : List (String × List (PageRec × String))) e =>
        pushBucket e.2.2.2 (e.2.1, e.2.2.1) g)
      []
  signatureGroups.foldl (dupSigStep scanId) ([], db)

/-- `DeduplicationService.analyze`: the four layers in source order.  Note
that Phase 2b runs *before* Phase 3's marking, and that saving only ever
appends component rows. -/
def analyze (db : Db) (scanId : String) : Db × List SharedComponent :=
  let pages :=
    (sortByLe (fun a b => strLe a.url b.url) db.pages).filter
      (fun p => p.status = PageStatus.complete)
  let minPages := minPagesForShared pages.length
  let regionFingerprints := groupByFingerprints pages
  let rc := identifySharedComponents scanId regionFingerprints minPages db.nextId
  let sb := identifySharedBySelector scanId { db with nextId := rc.2 } minPages
  let sharedComponents := rc.1 ++ sb.1
  let db2 := saveSharedComponents sb.2 sharedComponents
  let db3 := markSharedIssues db2 sharedComponents
  let dp := identifyDuplicatePages scanId db3 pages
  let db4 := if dp.1 = [] then dp.2 else saveSharedComponents dp.2 dp.1
  let sharedComponents2 := sharedComponents ++ dp.1
  let alreadyDeduped :=
    sharedComponents2.foldl
      (fun (s : List String) c =>
        if c.region = "duplicate-page" then c.page_urls.foldl (fun s2 u => addSet u s2) s
        else s)
      []
  let remainingPages := pages.filter (fun p => ¬ alreadyDeduped.contains p.url)
  let isg := identifyDuplicatesByIssueSignature scanId db4 remainingPages
  let db5 := if isg.1 = [] then isg.2 else saveSharedComponents isg.2 isg.1
  (db5, sharedComponents2 ++ isg.1)

/-! ## The pipeline driver (`scan.routes.ts`) -/

inductive ScanStatus
  | pending
  | crawling
  | scanning
  | analyzing
  | complete
  | failed
deriving DecidableEq, Repr

/-- The sequence of scan-status writes performed by `runScan` together with
the `catch` handler installed in `createScanRoutes` (which writes `failed`
whenever `runScan` rejects).  Each phase argument tells whether that phase
returned normally or threw; `runScan` itself contains no try/catch. -/
def runScanStatusWrites (crawlRes scanRes dedupRes : Except String Unit) :
    List ScanStatus :=
  ScanStatus.crawling ::
    match crawlRes with
    | .error _ => [.failed]
    | .ok _ =>
      ScanStatus.scanning ::
        match scanRes with
        | .error _ => [.failed]
        | .ok _ =>
          ScanStatus.analyzing ::
            match dedupRes with
            | .error _ => [.failed]
            | .ok _ => [.complete]

/-- The scan status left in the store after the pipeline settles. -/
def finalScanStatus (crawlRes scanRes dedupRes : Except String Unit) : ScanStatus :=
  (runScanStatusWrites crawlRes scanRes dedupRes).getLastD ScanStatus.pending

/-! ### Concrete dedup scratch checks -/

def exPageA : PageRec :=
  { id := 1, url := "https://s.x/a", title := none, status := .complete,
    regions_fingerprint := some [("header", "F")] }

def exPageB : PageRec :=
  { id := 2, url := "https://s.x/b", title := none, status := .complete,
    regions_fingerprint := some [("header", "F")] }

def exIssue (iid pid : Nat) : IssueRec :=
  { id := iid, page_id := pid, axe_rule_id := "r", description := "d",
    impact := "serious", wcag_tags := [], target_selector := some "s",
    html_snippet := some "<x>", dom_region := some "header",
    region_fingerprint := some "F", failure_summary := none,
    is_shared_component := false, shared_component_group := none }

def exDb : Db :=
  { pages := [exPageA, exPageB], issues := [exIssue 1 1, exIssue 2 2],
    sharedComponents := [], nextId := 0 }

example :
    ((identifySharedBySelector "scan" { exDb with nextId := 1 } 1).2.issues.map
      (·.shared_component_group)) = [some 1, some 1] := by decide

example :
    ((analyze exDb "scan").1.issues.map (·.shared_component_group)) = [some 0, some 0] := by decide

example : ((analyze exDb "scan").2.map (·.id)) = [0, 1] := by decide

example : ((analyze (analyze exDb "scan").1 "scan").1.sharedComponents.map (·.id)) = [0, 1, 2] := by decide

example :
    ((analyze (analyze exDb "scan").1 "scan").1.issues.map (·.shared_component_group)) =
      [some 2, some 2] := by decide

/-! ### Concrete crawl and scan scratch checks -/

def exCfg1 : CrawlConfig :=
  { maxPages := 2, maxDepth := 9, concurrency := 3, excludePatterns := [] }

def exNav1 : String → Option NavOut := fun u =>
  some { finalUrl := u,
         links := if u = "https://s.x/" then ["https://s.x/a", "https://s.x/b", "https://s.x/c"] else [] }

example : ((crawl exCfg1 "https://s.x/" exNav1 10).1.visited.length, (crawl exCfg1 "https://s.x/" exNav1 10).2) = (4, true) := by decide

def exCfg2 : CrawlConfig :=
  { maxPages := 100, maxDepth := 2, concurrency := 2, excludePatterns := [] }

def exNav2 : String → Option NavOut := fun u =>
  some { finalUrl := u,
         links :=
          if u = "https://s.x/" then ["https://s.x/a", "https://s.x/b", "https://s.x/c"]
          else if u = "https://s.x/a" then ["https://s.x/d"]
          else if u = "https://s.x/d" then ["https://s.x/e"]
          else [] }

example : ((crawl exCfg2 "https://s.x/" exNav2 20).1.visited.contains "https://s.x/e",
           (crawl exCfg2 "https://s.x/" exNav2 20).2) = (true, true) := by decide

def exNavRedirect : String → Option NavOut := fun u =>
  if u = "https://s.x/a" then some { finalUrl := "https://s.x/b", links := [] } else none

def exStRedirect : CrawlSt :=
  { visited := ["https://s.x/b"], queue := [], pagesCreated := [("https://s.x/b", .pending)],
    discovered := ["https://s.x/b"] }

example :
    ((crawlPage exCfg1 "https://s.x" exNavRedirect exStRedirect "https://s.x/a" 1).1.pagesCreated.map Prod.fst) =
      ["https://s.x/b", "https://s.x/a"] := by decide

def exViol : AxeViolationRec :=
  { ruleId := "image-alt", description := "Images must have alternate text",
    help := "h", helpUrl := "u", impact := "critical",
    tags := ["wcag2a", "best-practice"],
    nodes := [{ target := ["img"], html := "<img>", failureSummary := some "fix it" }] }

def exScanPage : PageRec :=
  { id := 7, url := "https://s.x/p", title := some "T", status := .pending,
    regions_fingerprint := none }

example :
    ((scanPage exScanPage { navOk := true, axe := some [exViol], fp := .timeout } 0).1.status,
     (scanPage exScanPage { navOk := true, axe := some [exViol], fp := .timeout } 0).2.length) =
      (PageStatus.complete, 1) := by decide

/-! ## Claim theorems: totality, failure semantics, layer ordering -/

/-- C10: `normalizeUrl` is a total function, and on any input that the URL
parser rejects the `catch` branch returns the input string unchanged, so
unparsable URLs take part in visited-set identity comparisons by their raw
text. -/
theorem normalizeUrl_total_on_unparsable (u : String)
    (h : parseUrlCs u.toList = none) : normalizeUrl u = u := by
  unfold normalizeUrl
  rw [h]

theorem normalizeUrl_total_on_unparsable_witness :
    parseUrlCs "not a url".toList = none ∧ normalizeUrl "not a url" = "not a url" :=
  ⟨by decide, normalizeUrl_total_on_unparsable "not a url" (by decide)⟩

/-- C3 counterexample: with the crawl and scan phases completing normally, an
exception thrown by the deduplication step leaves the Scan in status `failed`
(written by the `catch` handler of `createScanRoutes`), not `complete`: there
is no try/catch around `deduplicationService.analyze` inside `runScan`. -/
theorem dedup_throw_fails_scan_cx :
    finalScanStatus (Except.ok ()) (Except.ok ()) (Except.error "analyze threw") =
        ScanStatus.failed ∧
      finalScanStatus (Except.ok ()) (Except.ok ()) (Except.error "analyze threw") ≠
        ScanStatus.complete := by
  decide

/-- C3 amended: if the deduplication step throws after the crawl and scan
phases complete, the exception escapes `runScan` and the submit handler's
`catch` marks the Scan `failed`; only when `analyze` returns normally does
the Scan reach `complete`. -/
theorem dedup_throw_fails_scan (e : String) :
    finalScanStatus (Except.ok ()) (Except.ok ()) (Except.error e) = ScanStatus.failed ∧
      finalScanStatus (Except.ok ()) (Except.ok ()) (Except.ok ()) = ScanStatus.complete := by
  exact ⟨rfl, rfl⟩

theorem dedup_throw_fails_scan_witness :
    finalScanStatus (Except.ok ()) (Except.ok ()) (Except.error "boom") = ScanStatus.failed ∧
      finalScanStatus (Except.ok ()) (Except.ok ()) (Except.ok ()) = ScanStatus.complete :=
  dedup_throw_fails_scan "boom"

/-- C6 counterexample: a page whose fingerprint extraction times out (the
race resolves with an empty map) is marked `complete`, not `error`, and its
one issue is still recorded — the claim said such a page is marked `error`
with zero issues. -/
theorem fingerprint_timeout_completes_cx :
    (scanPage exScanPage { navOk := true, axe := some [exViol], fp := .timeout } 0).1.status =
        PageStatus.complete ∧
      (scanPage exScanPage { navOk := true, axe := some [exViol], fp := .timeout } 0).1.status ≠
        PageStatus.error ∧
      (scanPage exScanPage { navOk := true, axe := some [exViol], fp := .timeout } 0).2.length =
        1 := by
  decide

/-- C6 amended: when fingerprint extraction times out the page receives an
empty fingerprint map and still completes with the issues the evaluator
reported (none of them carrying a region fingerprint); and the scan schedule
processes every pending page of the batch list regardless of per-page
outcomes. -/
theorem fingerprint_timeout_completes :
    (∀ (p : PageRec) (o : PageOracle) (viols : List AxeViolationRec) (idBase : Nat),
        o.navOk = true → o.axe = some viols → o.fp = FpOutcome.timeout →
        scanPage p o idBase =
          ({ p with status := PageStatus.complete, regions_fingerprint := some [] },
            issuesFor p.id idBase viols [])) ∧
    (∀ (pages : List PageRec) (oracle : Nat → PageOracle),
        (scanPages pages oracle).1.length =
          (pages.filter (fun p => p.status = PageStatus.pending)).length) := by
  constructor
  · intro p o viols idBase hnav haxe hfp
    simp [scanPage, hnav, haxe, hfp]
  · intro pages oracle
    have key : ∀ (l : List PageRec) (acc : List PageRec × List IssueRec),
        (l.foldl
          (fun acc p =>
            let r := scanPage p (oracle p.id) acc.2.length
            (acc.1 ++ [r.1], acc.2 ++ r.2))
          acc).1.length = acc.1.length + l.length := by
      intro l
      induction l with
      | nil => intro acc; simp
      | cons p ps ih =>
          intro acc
          simp only [List.foldl_cons]
          rw [ih]
          simp only [List.length_append, List.length_cons, List.length_nil]
          omega
    simpa using key (pages.filter (fun p => p.status = PageStatus.pending)) ([], [])

theorem fingerprint_timeout_completes_witness :
    scanPage exScanPage { navOk := true, axe := some [exViol], fp := .timeout } 0 =
        ({ exScanPage with status := PageStatus.complete, regions_fingerprint := some [] },
          issuesFor exScanPage.id 0 [exViol] []) ∧
      (scanPages [exScanPage] (fun _ => { navOk := true, axe := some [exViol], fp := .timeout })).1.length =
        ([exScanPage].filter (fun p => p.status = PageStatus.pending)).length :=
  ⟨fingerprint_timeout_completes.1 exScanPage _ [exViol] 0 rfl rfl rfl,
    fingerprint_timeout_completes.2 [exScanPage] _⟩

/-- C4 (code bug): the repository README documents the crawler redirect check
("after `page.goto()`, compare the final URL with the original; skip if the
final URL was already visited — DO NOT REGRESS"), but `crawlPage` never reads
the navigation's final URL: here the navigation of `/a` resolves to the
already-visited `/b`, yet a new pending Page record for `/a` is appended
instead of the navigation being discarded. -/
theorem crawl_redirect_check_missing :
    exNavRedirect "https://s.x/a" = some { finalUrl := "https://s.x/b", links := [] } ∧
      exStRedirect.visited.contains (normalizeUrl "https://s.x/b") = true ∧
      (crawlPage exCfg1 "https://s.x" exNavRedirect exStRedirect "https://s.x/a"
            1).1.pagesCreated.map Prod.fst =
        ["https://s.x/b", "https://s.x/a"] := by
  decide

/-- C1 (code bug): in `analyze`, Phase 2b (`identifySharedBySelector`) runs
before Phase 3 (`markSharedIssues`), so its documented "skip issues already
in a region-based shared component" check never fires, and Phase 3 then
overwrites the group identifier Phase 2b assigned: on this two-page scan both
issues are first grouped into the repeated-element component (id 1) and end
the same run reassigned to the header region component (id 0). -/
theorem dedup_layer_order_code_bug :
    ((identifySharedBySelector "scan" { exDb with nextId := 1 }
          (minPagesForShared 2)).2.issues.map (·.shared_component_group) =
        [some 1, some 1]) ∧
      ((analyze exDb "scan").1.issues.map (·.shared_component_group) = [some 0, some 0]) ∧
      ((analyze exDb "scan").2.map (fun c => (c.id, c.region)) =
        [(0, "header"), (1, "repeated-element")]) := by
  decide

/-- C2 counterexample: running `analyze` a second time on the state left by
the first run yields a strictly larger set of Shared Component Group rows
(the saves only insert) and a different group assignment on every issue. -/
theorem analyze_not_idempotent_cx :
    ((analyze exDb "scan").1.sharedComponents.map (·.id) = [0, 1]) ∧
      ((analyze (analyze exDb "scan").1 "scan").1.sharedComponents.map (·.id) = [0, 1, 2]) ∧
      ((analyze exDb "scan").1.issues.map (·.shared_component_group) = [some 0, some 0]) ∧
      ((analyze (analyze exDb "scan").1 "scan").1.issues.map (·.shared_component_group) =
        [some 2, some 2]) := by
  decide

/-! ## C7: the shared-component threshold -/

/-- Whether a page's fingerprint map contains the entry (region, digest). -/
def hasRegionFp (p : PageRec) (rg fp : String) : Bool :=
  match p.regions_fingerprint with
  | none => false
  | some m => decide ((rg, fp) ∈ m)

/-- A page's fingerprint map binds each region at most once (JS object keys
are unique). -/
def fpKeysNodup (p : PageRec) : Bool :=
  match p.regions_fingerprint with
  | none => true
  | some m => decide (m.map Prod.fst).Nodup

/-- Lookup in the nested `Map<region, Map<fingerprint, urls[]>>`. -/
def lookup2 (rg fp : String) (m : List (String × List (String × List String))) :
    Option (List String) :=
  match m.lookup rg with
  | none => none
  | some fm => fm.lookup fp

theorem lookup_some_mem [BEq α] [LawfulBEq α] {m : List (α × β)} {k : α} {v : β}
    (h : m.lookup k = some v) : (k, v) ∈ m := by
  induction m with
  | nil => simp [List.lookup] at h
  | cons e m ih =>
      obtain ⟨k', v'⟩ := e
      by_cases hk : k = k'
      · subst hk
        simp [List.lookup] at h
        simp [h]
      · simp [List.lookup, beq_false_of_ne hk] at h
        exact List.mem_cons_of_mem _ (ih h)

theorem mem_lookup_of_keysNodup [BEq α] [LawfulBEq α] {m : List (α × β)} {k : α} {v : β}
    (hmem : (k, v) ∈ m) (hnd : (m.map Prod.fst).Nodup) : m.lookup k = some v := by
  induction m with
  | nil => simp at hmem
  | cons e m ih =>
      obtain ⟨k', v'⟩ := e
      rcases List.mem_cons.mp hmem with he | hm
      · obtain ⟨h1, h2⟩ := Prod.mk.injEq .. ▸ he
        subst h1; subst h2
        simp [List.lookup]
      · have hk : k ≠ k' := by
          rintro rfl
          exact (List.nodup_cons.mp hnd).1 (List.mem_map.mpr ⟨(k, v), hm, rfl⟩)
        simp only [List.lookup, beq_false_of_ne hk]
        exact ih hm (List.nodup_cons.mp hnd).2

theorem lookup_pushBucket_same [DecidableEq α] [BEq α] [LawfulBEq α]
    (k : α) (x : β) (m : List (α × List β)) :
    (pushBucket k x m).lookup k = some (((m.lookup k).getD []) ++ [x]) := by
  induction m with
  | nil => simp [pushBucket, List.lookup]
  | cons e m ih =>
      obtain ⟨k', xs⟩ := e
      by_cases h : k' = k
      · subst h
        simp [pushBucket, List.lookup]
      · simp [pushBucket, h, List.lookup, beq_false_of_ne (Ne.symm h), ih]

theorem lookup_pushBucket_ne [DecidableEq α] [BEq α] [LawfulBEq α]
    {k k' : α} (h : k' ≠ k) (x : β) (m : List (α × List β)) :
    (pushBucket k' x m).lookup k = m.lookup k := by
  induction m with
  | nil => simp [pushBucket, List.lookup, beq_false_of_ne (Ne.symm h)]
  | cons e m ih =>
      obtain ⟨k'', xs⟩ := e
      by_cases h2 : k'' = k'
      · subst h2
        simp [pushBucket, List.lookup, beq_false_of_ne (Ne.symm h)]
      · by_cases h3 : k'' = k
        · subst h3
          simp [pushBucket, h2, List.lookup]
        · simp [pushBucket, h2, List.lookup, beq_false_of_ne (Ne.symm h3), ih]

theorem lookup2_pushRegionFp_same (rg fp u : String)
    (m : List (String × List (String × List String))) :
    lookup2 rg fp (pushRegionFp rg fp u m) =
      some (((lookup2 rg fp m).getD []) ++ [u]) := by
  induction m with
  | nil => simp [pushRegionFp, lookup2, List.lookup]
  | cons e m ih =>
      obtain ⟨rg', fm⟩ := e
      by_cases h : rg' = rg
      · subst h
        simp [pushRegionFp, lookup2, List.lookup, lookup_pushBucket_same]
      · simp only [pushRegionFp, if_neg h]
        simpa [lookup2, List.lookup, beq_false_of_ne (Ne.symm h)] using ih

theorem lookup2_pushRegionFp_ne {rg fp rg' fp' : String}
    (h : ¬ (rg' = rg ∧ fp' = fp)) (u : String)
    (m : List (String × List (String × List String))) :
    lookup2 rg fp (pushRegionFp rg' fp' u m) = lookup2 rg fp m := by
  induction m with
  | nil =>
      by_cases h1 : rg' = rg
      · subst h1
        have h2 : fp' ≠ fp := fun hf => h ⟨rfl, hf⟩
        simp [pushRegionFp, lookup2, List.lookup, beq_false_of_ne (Ne.symm h2)]
      · simp [pushRegionFp, lookup2, List.lookup, beq_false_of_ne (Ne.symm h1)]
  | cons e m ih =>
      obtain ⟨rg'', fm⟩ := e
      by_cases h2 : rg'' = rg'
      · subst h2
        by_cases h1 : rg'' = rg
        · subst h1
          have h3 : fp' ≠ fp := fun hf => h ⟨rfl, hf⟩
          simp [pushRegionFp, lookup2, List.lookup, lookup_pushBucket_ne h3]
        · simp [pushRegionFp, lookup2, List.lookup, beq_false_of_ne (Ne.symm h1)]
      · by_cases h1 : rg'' = rg
        · subst h1
          simp [pushRegionFp, h2, lookup2, List.lookup]
        · simp only [pushRegionFp, if_neg h2]
          simpa [lookup2, List.lookup, beq_false_of_ne (Ne.symm h1)] using ih

theorem lookup2_foldl_entries (rg fp url : String) (em : List (String × String)) :
    ∀ acc, (em.map Prod.fst).Nodup →
      lookup2 rg fp (em.foldl (fun a rf => pushRegionFp rf.1 rf.2 url a) acc) =
        if (rg, fp) ∈ em then some (((lookup2 rg fp acc).getD []) ++ [url])
        else lookup2 rg fp acc := by
  induction em with
  | nil => intro acc _; simp
  | cons e em ih =>
      obtain ⟨e1, e2⟩ := e
      intro acc hnd
      rw [List.foldl_cons]
      by_cases he : (e1, e2) = (rg, fp)
      · obtain ⟨h1, h2⟩ := Prod.mk.injEq .. ▸ he
        subst h1; subst h2
        have hnotin : (e1, e2) ∉ em := by
          intro hmem
          exact (List.nodup_cons.mp hnd).1 (List.mem_map.mpr ⟨(e1, e2), hmem, rfl⟩)
        rw [ih _ (List.nodup_cons.mp hnd).2, if_neg hnotin]
        rw [show pushRegionFp (e1, e2).1 (e1, e2).2 url acc = pushRegionFp e1 e2 url acc from rfl]
        rw [lookup2_pushRegionFp_same, if_pos (List.mem_cons_self _ _)]
      · have hne : ¬ ((e1, e2).1 = rg ∧ (e1, e2).2 = fp) := by
          rintro ⟨h1, h2⟩
          simp only at h1 h2
          exact he (by rw [h1, h2])
        rw [ih _ (List.nodup_cons.mp hnd).2, lookup2_pushRegionFp_ne hne]
        by_cases hmem : (rg, fp) ∈ em
        · rw [if_pos hmem, if_pos (List.mem_cons_of_mem _ hmem)]
        · rw [if_neg hmem, if_neg (by
            intro hc
            rcases List.mem_cons.mp hc with hc1 | hc2
            · exact he hc1.symm
            · exact hmem hc2)]

theorem lookup2_groupByFold (rg fp : String) (pages : List PageRec) :
    ∀ acc, (∀ p ∈ pages, fpKeysNodup p = true) →
      lookup2 rg fp (pages.foldl
        (fun acc p =>
          match p.regions_fingerprint with
          | none => acc
          | some m => m.foldl (fun acc2 rf => pushRegionFp rf.1 rf.2 p.url acc2) acc)
        acc) =
      if (pages.filter (fun p => hasRegionFp p rg fp)).map (·.url) = []
      then lookup2 rg fp acc
      else some (((lookup2 rg fp acc).getD []) ++
        ((pages.filter (fun p => hasRegionFp p rg fp)).map (·.url))) := by
  induction pages with
  | nil => intro acc _; simp
  | cons p ps ih =>
      intro acc hk
      rw [List.foldl_cons]
      rcases hrf : p.regions_fingerprint with _ | m
      · have hh : hasRegionFp p rg fp = false := by simp [hasRegionFp, hrf]
        simp only [hrf]
        rw [ih _ (fun q hq => hk q (List.mem_cons_of_mem _ hq))]
        simp [List.filter_cons, hh]
      · have hnd : (m.map Prod.fst).Nodup := by
          have := hk p (List.mem_cons_self _ _)
          simpa [fpKeysNodup, hrf] using this
        simp only [hrf]
        rw [ih _ (fun q hq => hk q (List.mem_cons_of_mem _ hq))]
        rw [lookup2_foldl_entries rg fp p.url m _ hnd]
        by_cases hmem : (rg, fp) ∈ m
        · have hh : hasRegionFp p rg fp = true := by simp [hasRegionFp, hrf, hmem]
          rw [if_pos hmem]
          simp only [List.filter_cons, hh, if_pos, List.map_cons]
          by_cases hrest : (ps.filter (fun p => hasRegionFp p rg fp)).map (·.url) = []
          · simp [hrest]
          · simp only [if_neg hrest, if_neg (by simp : ¬(p.url :: (ps.filter
              (fun p => hasRegionFp p rg fp)).map (·.url) = []))]
            simp
        · have hh : hasRegionFp p rg fp = false := by simp [hasRegionFp, hrf, hmem]
          rw [if_neg hmem]
          simp [List.filter_cons, hh]

theorem pushBucket_keys [DecidableEq α] (k : α) (x : β) (m : List (α × List β)) :
    (pushBucket k x m).map Prod.fst =
      if k ∈ m.map Prod.fst then m.map Prod.fst else m.map Prod.fst ++ [k] := by
  induction m with
  | nil => simp [pushBucket]
  | cons e m ih =>
      obtain ⟨k', xs⟩ := e
      by_cases h : k' = k
      · subst h
        simp [pushBucket]
      · simp only [pushBucket, if_neg h, List.map_cons, ih]
        by_cases hmem : k ∈ m.map Prod.fst
        · rw [if_pos hmem, if_pos (List.mem_cons_of_mem _ hmem)]
        · rw [if_neg hmem, if_neg (by
            intro hc
            rcases List.mem_cons.mp hc with hc1 | hc2
            · exact h hc1.symm
            · exact hmem hc2), List.cons_append]

theorem pushRegionFp_keys (rg fp u : String)
    (m : List (String × List (String × List String))) :
    (pushRegionFp rg fp u m).map Prod.fst =
      if rg ∈ m.map Prod.fst then m.map Prod.fst else m.map Prod.fst ++ [rg] := by
  induction m with
  | nil => simp [pushRegionFp]
  | cons e m ih =>
      obtain ⟨rg', fm⟩ := e
      by_cases h : rg' = rg
      · subst h
        simp [pushRegionFp]
      · simp only [pushRegionFp, if_neg h, List.map_cons, ih]
        by_cases hmem : rg ∈ m.map Prod.fst
        · rw [if_pos hmem, if_pos (List.mem_cons_of_mem _ hmem)]
        · rw [if_neg hmem, if_neg (by
            intro hc
            rcases List.mem_cons.mp hc with hc1 | hc2
            · exact h hc1.symm
            · exact hmem hc2), List.cons_append]

theorem nodup_append_singleton {l : List α} {x : α} (h : l.Nodup) (hx : x ∉ l) :
    (l ++ [x]).Nodup := by
  rw [List.nodup_append]
  refine ⟨h, List.nodup_singleton x, fun a ha hax => ?_⟩
  rw [List.mem_singleton] at hax
  subst hax
  exact hx ha

theorem pushRegionFp_outer_nodup (rg fp u : String)
    {m : List (String × List (String × List String))}
    (h : (m.map Prod.fst).Nodup) : ((pushRegionFp rg fp u m).map Prod.fst).Nodup := by
  rw [pushRegionFp_keys]
  by_cases hmem : rg ∈ m.map Prod.fst
  · simpa [hmem] using h
  · simpa [hmem] using nodup_append_singleton h hmem

theorem pushBucket_keys_nodup [DecidableEq α] (k : α) (x : β) {m : List (α × List β)}
    (h : (m.map Prod.fst).Nodup) : ((pushBucket k x m).map Prod.fst).Nodup := by
  rw [pushBucket_keys]
  by_cases hmem : k ∈ m.map Prod.fst
  · simpa [hmem] using h
  · simpa [hmem] using nodup_append_singleton h hmem

theorem pushRegionFp_inner_nodup (rg fp u : String)
    {m : List (String × List (String × List String))}
    (h : ∀ e ∈ m, (e.2.map Prod.fst).Nodup) :
    ∀ e ∈ pushRegionFp rg fp u m, (e.2.map Prod.fst).Nodup := by
  induction m with
  | nil =>
      intro e he
      rw [show pushRegionFp rg fp u [] = [(rg, [(fp, [u])])] from rfl,
        List.mem_singleton] at he
      subst he
      simp
  | cons e0 m ih =>
      obtain ⟨rg', fm⟩ := e0
      by_cases hr : rg' = rg
      · subst hr
        intro e he
        rw [show pushRegionFp rg' fp u ((rg', fm) :: m) =
          (rg', pushBucket fp u fm) :: m from by simp [pushRegionFp]] at he
        rcases List.mem_cons.mp he with he1 | he2
        · subst he1
          exact pushBucket_keys_nodup fp u (h (rg', fm) (List.mem_cons_self _ _))
        · exact h e (List.mem_cons_of_mem _ he2)
      · intro e he
        rw [show pushRegionFp rg fp u ((rg', fm) :: m) =
          (rg', fm) :: pushRegionFp rg fp u m from by simp [pushRegionFp, hr]] at he
        rcases List.mem_cons.mp he with he1 | he2
        · subst he1
          exact h (rg', fm) (List.mem_cons_self _ _)
        · exact ih (fun e' he' => h e' (List.mem_cons_of_mem _ he')) e he2

theorem groupByFingerprints_nodups (pages : List PageRec) :
    ((groupByFingerprints pages).map Prod.fst).Nodup ∧
      ∀ e ∈ groupByFingerprints pages, (e.2.map Prod.fst).Nodup := by
  suffices h : ∀ (acc : List (String × List (String × List String))),
      (acc.map Prod.fst).Nodup → (∀ e ∈ acc, (e.2.map Prod.fst).Nodup) →
      ((pages.foldl
        (fun acc p =>
          match p.regions_fingerprint with
          | none => acc
          | some m => m.foldl (fun acc2 rf => pushRegionFp rf.1 rf.2 p.url acc2) acc)
        acc).map Prod.fst).Nodup ∧
      ∀ e ∈ (pages.foldl
        (fun acc p =>
          match p.regions_fingerprint with
          | none => acc
          | some m => m.foldl (fun acc2 rf => pushRegionFp rf.1 rf.2 p.url acc2) acc)
        acc), (e.2.map Prod.fst).Nodup by
    exact h [] (by simp) (by simp)
  have inner : ∀ (em : List (String × String)) (url : String)
      (acc : List (String × List (String × List String))),
      (acc.map Prod.fst).Nodup → (∀ e ∈ acc, (e.2.map Prod.fst).Nodup) →
      ((em.foldl (fun a rf => pushRegionFp rf.1 rf.2 url a) acc).map Prod.fst).Nodup ∧
        ∀ e ∈ em.foldl (fun a rf => pushRegionFp rf.1 rf.2 url a) acc,
          (e.2.map Prod.fst).Nodup := by
    intro em url
    induction em with
    | nil => intro acc h1 h2; exact ⟨h1, h2⟩
    | cons rf em ih =>
        intro acc h1 h2
        rw [List.foldl_cons]
        exact ih _ (pushRegionFp_outer_nodup _ _ _ h1) (pushRegionFp_inner_nodup _ _ _ h2)
  induction pages with
  | nil => intro acc h1 h2; exact ⟨h1, h2⟩
  | cons p ps ih =>
      intro acc h1 h2
      rw [List.foldl_cons]
      rcases hrf : p.regions_fingerprint with _ | m
      · simp only [hrf]
        exact ih _ h1 h2
      · simp only [hrf]
        obtain ⟨h1', h2'⟩ := inner m p.url acc h1 h2
        exact ih _ h1' h2'

theorem iscInner_exists_iff (scanId : String) (minPages : Nat) (rgname rg fp : String)
    (fm : List (String × List String)) :
    ∀ (acc : List SharedComponent × Nat),
      (∃ c ∈ (fm.foldl
          (fun acc2 fpg =>
            if minPages ≤ fpg.2.length then
              (acc2.1 ++
                [{ id := acc2.2
                   scan_id := scanId
                   region := rgname
                   fingerprint := fpg.1
                   label := regionLabel rgname
                   page_count := fpg.2.length
                   issue_count := 0
                   sample_html := none
                   page_urls := fpg.2 }], acc2.2 + 1)
            else acc2)
          acc).1, c.region = rg ∧ c.fingerprint = fp) ↔
        ((∃ c ∈ acc.1, c.region = rg ∧ c.fingerprint = fp) ∨
          ∃ q ∈ fm, q.1 = fp ∧ minPages ≤ q.2.length ∧ rgname = rg) := by
  induction fm with
  | nil => intro acc; simp
  | cons q fm ih =>
      intro acc
      rw [List.foldl_cons]
      by_cases hq : minPages ≤ q.2.length
      · rw [if_pos hq, ih]
        simp only [List.mem_append, List.mem_singleton, List.mem_cons]
        constructor
        · rintro (⟨c, (hc | hc | hc), hP⟩ | ⟨q', hq', hP⟩)
          · exact Or.inl ⟨c, hc, hP⟩
          · subst hc
            exact Or.inr ⟨q, Or.inl rfl, hP.2, hq, hP.1⟩
          · exact absurd hc (List.not_mem_nil c)
          · exact Or.inr ⟨q', Or.inr hq', hP⟩
        · rintro (⟨c, hc, hP⟩ | ⟨q', (hq' | hq'), hP⟩)
          · exact Or.inl ⟨c, Or.inl hc, hP⟩
          · subst hq'
            exact Or.inl ⟨_, Or.inr (Or.inl rfl), hP.2.2, hP.1⟩
          · exact Or.inr ⟨q', hq', hP⟩
      · rw [if_neg hq, ih]
        simp only [List.mem_cons]
        constructor
        · rintro (⟨c, hc, hP⟩ | ⟨q', hq', hP⟩)
          · exact Or.inl ⟨c, hc, hP⟩
          · exact Or.inr ⟨q', Or.inr hq', hP⟩
        · rintro (⟨c, hc, hP⟩ | ⟨q', (hq' | hq'), hP⟩)
          · exact Or.inl ⟨c, hc, hP⟩
          · subst hq'
            exact absurd hP.2.1 hq
          · exact Or.inr ⟨q', hq', hP⟩

theorem identifySharedComponents_exists_iff (scanId : String) (minPages nextId : Nat)
    (m : List (String × List (String × List String))) (rg fp : String) :
    (∃ c ∈ (identifySharedComponents scanId m minPages nextId).1,
        c.region = rg ∧ c.fingerprint = fp) ↔
      ∃ e ∈ m, e.1 = rg ∧ ∃ q ∈ e.2, q.1 = fp ∧ minPages ≤ q.2.length := by
  unfold identifySharedComponents
  suffices h : ∀ (acc : List SharedComponent × Nat),
      (∃ c ∈ (m.foldl
          (fun acc rgroup =>
            rgroup.2.foldl
              (fun acc2 fpg =>
                if minPages ≤ fpg.2.length then
                  (acc2.1 ++
                    [{ id := acc2.2
                       scan_id := scanId
                       region := rgroup.1
                       fingerprint := fpg.1
                       label := regionLabel rgroup.1
                       page_count := fpg.2.length
                       issue_count := 0
                       sample_html := none
                       page_urls := fpg.2 }], acc2.2 + 1)
                else acc2)
              acc)
          acc).1, c.region = rg ∧ c.fingerprint = fp) ↔
        ((∃ c ∈ acc.1, c.region = rg ∧ c.fingerprint = fp) ∨
          ∃ e ∈ m, e.1 = rg ∧ ∃ q ∈ e.2, q.1 = fp ∧ minPages ≤ q.2.length) by
    rw [h ([], nextId)]
    simp
  induction m with
  | nil => intro acc; simp
  | cons e m ih =>
      intro acc
      rw [List.foldl_cons, ih, iscInner_exists_iff]
      simp only [List.mem_cons]
      constructor
      · rintro ((⟨c, hc, hP⟩ | ⟨q, hq, h1, h2, h3⟩) | ⟨e', he', hP⟩)
        · exact Or.inl ⟨c, hc, hP⟩
        · exact Or.inr ⟨e, Or.inl rfl, h3, q, hq, h1, h2⟩
        · exact Or.inr ⟨e', Or.inr he', hP⟩
      · rintro (⟨c, hc, hP⟩ | ⟨e', (he' | he'), h1, q, hq, h2, h3⟩)
        · exact Or.inl (Or.inl ⟨c, hc, hP⟩)
        · subst he'
          exact Or.inl (Or.inr ⟨q, hq, h2, h3, h1⟩)
        · exact Or.inr ⟨e', he', h1, q, hq, h2, h3⟩

/-- C7: a (region, fingerprint) pair yields a Shared Component exactly when
the number of complete pages carrying that digest for that region is at least
`⌈totalPages × threshold⌉` with the default threshold `0.5`.  The boundary
instance (10 pages: 5 qualifies, 4 does not) is the witness below. -/
theorem sharedComponent_threshold_iff (scanId rg fp : String) (pages : List PageRec)
    (nextId : Nat) (hn : 1 ≤ pages.length) (hk : ∀ p ∈ pages, fpKeysNodup p = true) :
    (∃ c ∈ (identifySharedComponents scanId (groupByFingerprints pages)
        (minPagesForShared pages.length) nextId).1,
        c.region = rg ∧ c.fingerprint = fp) ↔
      Nat.ceil ((pages.length : ℚ) * deduplicationThreshold) ≤
        (pages.filter (fun p => hasRegionFp p rg fp)).length := by
  rw [← minPagesForShared_eq_ceil]
  rw [identifySharedComponents_exists_iff]
  have hlk : lookup2 rg fp (groupByFingerprints pages) =
      (if (pages.filter (fun p => hasRegionFp p rg fp)).map (·.url) = [] then none
       else some ((pages.filter (fun p => hasRegionFp p rg fp)).map (·.url))) := by
    have h0 := lookup2_groupByFold rg fp pages [] hk
    unfold groupByFingerprints
    by_cases hnil : (pages.filter (fun p => hasRegionFp p rg fp)).map (·.url) = []
    · rw [if_pos hnil] at h0 ⊢
      rw [h0]
      simp [lookup2, List.lookup]
    · rw [if_neg hnil] at h0 ⊢
      rw [h0]
      simp [lookup2, List.lookup]
  obtain ⟨hout, hinn⟩ := groupByFingerprints_nodups pages
  constructor
  · rintro ⟨e, heM, he1, q, hqM, hq1, hqlen⟩
    obtain ⟨e1, fm⟩ := e
    obtain ⟨q1, urls⟩ := q
    simp only at he1 hq1 hqlen
    subst he1
    subst hq1
    have hl1 : (groupByFingerprints pages).lookup e1 = some fm :=
      mem_lookup_of_keysNodup heM hout
    have hl2 : fm.lookup q1 = some urls :=
      mem_lookup_of_keysNodup hqM (hinn (e1, fm) heM)
    have hsome : lookup2 e1 q1 (groupByFingerprints pages) = some urls := by
      simp [lookup2, hl1, hl2]
    rw [hlk] at hsome
    by_cases hnil : (pages.filter (fun p => hasRegionFp p e1 q1)).map (·.url) = []
    · rw [if_pos hnil] at hsome
      cases hsome
    · rw [if_neg hnil] at hsome
      have hurls : urls = (pages.filter (fun p => hasRegionFp p e1 q1)).map (·.url) :=
        (Option.some.injEq _ _ ▸ hsome).symm
      have : urls.length = (pages.filter (fun p => hasRegionFp p e1 q1)).length := by
        rw [hurls, List.length_map]
      omega
  · intro hcount
    have hm1 : 1 ≤ minPagesForShared pages.length := by
      unfold minPagesForShared
      omega
    have hnil : (pages.filter (fun p => hasRegionFp p rg fp)).map (·.url) ≠ [] := by
      apply List.ne_nil_of_length_pos
      rw [List.length_map]
      omega
    rw [if_neg hnil] at hlk
    have hsome := hlk
    unfold lookup2 at hsome
    rcases hfm : (groupByFingerprints pages).lookup rg with _ | fm
    · rw [hfm] at hsome
      cases hsome
    · rw [hfm] at hsome
      refine ⟨(rg, fm), lookup_some_mem hfm, rfl,
        (fp, (pages.filter (fun p => hasRegionFp p rg fp)).map (·.url)),
        lookup_some_mem hsome, rfl, ?_⟩
      rw [List.length_map]
      exact hcount

def exTenPage (i : Nat) (m : List (String × String)) : PageRec :=
  { id := i, url := "https://s.x/p" ++ toString i, title := none, status := .complete,
    regions_fingerprint := some m }

def exTenPages : List PageRec :=
  [exTenPage 1 [("header", "H")], exTenPage 2 [("header", "H")],
   exTenPage 3 [("header", "H")], exTenPage 4 [("header", "H")],
   exTenPage 5 [("header", "H")], exTenPage 6 [("nav", "N")],
   exTenPage 7 [("nav", "N")], exTenPage 8 [("nav", "N")],
   exTenPage 9 [("nav", "N")], exTenPage 10 []]

theorem sharedComponent_threshold_boundary_witness :
    (∃ c ∈ (identifySharedComponents "scan" (groupByFingerprints exTenPages)
        (minPagesForShared exTenPages.length) 0).1,
        c.region = "header" ∧ c.fingerprint = "H") ∧
      ¬ (∃ c ∈ (identifySharedComponents "scan" (groupByFingerprints exTenPages)
          (minPagesForShared exTenPages.length) 0).1,
          c.region = "nav" ∧ c.fingerprint = "N") := by
  constructor
  · apply (sharedComponent_threshold_iff "scan" "header" "H" exTenPages 0 (by decide)
      (by decide)).mpr
    rw [← minPagesForShared_eq_ceil]
    decide
  · intro hc
    have h4 := (sharedComponent_threshold_iff "scan" "nav" "N" exTenPages 0 (by decide)
      (by decide)).mp hc
    rw [← minPagesForShared_eq_ceil] at h4
    revert h4
    decide

/-! ## C2: `analyze` only appends component rows -/

theorem isc_ids_ge (scanId : String) (m : List (String × List (String × List String)))
    (minPages n : Nat) :
    n ≤ (identifySharedComponents scanId m minPages n).2 ∧
      ∀ c ∈ (identifySharedComponents scanId m minPages n).1, n ≤ c.id := by
  unfold identifySharedComponents
  suffices h : ∀ (acc : List SharedComponent × Nat),
      acc.2 ≤ (m.foldl
        (fun acc rgroup =>
          rgroup.2.foldl
            (fun acc2 fpg =>
              if minPages ≤ fpg.2.length then
                (acc2.1 ++
                  [{ id := acc2.2
                     scan_id := scanId
                     region := rgroup.1
                     fingerprint := fpg.1
                     label := regionLabel rgroup.1
                     page_count := fpg.2.length
                     issue_count := 0
                     sample_html := none
                     page_urls := fpg.2 }], acc2.2 + 1)
              else acc2)
            acc)
        acc).2 ∧
      ∀ c ∈ (m.foldl
        (fun acc rgroup =>
          rgroup.2.foldl
            (fun acc2 fpg =>
              if minPages ≤ fpg.2.length then
                (acc2.1 ++
                  [{ id := acc2.2
                     scan_id := scanId
                     region := rgroup.1
                     fingerprint := fpg.1
                     label := regionLabel rgroup.1
                     page_count := fpg.2.length
                     issue_count := 0
                     sample_html := none
                     page_urls := fpg.2 }], acc2.2 + 1)
              else acc2)
            acc)
        acc).1, c ∈ acc.1 ∨ acc.2 ≤ c.id by
    obtain ⟨h1, h2⟩ := h ([], n)
    refine ⟨h1, fun c hc => ?_⟩
    rcases h2 c hc with h3 | h3
    · simp at h3
    · exact h3
  have inner : ∀ (rgname : String) (fm : List (String × List String))
      (acc : List SharedComponent × Nat),
      acc.2 ≤ (fm.foldl
        (fun acc2 fpg =>
          if minPages ≤ fpg.2.length then
            (acc2.1 ++
              [{ id := acc2.2
                 scan_id := scanId
                 region := rgname
                 fingerprint := fpg.1
                 label := regionLabel rgname
                 page_count := fpg.2.length
                 issue_count := 0
                 sample_html := none
                 page_urls := fpg.2 }], acc2.2 + 1)
          else acc2)
        acc).2 ∧
      ∀ c ∈ (fm.foldl
        (fun acc2 fpg =>
          if minPages ≤ fpg.2.length then
            (acc2.1 ++
              [{ id := acc2.2
                 scan_id := scanId
                 region := rgname
                 fingerprint := fpg.1
                 label := regionLabel rgname
                 page_count := fpg.2.length
                 issue_count := 0
                 sample_html := none
                 page_urls := fpg.2 }], acc2.2 + 1)
          else acc2)
        acc).1, c ∈ acc.1 ∨ acc.2 ≤ c.id := by
    intro rgname fm
    induction fm with
    | nil => intro acc; exact ⟨le_refl _, fun c hc => Or.inl hc⟩
    | cons q fm ih =>
        intro acc
        rw [List.foldl_cons]
        by_cases hq : minPages ≤ q.2.length
        · rw [if_pos hq]
          obtain ⟨ih1, ih2⟩ := ih (acc.1 ++
            [{ id := acc.2
               scan_id := scanId
               region := rgname
               fingerprint := q.1
               label := regionLabel rgname
               page_count := q.2.length
               issue_count := 0
               sample_html := none
               page_urls := q.2 }], acc.2 + 1)
          refine ⟨by omega, fun c hc => ?_⟩
          rcases ih2 c hc with h3 | h3
          · rcases List.mem_append.mp h3 with h4 | h4
            · exact Or.inl h4
            · rw [List.mem_singleton] at h4
              subst h4
              exact Or.inr (le_refl _)
          · exact Or.inr (by omega)
        · rw [if_neg hq]
          exact ih acc
  induction m with
  | nil => intro acc; exact ⟨le_refl _, fun c hc => Or.inl hc⟩
  | cons e m ih =>
      intro acc
      rw [List.foldl_cons]
      obtain ⟨ha1, ha2⟩ := inner e.1 e.2 acc
      obtain ⟨hb1, hb2⟩ := ih (e.2.foldl _ acc)
      refine ⟨le_trans ha1 hb1, fun c hc => ?_⟩
      rcases hb2 c hc with h3 | h3
      · rcases ha2 c h3 with h4 | h4
        · exact Or.inl h4
        · exact Or.inr h4
      · exact Or.inr (le_trans ha1 h3)


theorem isbsStep_facts (scanId : String) (minPages : Nat)
    (acc : List SharedComponent × Db) (kg : String × SelGroup) :
    (isbsStep scanId minPages acc kg).2.sharedComponents = acc.2.sharedComponents ∧
      acc.2.nextId ≤ (isbsStep scanId minPages acc kg).2.nextId ∧
      ∀ c ∈ (isbsStep scanId minPages acc kg).1, c ∈ acc.1 ∨ c.id = acc.2.nextId := by
  by_cases hq : minPages ≤ kg.2.pageIds.length
  · refine ⟨by simp [isbsStep, hq], ?_, ?_⟩
    · simp only [isbsStep, if_pos hq]
      show acc.2.nextId ≤ acc.2.nextId + 1
      omega
    · intro c hc
      simp only [isbsStep, if_pos hq] at hc
      rcases List.mem_append.mp hc with h4 | h4
      · exact Or.inl h4
      · rw [List.mem_singleton] at h4
        subst h4
        exact Or.inr rfl
  · refine ⟨by simp [isbsStep, hq], ?_, ?_⟩
    · simp only [isbsStep, if_neg hq]
      exact le_refl _
    · intro c hc
      simp only [isbsStep, if_neg hq] at hc
      exact Or.inl hc

theorem isbs_props (scanId : String) (db : Db) (minPages : Nat) :
    (identifySharedBySelector scanId db minPages).2.sharedComponents = db.sharedComponents ∧
      db.nextId ≤ (identifySharedBySelector scanId db minPages).2.nextId ∧
      ∀ c ∈ (identifySharedBySelector scanId db minPages).1, db.nextId ≤ c.id := by
  unfold identifySharedBySelector
  suffices h : ∀ (l : List (String × SelGroup)) (acc : List SharedComponent × Db),
      acc.2.sharedComponents = db.sharedComponents → db.nextId ≤ acc.2.nextId →
      (∀ c ∈ acc.1, db.nextId ≤ c.id) →
      ((l.foldl (isbsStep scanId minPages) acc).2.sharedComponents = db.sharedComponents ∧
        db.nextId ≤ (l.foldl (isbsStep scanId minPages) acc).2.nextId ∧
        ∀ c ∈ (l.foldl (isbsStep scanId minPages) acc).1, db.nextId ≤ c.id) by
    exact h _ ([], db) rfl (le_refl _) (by simp)
  intro l
  induction l with
  | nil => intro acc h1 h2 h3; exact ⟨h1, h2, h3⟩
  | cons kg l ih =>
      intro acc h1 h2 h3
      rw [List.foldl_cons]
      obtain ⟨f1, f2, f3⟩ := isbsStep_facts scanId minPages acc kg
      apply ih
      · rw [f1, h1]
      · omega
      · intro c hc
        rcases f3 c hc with h4 | h4
        · exact h3 c h4
        · omega

theorem setKey_valuePred [DecidableEq α] {P : β → Prop} (k : α) (v : β)
    {m : List (α × β)} (hm : ∀ kv ∈ m, P kv.2) (hv : P v) :
    ∀ kv ∈ setKey k v m, P kv.2 := by
  induction m with
  | nil =>
      intro kv hkv
      rw [show setKey k v ([] : List (α × β)) = [(k, v)] from rfl, List.mem_singleton] at hkv
      subst hkv
      exact hv
  | cons e m ih =>
      obtain ⟨k', v'⟩ := e
      intro kv hkv
      by_cases hk : k' = k
      · rw [show setKey k v ((k', v') :: m) = (k', v) :: m from by simp [setKey, hk]] at hkv
        rcases List.mem_cons.mp hkv with h1 | h1
        · subst h1; exact hv
        · exact hm kv (List.mem_cons_of_mem _ h1)
      · rw [show setKey k v ((k', v') :: m) = (k', v') :: setKey k v m from by
          simp [setKey, hk]] at hkv
        rcases List.mem_cons.mp hkv with h1 | h1
        · subst h1; exact hm (k', v') (List.mem_cons_self _ _)
        · exact ih (fun kv' hkv' => hm kv' (List.mem_cons_of_mem _ hkv')) kv h1

theorem fold_setKey_values (comps : List SharedComponent) :
    ∀ kv ∈ comps.foldl
      (fun m c => setKey (c.region ++ ":" ++ c.fingerprint) c m) [], kv.2 ∈ comps := by
  suffices h : ∀ (l : List SharedComponent) (acc : List (String × SharedComponent)),
      (∀ c ∈ l, c ∈ comps) → (∀ kv ∈ acc, kv.2 ∈ comps) →
      ∀ kv ∈ l.foldl (fun m c => setKey (c.region ++ ":" ++ c.fingerprint) c m) acc,
        kv.2 ∈ comps by
    exact h comps [] (fun c hc => hc) (by simp)
  intro l
  induction l with
  | nil => intro acc _ hacc kv hkv; exact hacc kv hkv
  | cons c l ih =>
      intro acc hl hacc kv hkv
      rw [List.foldl_cons] at hkv
      exact ih _ (fun c' hc' => hl c' (List.mem_cons_of_mem _ hc'))
        (setKey_valuePred _ _ hacc (hl c (List.mem_cons_self _ _))) kv hkv

theorem pushBucket_keyPred [DecidableEq α] {Q : α → Prop} (k : α) (x : β)
    {m : List (α × List β)} (hm : ∀ e ∈ m, Q e.1) (hk : Q k) :
    ∀ e ∈ pushBucket k x m, Q e.1 := by
  induction m with
  | nil =>
      intro e he
      rw [show pushBucket k x ([] : List (α × List β)) = [(k, [x])] from rfl,
        List.mem_singleton] at he
      subst he
      exact hk
  | cons e0 m ih =>
      obtain ⟨k', xs⟩ := e0
      intro e he
      by_cases h : k' = k
      · rw [show pushBucket k x ((k', xs) :: m) = (k', xs ++ [x]) :: m from by
          simp [pushBucket, h]] at he
        rcases List.mem_cons.mp he with h1 | h1
        · subst h1; exact h ▸ hk
        · exact hm e (List.mem_cons_of_mem _ h1)
      · rw [show pushBucket k x ((k', xs) :: m) = (k', xs) :: pushBucket k x m from by
          simp [pushBucket, h]] at he
        rcases List.mem_cons.mp he with h1 | h1
        · subst h1; exact hm (k', xs) (List.mem_cons_self _ _)
        · exact ih (fun e' he' => hm e' (List.mem_cons_of_mem _ he')) e h1


theorem routeStep_keyPred {Q : Nat → Prop} (ftc : List (String × SharedComponent))
    {m : List (Nat × List IssueRec)} (i : IssueRec)
    (hm : ∀ e ∈ m, Q e.1) (hftc : ∀ kv ∈ ftc, Q kv.2.id) :
    ∀ e ∈ routeStep ftc m i, Q e.1 := by
  unfold routeStep
  by_cases hc1 : ¬ truthy i.dom_region ∨ ¬ truthy i.region_fingerprint
  · rw [if_pos hc1]
    exact hm
  · rw [if_neg hc1]
    rcases hlo : ftc.lookup
        ((match i.dom_region with | some s => s | none => "") ++ ":" ++
          (match i.region_fingerprint with | some s => s | none => "")) with _ | c0
    · simp only [hlo]
      exact hm
    · simp only [hlo]
      exact pushBucket_keyPred c0.id i hm (hftc _ (lookup_some_mem hlo))

/-- Every bucket key of Phase 3's routing map is the id of a passed
component. -/
theorem componentIssues_keys (issues : List IssueRec) (comps : List SharedComponent) :
    ∀ e ∈ issues.foldl (routeStep (buildFpToComp comps)) [],
      ∃ c ∈ comps, e.1 = c.id := by
  suffices h : ∀ (l : List IssueRec) (acc : List (Nat × List IssueRec)),
      (∀ e ∈ acc, ∃ c ∈ comps, e.1 = c.id) →
      ∀ e ∈ l.foldl (routeStep (buildFpToComp comps)) acc, ∃ c ∈ comps, e.1 = c.id by
    exact h issues [] (by simp)
  intro l
  induction l with
  | nil => intro acc hacc e he; exact hacc e he
  | cons i l ih =>
      intro acc hacc e he
      rw [List.foldl_cons] at he
      refine ih _ ?_ e he
      refine routeStep_keyPred (Q := fun k => ∃ c ∈ comps, k = c.id) _ i hacc ?_
      intro kv hkv
      exact ⟨kv.2, fold_setKey_values comps kv hkv, rfl⟩

theorem foldIssueUpdate_shared (cid : Nat) :
    ∀ (l : List (String × List IssueRec)) (d : Db),
      ((l.foldl
        (fun dd grp => { dd with issues := markMany (grp.2.map (·.id)) cid dd.issues })
        d)).sharedComponents = d.sharedComponents ∧
      ((l.foldl
        (fun dd grp => { dd with issues := markMany (grp.2.map (·.id)) cid dd.issues })
        d)).nextId = d.nextId := by
  intro l
  induction l with
  | nil => intro d; exact ⟨rfl, rfl⟩
  | cons grp l ih =>
      intro d
      rw [List.foldl_cons]
      exact ih _

theorem markCompStep_facts (d : Db) (ci : Nat × List IssueRec) :
    ((markCompStep d ci).sharedComponents =
        d.sharedComponents.map (fun c =>
          if c.id = ci.1 then
            { c with
              issue_count := (ci.2.foldl
                (fun (u : List (String × List IssueRec)) i =>
                  pushBucket (i.axe_rule_id ++ ":" ++ selOrEmpty i) i u) []).length }
          else c)) ∧
      (markCompStep d ci).nextId = d.nextId := by
  unfold markCompStep
  obtain ⟨h1, h2⟩ := foldIssueUpdate_shared ci.1
    (ci.2.foldl
      (fun (u : List (String × List IssueRec)) i =>
        pushBucket (i.axe_rule_id ++ ":" ++ selOrEmpty i) i u) []) d
  constructor
  · simp only []
    rw [h1]
  · simp only []
    rw [h2]

theorem markSharedIssues_props (d : Db) (comps : List SharedComponent)
    (old : List SharedComponent)
    (hpre : ∃ t, d.sharedComponents = old ++ t)
    (hne : ∀ c0 ∈ old, ∀ c ∈ comps, c0.id ≠ c.id) :
    (∃ t, (markSharedIssues d comps).sharedComponents = old ++ t) ∧
      (markSharedIssues d comps).nextId = d.nextId := by
  unfold markSharedIssues
  have hkeys := componentIssues_keys d.issues comps
  suffices h : ∀ (l : List (Nat × List IssueRec)) (dd : Db),
      (∀ e ∈ l, ∃ c ∈ comps, e.1 = c.id) →
      (∃ t, dd.sharedComponents = old ++ t) →
      (∃ t, (l.foldl markCompStep dd).sharedComponents = old ++ t) ∧
        (l.foldl markCompStep dd).nextId = dd.nextId by
    exact h _ d hkeys hpre
  intro l
  induction l with
  | nil => intro dd _ hdd; exact ⟨hdd, rfl⟩
  | cons ci l ih =>
      intro dd hl hdd
      rw [List.foldl_cons]
      obtain ⟨hs, hn⟩ := markCompStep_facts dd ci
      obtain ⟨t0, ht0⟩ := hdd
      obtain ⟨c1, hc1, hcid⟩ := hl ci (List.mem_cons_self _ _)
      have hold : (markCompStep dd ci).sharedComponents = old ++
          t0.map (fun c =>
            if c.id = ci.1 then
              { c with
                issue_count := (ci.2.foldl
                  (fun (u : List (String × List IssueRec)) i =>
                    pushBucket (i.axe_rule_id ++ ":" ++ selOrEmpty i) i u) []).length }
            else c) := by
        rw [hs, ht0, List.map_append]
        congr 1
        conv_rhs => rw [← List.map_id old]
        apply List.map_congr_left
        intro c0 hc0
        have hid : c0.id ≠ ci.1 := by
          rw [hcid]
          exact hne c0 hc0 c1 hc1
        simp [hid]
      obtain ⟨hrec, hrecn⟩ := ih (markCompStep dd ci)
        (fun e he => hl e (List.mem_cons_of_mem _ he)) ⟨_, hold⟩
      exact ⟨hrec, by rw [hrecn, hn]⟩

theorem foldMarkCount_facts (cid : Nat) :
    ∀ (l : List (String × List IssueRec)) (s0 : Db × Nat),
      ((l.foldl
        (fun (s : Db × Nat) grp =>
          if 2 ≤ (dedupList (grp.2.map (·.page_id))).length then
            ({ s.1 with issues := markMany (grp.2.map (·.id)) cid s.1.issues }, s.2 + 1)
          else s)
        s0)).1.sharedComponents = s0.1.sharedComponents ∧
      ((l.foldl
        (fun (s : Db × Nat) grp =>
          if 2 ≤ (dedupList (grp.2.map (·.page_id))).length then
            ({ s.1 with issues := markMany (grp.2.map (·.id)) cid s.1.issues }, s.2 + 1)
          else s)
        s0)).1.nextId = s0.1.nextId := by
  intro l
  induction l with
  | nil => intro s0; exact ⟨rfl, rfl⟩
  | cons grp l ih =>
      intro s0
      rw [List.foldl_cons]
      by_cases hq : 2 ≤ (dedupList (grp.2.map (·.page_id))).length
      · rw [if_pos hq]
        exact ih _
      · rw [if_neg hq]
        exact ih _

theorem dupPagesStep_facts (scanId : String) (acc : List SharedComponent × Db)
    (fg : String × List PageRec) :
    (dupPagesStep scanId acc fg).2.sharedComponents = acc.2.sharedComponents ∧
      acc.2.nextId ≤ (dupPagesStep scanId acc fg).2.nextId := by
  unfold dupPagesStep
  by_cases hlt : fg.2.length < 2
  · rw [if_pos hlt]
    exact ⟨rfl, le_refl _⟩
  · rw [if_neg hlt]
    simp only []
    obtain ⟨h1, h2⟩ := foldMarkCount_facts acc.2.nextId
      ((fg.2.flatMap (fun p => findIssuesByPageId acc.2 p.id)).foldl
        (fun (u : List (String × List IssueRec)) i =>
          if i.is_shared_component then u
          else pushBucket (i.axe_rule_id ++ ":" ++ selOrEmpty i) i u)
        [])
      ({ acc.2 with nextId := acc.2.nextId + 1 }, 0)
    by_cases hmk : 0 < (((fg.2.flatMap (fun p => findIssuesByPageId acc.2 p.id)).foldl
        (fun (u : List (String × List IssueRec)) i =>
          if i.is_shared_component then u
          else pushBucket (i.axe_rule_id ++ ":" ++ selOrEmpty i) i u)
        []).foldl
        (fun (s : Db × Nat) grp =>
          if 2 ≤ (dedupList (grp.2.map (·.page_id))).length then
            ({ s.1 with issues := markMany (grp.2.map (·.id)) acc.2.nextId s.1.issues },
              s.2 + 1)
          else s)
        ({ acc.2 with nextId := acc.2.nextId + 1 }, 0)).2
    · rw [if_pos hmk]
      refine ⟨by rw [h1], ?_⟩
      rw [h2]
      show acc.2.nextId ≤ acc.2.nextId + 1
      omega
    · rw [if_neg hmk]
      refine ⟨by rw [h1], ?_⟩
      rw [h2]
      show acc.2.nextId ≤ acc.2.nextId + 1
      omega

theorem identifyDuplicatePages_props (scanId : String) (db : Db) (pages : List PageRec) :
    (identifyDuplicatePages scanId db pages).2.sharedComponents = db.sharedComponents ∧
      db.nextId ≤ (identifyDuplicatePages scanId db pages).2.nextId := by
  unfold identifyDuplicatePages
  suffices h : ∀ (l : List (String × List PageRec)) (acc : List SharedComponent × Db),
      acc.2.sharedComponents = db.sharedComponents → db.nextId ≤ acc.2.nextId →
      ((l.foldl (dupPagesStep scanId) acc).2.sharedComponents = db.sharedComponents ∧
        db.nextId ≤ (l.foldl (dupPagesStep scanId) acc).2.nextId) by
    exact h _ ([], db) rfl (le_refl _)
  intro l
  induction l with
  | nil => intro acc h1 h2; exact ⟨h1, h2⟩
  | cons fg l ih =>
      intro acc h1 h2
      rw [List.foldl_cons]
      obtain ⟨f1, f2⟩ := dupPagesStep_facts scanId acc fg
      exact ih _ (by rw [f1, h1]) (le_trans h2 f2)

theorem dupSigStep_facts (scanId : String) (acc : List SharedComponent × Db)
    (sg : String × List (PageRec × String)) :
    (dupSigStep scanId acc sg).2.sharedComponents = acc.2.sharedComponents ∧
      acc.2.nextId ≤ (dupSigStep scanId acc sg).2.nextId := by
  unfold dupSigStep
  by_cases hlt : sg.2.length < 2
  · rw [if_pos hlt]
    exact ⟨rfl, le_refl _⟩
  · rw [if_neg hlt]
    simp only []
    obtain ⟨h1, h2⟩ := foldMarkCount_facts acc.2.nextId
      (((sg.2.map (·.1)).flatMap (fun p => findIssuesByPageId acc.2 p.id)).foldl
        (fun (u : List (String × List IssueRec)) i =>
          if i.is_shared_component then u
          else pushBucket (i.axe_rule_id ++ ":" ++ selOrEmpty i) i u)
        [])
      ({ acc.2 with nextId := acc.2.nextId + 1 }, 0)
    by_cases hmk : 0 < ((((sg.2.map (·.1)).flatMap (fun p => findIssuesByPageId acc.2 p.id)).foldl
        (fun (u : List (String × List IssueRec)) i =>
          if i.is_shared_component then u
          else pushBucket (i.axe_rule_id ++ ":" ++ selOrEmpty i) i u)
        []).foldl
        (fun (s : Db × Nat) grp =>
          if 2 ≤ (dedupList (grp.2.map (·.page_id))).length then
            ({ s.1 with issues := markMany (grp.2.map (·.id)) acc.2.nextId s.1.issues },
              s.2 + 1)
          else s)
        ({ acc.2 with nextId := acc.2.nextId + 1 }, 0)).2
    · rw [if_pos hmk]
      refine ⟨by rw [h1], ?_⟩
      rw [h2]
      show acc.2.nextId ≤ acc.2.nextId + 1
      omega
    · rw [if_neg hmk]
      refine ⟨by rw [h1], ?_⟩
      rw [h2]
      show acc.2.nextId ≤ acc.2.nextId + 1
      omega

theorem identifyDuplicatesByIssueSignature_props (scanId : String) (db : Db)
    (pages : List PageRec) :
    (identifyDuplicatesByIssueSignature scanId db pages).2.sharedComponents =
        db.sharedComponents ∧
      db.nextId ≤ (identifyDuplicatesByIssueSignature scanId db pages).2.nextId := by
  unfold identifyDuplicatesByIssueSignature
  suffices h : ∀ (l : List (String × List (PageRec × String)))
      (acc : List SharedComponent × Db),
      acc.2.sharedComponents = db.sharedComponents → db.nextId ≤ acc.2.nextId →
      ((l.foldl (dupSigStep scanId) acc).2.sharedComponents = db.sharedComponents ∧
        db.nextId ≤ (l.foldl (dupSigStep scanId) acc).2.nextId) by
    exact h _ ([], db) rfl (le_refl _)
  intro l
  induction l with
  | nil => intro acc h1 h2; exact ⟨h1, h2⟩
  | cons sg l ih =>
      intro acc h1 h2
      rw [List.foldl_cons]
      obtain ⟨f1, f2⟩ := dupSigStep_facts scanId acc sg
      exact ih _ (by rw [f1, h1]) (le_trans h2 f2)

/-- C2 amended: `saveSharedComponents` only inserts, and the two layers that
touch existing rows only touch rows created in the same run (fresh ids), so
re-running `analyze` preserves every existing Shared Component row as an
unchanged left segment of the table and appends the newly identified groups;
combined with the counterexample this shows `analyze` is not idempotent. -/
theorem analyze_append_only (db : Db) (scanId : String)
    (h : ∀ c ∈ db.sharedComponents, c.id < db.nextId) :
    ∃ t, (analyze db scanId).1.sharedComponents = db.sharedComponents ++ t := by
  let PAGES := (sortByLe (fun a b => strLe a.url b.url) db.pages).filter
    (fun p => p.status = PageStatus.complete)
  let MINP := minPagesForShared PAGES.length
  let RC := identifySharedComponents scanId (groupByFingerprints PAGES) MINP db.nextId
  let SB := identifySharedBySelector scanId { db with nextId := RC.2 } MINP
  let SC := RC.1 ++ SB.1
  let DB2 := saveSharedComponents SB.2 SC
  let DB3 := markSharedIssues DB2 SC
  let DP := identifyDuplicatePages scanId DB3 PAGES
  let DB4 := if DP.1 = [] then DP.2 else saveSharedComponents DP.2 DP.1
  let SC2 := SC ++ DP.1
  let AD := SC2.foldl
    (fun (s : List String) c =>
      if c.region = "duplicate-page" then c.page_urls.foldl (fun s2 u => addSet u s2) s
      else s) []
  let REMP := PAGES.filter (fun p => ¬ AD.contains p.url)
  let ISG := identifyDuplicatesByIssueSignature scanId DB4 REMP
  let DB5 := if ISG.1 = [] then ISG.2 else saveSharedComponents ISG.2 ISG.1
  have heq : (analyze db scanId).1 = DB5 := rfl
  rw [heq]
  obtain ⟨hrc2, hrcids⟩ := isc_ids_ge scanId (groupByFingerprints PAGES) MINP db.nextId
  obtain ⟨hsbS, hsbN, hsbIds⟩ := isbs_props scanId { db with nextId := RC.2 } MINP
  have hscids : ∀ c ∈ SC, db.nextId ≤ c.id := by
    intro c hc
    rcases List.mem_append.mp hc with h1 | h1
    · exact hrcids c h1
    · have := hsbIds c h1
      show db.nextId ≤ c.id
      calc db.nextId ≤ RC.2 := hrc2
        _ = ({ db with nextId := RC.2 } : Db).nextId := rfl
        _ ≤ c.id := this
  have hdb2 : DB2.sharedComponents = db.sharedComponents ++ SC := by
    show SB.2.sharedComponents ++ SC = db.sharedComponents ++ SC
    rw [hsbS]
  obtain ⟨⟨t3, ht3⟩, _⟩ := markSharedIssues_props DB2 SC db.sharedComponents
    ⟨SC, hdb2⟩
    (fun c0 h0 c hc => Nat.ne_of_lt (lt_of_lt_of_le (h c0 h0) (hscids c hc)))
  obtain ⟨hdpS, _⟩ := identifyDuplicatePages_props scanId DB3 PAGES
  have hdb4 : ∃ t, DB4.sharedComponents = db.sharedComponents ++ t := by
    show ∃ t, (if DP.1 = [] then DP.2 else saveSharedComponents DP.2 DP.1).sharedComponents =
      db.sharedComponents ++ t
    by_cases hdp : DP.1 = []
    · rw [if_pos hdp]
      exact ⟨t3, by rw [hdpS]; exact ht3⟩
    · refine ⟨t3 ++ DP.1, ?_⟩
      rw [if_neg hdp]
      show DP.2.sharedComponents ++ DP.1 = _
      rw [hdpS, ht3, List.append_assoc]
  obtain ⟨t4, ht4⟩ := hdb4
  obtain ⟨hisgS, _⟩ := identifyDuplicatesByIssueSignature_props scanId DB4 REMP
  by_cases hisg : ISG.1 = []
  · refine ⟨t4, ?_⟩
    show (if ISG.1 = [] then ISG.2 else saveSharedComponents ISG.2 ISG.1).sharedComponents = _
    rw [if_pos hisg, hisgS]
    exact ht4
  · refine ⟨t4 ++ ISG.1, ?_⟩
    show (if ISG.1 = [] then ISG.2 else saveSharedComponents ISG.2 ISG.1).sharedComponents = _
    rw [if_neg hisg]
    show ISG.2.sharedComponents ++ ISG.1 = _
    rw [hisgS, ht4, List.append_assoc]

theorem analyze_append_only_witness :
    (∀ c ∈ exDb.sharedComponents, c.id < exDb.nextId) ∧
      ∃ t, (analyze exDb "scan").1.sharedComponents = exDb.sharedComponents ++ t :=
  ⟨by decide, analyze_append_only exDb "scan" (by decide)⟩

/-! ## C9: URL normalization idempotence

Character-level facts about `Char.toLower` and the character classes used by
the URL parser, followed by round-trip lemmas for `parseUrlCs` /
`serializeUrlCs` and for query-parameter parsing and sorting. -/

theorem charToNat_ofNat (n : Nat) (h : n < 55296) : (Char.ofNat n).toNat = n := by
  have hv : n.isValidChar := Or.inl h
  unfold Char.ofNat
  rw [dif_pos hv]
  rfl

theorem char_eq_of_toNat_eq {c d : Char} (h : c.toNat = d.toNat) : c = d := by
  apply Char.eq_of_val_eq
  apply UInt32.eq_of_toBitVec_eq
  exact BitVec.eq_of_toNat_eq h

theorem isUpper_iff (c : Char) : c.isUpper = true ↔ 65 ≤ c.toNat ∧ c.toNat ≤ 90 := by
  simp [Char.isUpper, Char.toNat, UInt32.le_def, BitVec.le_def, UInt32.toNat, UInt32.toBitVec]

theorem isLower_iff (c : Char) : c.isLower = true ↔ 97 ≤ c.toNat ∧ c.toNat ≤ 122 := by
  simp [Char.isLower, Char.toNat, UInt32.le_def, BitVec.le_def, UInt32.toNat, UInt32.toBitVec]

theorem isDigit_iff (c : Char) : c.isDigit = true ↔ 48 ≤ c.toNat ∧ c.toNat ≤ 57 := by
  simp [Char.isDigit, Char.toNat, UInt32.le_def, BitVec.le_def, UInt32.toNat, UInt32.toBitVec]

theorem toNat_toLower (c : Char) :
    (Char.toLower c).toNat =
      if 65 ≤ c.toNat ∧ c.toNat ≤ 90 then c.toNat + 32 else c.toNat := by
  unfold Char.toLower
  by_cases h : c.toNat ≥ 65 ∧ c.toNat ≤ 90
  · rw [if_pos h, if_pos ⟨h.1, h.2⟩, charToNat_ofNat]
    omega
  · rw [if_neg h, if_neg h]

theorem toLower_eq_self (c : Char) (h : c.isUpper = false) : Char.toLower c = c := by
  unfold Char.toLower
  rw [if_neg]
  intro hc
  rw [Bool.eq_false_iff] at h
  exact h ((isUpper_iff c).2 ⟨hc.1, hc.2⟩)

theorem isUpper_toLower (c : Char) : (Char.toLower c).isUpper = false := by
  rw [Bool.eq_false_iff]
  intro h
  rw [isUpper_iff, toNat_toLower] at h
  by_cases hc : 65 ≤ c.toNat ∧ c.toNat ≤ 90
  · rw [if_pos hc] at h; omega
  · rw [if_neg hc] at h; omega

theorem toLower_idem (c : Char) : Char.toLower (Char.toLower c) = Char.toLower c :=
  toLower_eq_self _ (isUpper_toLower c)

theorem isAlpha_iff (c : Char) :
    c.isAlpha = true ↔ (65 ≤ c.toNat ∧ c.toNat ≤ 90) ∨ (97 ≤ c.toNat ∧ c.toNat ≤ 122) := by
  simp [Char.isAlpha, isUpper_iff, isLower_iff]

theorem isAlpha_toLower (c : Char) (h : c.isAlpha = true) : (Char.toLower c).isAlpha = true := by
  rw [isAlpha_iff] at h ⊢
  rw [toNat_toLower]
  by_cases hc : 65 ≤ c.toNat ∧ c.toNat ≤ 90
  · rw [if_pos hc]; omega
  · rw [if_neg hc]; omega

theorem isDigit_not_upper (c : Char) (h : c.isDigit = true) : c.isUpper = false := by
  rw [isDigit_iff] at h
  rw [Bool.eq_false_iff]
  intro hu
  rw [isUpper_iff] at hu
  omega

theorem isHostChar_toLower (c : Char) (h : isHostChar c = true) :
    isHostChar (Char.toLower c) = true := by
  simp only [isHostChar, decide_eq_true_eq] at h ⊢
  rcases h with h | h | h | h
  · exact Or.inl (isAlpha_toLower c h)
  · rw [toLower_eq_self c (isDigit_not_upper c h)]
    exact Or.inr (Or.inl h)
  · subst h; decide
  · subst h; decide

theorem map_toLower_eq_self {l : List Char} (h : l.all (fun c => !c.isUpper) = true) :
    l.map Char.toLower = l := by
  induction l with
  | nil => rfl
  | cons c t ih =>
      rw [List.all_cons, Bool.and_eq_true] at h
      rw [List.map_cons, ih h.2, toLower_eq_self]
      rw [Bool.not_eq_true'] at h
      exact h.1

theorem isAlpha_ne_colon (c : Char) (h : c.isAlpha = true) : c ≠ ':' := by
  rintro rfl
  exact absurd h (by decide)

theorem isHostChar_ne_colon (c : Char) (h : isHostChar c = true) : c ≠ ':' := by
  rintro rfl
  exact absurd h (by decide)

theorem isDigit_ne_colon (c : Char) (h : c.isDigit = true) : c ≠ ':' := by
  rintro rfl
  exact absurd h (by decide)

theorem isHostChar_not_authEnd (c : Char) (h : isHostChar c = true) :
    isAuthorityEnd c = false := by
  rw [Bool.eq_false_iff]
  intro ha
  simp only [isAuthorityEnd, decide_eq_true_eq] at ha
  rcases ha with rfl | rfl | rfl <;> exact absurd h (by decide)

theorem isDigit_not_authEnd (c : Char) (h : c.isDigit = true) :
    isAuthorityEnd c = false := by
  rw [Bool.eq_false_iff]
  intro ha
  simp only [isAuthorityEnd, decide_eq_true_eq] at ha
  rcases ha with rfl | rfl | rfl <;> exact absurd h (by decide)

theorem takeWhile_append_all {p : α → Bool} :
    ∀ {a : List α} (b : List α), a.all p = true → (a ++ b).takeWhile p = a ++ b.takeWhile p := by
  intro a
  induction a with
  | nil => intro b _; rfl
  | cons c t ih =>
      intro b h
      rw [List.all_cons, Bool.and_eq_true] at h
      rw [List.cons_append, List.takeWhile_cons, if_pos h.1, ih b h.2, List.cons_append]

theorem dropWhile_append_all {p : α → Bool} :
    ∀ {a : List α} (b : List α), a.all p = true → (a ++ b).dropWhile p = b.dropWhile p := by
  intro a
  induction a with
  | nil => intro b _; rfl
  | cons c t ih =>
      intro b h
      rw [List.all_cons, Bool.and_eq_true] at h
      rw [List.cons_append, List.dropWhile_cons, if_pos h.1, ih b h.2]

theorem takeWhile_of_all {p : α → Bool} {l : List α} (h : l.all p = true) :
    l.takeWhile p = l := by
  have := takeWhile_append_all (p := p) (a := l) [] h
  simpa using this

theorem mem_takeWhile_mem {p : α → Bool} :
    ∀ {l : List α} {x : α}, x ∈ l.takeWhile p → x ∈ l := by
  intro l
  induction l with
  | nil => intro x hx; exact absurd hx (List.not_mem_nil x)
  | cons c t ih =>
      intro x hx
      rw [List.takeWhile_cons] at hx
      by_cases hc : p c = true
      · rw [if_pos hc, List.mem_cons] at hx
        rcases hx with rfl | hx
        · exact List.mem_cons_self _ _
        · exact List.mem_cons_of_mem _ (ih hx)
      · rw [if_neg hc] at hx
        exact absurd hx (List.not_mem_nil x)

theorem mem_takeWhile_pred {p : α → Bool} :
    ∀ {l : List α} {x : α}, x ∈ l.takeWhile p → p x = true := by
  intro l
  induction l with
  | nil => intro x hx; exact absurd hx (List.not_mem_nil x)
  | cons c t ih =>
      intro x hx
      rw [List.takeWhile_cons] at hx
      by_cases hc : p c = true
      · rw [if_pos hc, List.mem_cons] at hx
        rcases hx with rfl | hx
        · exact hc
        · exact ih hx
      · rw [if_neg hc] at hx
        exact absurd hx (List.not_mem_nil x)

theorem mem_dropWhile_mem {p : α → Bool} :
    ∀ {l : List α} {x : α}, x ∈ l.dropWhile p → x ∈ l := by
  intro l
  induction l with
  | nil => intro x hx; exact absurd hx (List.not_mem_nil x)
  | cons c t ih =>
      intro x hx
      rw [List.dropWhile_cons] at hx
      by_cases hc : p c = true
      · rw [if_pos hc] at hx
        exact List.mem_cons_of_mem _ (ih hx)
      · rw [if_neg hc] at hx
        exact hx

theorem takeWhile_eq_cons_head {p : α → Bool} {l t : List α} {x : α}
    (h : l.takeWhile p = x :: t) : l.head? = some x ∧ p x = true := by
  cases l with
  | nil => exact absurd h (by simp)
  | cons c l' =>
      rw [List.takeWhile_cons] at h
      by_cases hc : p c = true
      · rw [if_pos hc] at h
        injection h with h1 _
        subst h1
        exact ⟨rfl, hc⟩
      · rw [if_neg hc] at h
        exact absurd h (by simp)

theorem dropWhile_eq_cons_head {p : α → Bool} :
    ∀ {l t : List α} {x : α}, l.dropWhile p = x :: t → p x = false := by
  intro l
  induction l with
  | nil => intro t x h; exact absurd h (by simp)
  | cons c l' ih =>
      intro t x h
      rw [List.dropWhile_cons] at h
      by_cases hc : p c = true
      · rw [if_pos hc] at h
        exact ih h
      · rw [if_neg hc] at h
        injection h with h1 _
        subst h1
        rw [Bool.eq_false_iff]
        exact hc

theorem splitOnChar_cons (sep c : Char) (l : List Char) :
    splitOnChar sep (c :: l) =
      match splitOnChar sep l with
      | [] => [[c]]
      | a :: as => if c = sep then [] :: a :: as else (c :: a) :: as := rfl

theorem splitOnChar_ne_nil (sep : Char) : ∀ (l : List Char), splitOnChar sep l ≠ [] := by
  intro l
  induction l with
  | nil => simp [splitOnChar]
  | cons c t ih =>
      rw [splitOnChar_cons]
      cases h : splitOnChar sep t with
      | nil => simp
      | cons a as =>
          by_cases hc : c = sep <;> simp [hc]

theorem splitOnChar_cons_of_ne {sep c : Char} (hc : c ≠ sep) {l h : List Char}
    {t : List (List Char)} (hl : splitOnChar sep l = h :: t) :
    splitOnChar sep (c :: l) = (c :: h) :: t := by
  rw [splitOnChar_cons, hl]
  exact if_neg hc

theorem splitOnChar_cons_sep {sep : Char} {l h : List Char} {t : List (List Char)}
    (hl : splitOnChar sep l = h :: t) :
    splitOnChar sep (sep :: l) = [] :: h :: t := by
  rw [splitOnChar_cons, hl]
  exact if_pos rfl

theorem splitOnChar_append_no_sep {sep : Char} :
    ∀ {a : List Char}, (∀ c ∈ a, c ≠ sep) → ∀ {l h : List Char} {t : List (List Char)},
      splitOnChar sep l = h :: t → splitOnChar sep (a ++ l) = (a ++ h) :: t := by
  intro a
  induction a with
  | nil => intro _ l h t hl; simpa using hl
  | cons c a' ih =>
      intro ha l h t hl
      have h1 := ih (fun d hd => ha d (List.mem_cons_of_mem _ hd)) hl
      rw [List.cons_append, splitOnChar_cons_of_ne (ha c (List.mem_cons_self _ _)) h1,
        List.cons_append]

theorem splitOnChar_join {sep : Char} :
    ∀ {ps : List (List Char)}, ps ≠ [] → (∀ p ∈ ps, ∀ c ∈ p, c ≠ sep) →
      splitOnChar sep (joinWithChar sep ps) = ps := by
  intro ps
  induction ps with
  | nil => intro h _; exact absurd rfl h
  | cons a as ih =>
      intro _ hp
      cases as with
      | nil =>
          show splitOnChar sep a = [a]
          have h1 : splitOnChar sep (a ++ ([] : List Char)) = (a ++ []) :: [] :=
            splitOnChar_append_no_sep (hp a (List.mem_cons_self _ _)) rfl
          simpa using h1
      | cons b t =>
          show splitOnChar sep (a ++ sep :: joinWithChar sep (b :: t)) = a :: b :: t
          have h1 : splitOnChar sep (joinWithChar sep (b :: t)) = b :: t :=
            ih (by simp) (fun p hps => hp p (List.mem_cons_of_mem _ hps))
          have h2 := splitOnChar_cons_sep h1
          have h3 := splitOnChar_append_no_sep (hp a (List.mem_cons_self _ _)) h2
          simpa using h3

theorem splitOnChar_mem_sub {sep : Char} :
    ∀ {l : List Char} {p : List Char}, p ∈ splitOnChar sep l →
      ∀ c ∈ p, c ∈ l ∧ c ≠ sep := by
  intro l
  induction l with
  | nil =>
      intro p hp c hc
      simp only [splitOnChar, List.foldr_nil, List.mem_singleton] at hp
      subst hp
      exact absurd hc (List.not_mem_nil c)
  | cons d l' ih =>
      intro p hp c hc
      cases hsp : splitOnChar sep l' with
      | nil => exact absurd hsp (splitOnChar_ne_nil sep l')
      | cons h t =>
          by_cases hd : d = sep
          · subst hd
            rw [splitOnChar_cons_sep hsp] at hp
            rw [List.mem_cons] at hp
            rcases hp with rfl | hp
            · exact absurd hc (List.not_mem_nil c)
            · have := ih (by rw [hsp]; exact hp) c hc
              exact ⟨List.mem_cons_of_mem _ this.1, this.2⟩
          · rw [splitOnChar_cons_of_ne hd hsp] at hp
            rw [List.mem_cons] at hp
            rcases hp with rfl | hp
            · rw [List.mem_cons] at hc
              rcases hc with rfl | hc
              · exact ⟨List.mem_cons_self _ _, hd⟩
              · have := ih (by rw [hsp]; exact List.mem_cons_self _ _) c hc
                exact ⟨List.mem_cons_of_mem _ this.1, this.2⟩
            · have := ih (by rw [hsp]; exact List.mem_cons_of_mem _ hp) c hc
              exact ⟨List.mem_cons_of_mem _ this.1, this.2⟩

theorem mem_joinWithChar {sep : Char} :
    ∀ {ps : List (List Char)} {c : Char}, c ∈ joinWithChar sep ps →
      c = sep ∨ ∃ p ∈ ps, c ∈ p := by
  intro ps
  induction ps with
  | nil => intro c hc; exact absurd hc (List.not_mem_nil c)
  | cons a as ih =>
      intro c hc
      cases as with
      | nil =>
          right
          exact ⟨a, List.mem_cons_self _ _, hc⟩
      | cons b t =>
          have hc2 : c ∈ a ++ sep :: joinWithChar sep (b :: t) := hc
          rw [List.mem_append, List.mem_cons] at hc2
          rcases hc2 with hc2 | rfl | hc2
          · exact Or.inr ⟨a, List.mem_cons_self _ _, hc2⟩
          · exact Or.inl rfl
          · rcases ih hc2 with h | ⟨p, hp, hcp⟩
            · exact Or.inl h
            · exact Or.inr ⟨p, List.mem_cons_of_mem _ hp, hcp⟩

theorem insertLe_perm (le : α → α → Bool) (x : α) :
    ∀ (l : List α), List.Perm (insertLe le x l) (x :: l) := by
  intro l
  induction l with
  | nil => rfl
  | cons y ys ih =>
      show List.Perm (if le x y then x :: y :: ys else y :: insertLe le x ys) (x :: y :: ys)
      by_cases h : le x y = true
      · rw [if_pos h]
      · rw [if_neg h]
        exact (ih.cons y).trans (List.Perm.swap x y ys)

theorem sortByLe_perm (le : α → α → Bool) :
    ∀ (l : List α), List.Perm (sortByLe le l) l := by
  intro l
  induction l with
  | nil => rfl
  | cons x xs ih =>
      show List.Perm (insertLe le x (sortByLe le xs)) (x :: xs)
      exact (insertLe_perm le x (sortByLe le xs)).trans (ih.cons x)

theorem chain'_insertLe (le : α → α → Bool)
    (htot : ∀ a b, le a b = true ∨ le b a = true) (x : α) :
    ∀ {l : List α}, List.Chain' (fun a b => le a b = true) l →
      List.Chain' (fun a b => le a b = true) (insertLe le x l) := by
  intro l
  induction l with
  | nil => intro _; simp [insertLe]
  | cons y ys ih =>
      intro hl
      show List.Chain' (fun a b => le a b = true)
        (if le x y then x :: y :: ys else y :: insertLe le x ys)
      by_cases h : le x y = true
      · rw [if_pos h]
        exact List.chain'_cons.2 ⟨h, hl⟩
      · rw [if_neg h]
        have hyx : le y x = true := (htot x y).resolve_left h
        have htail := ih hl.tail
        cases ys with
        | nil =>
            exact List.chain'_cons.2 ⟨hyx, List.chain'_singleton x⟩
        | cons z zs =>
            have hins : insertLe le x (z :: zs) =
                if le x z then x :: z :: zs else z :: insertLe le x zs := rfl
            rw [hins] at htail
            show List.Chain' (fun a b => le a b = true)
              (y :: if le x z then x :: z :: zs else z :: insertLe le x zs)
            by_cases hz : le x z = true
            · rw [if_pos hz]
              rw [if_pos hz] at htail
              exact List.chain'_cons.2 ⟨hyx, htail⟩
            · rw [if_neg hz]
              rw [if_neg hz] at htail
              exact List.chain'_cons.2 ⟨(List.chain'_cons.1 hl).1, htail⟩

theorem sortByLe_chain' (le : α → α → Bool)
    (htot : ∀ a b, le a b = true ∨ le b a = true) :
    ∀ (l : List α), List.Chain' (fun a b => le a b = true) (sortByLe le l) := by
  intro l
  induction l with
  | nil => simp [sortByLe]
  | cons x xs ih => exact chain'_insertLe le htot x ih

theorem sortByLe_of_chain' (le : α → α → Bool) :
    ∀ {l : List α}, List.Chain' (fun a b => le a b = true) l → sortByLe le l = l := by
  intro l
  induction l with
  | nil => intro _; rfl
  | cons x xs ih =>
      intro hl
      show insertLe le x (sortByLe le xs) = x :: xs
      rw [ih hl.tail]
      cases xs with
      | nil => rfl
      | cons y ys =>
          show (if le x y then x :: y :: ys else y :: insertLe le x ys) = x :: y :: ys
          rw [if_pos (List.chain'_cons.1 hl).1]

theorem sortByLe_idem (le : α → α → Bool)
    (htot : ∀ a b, le a b = true ∨ le b a = true) (l : List α) :
    sortByLe le (sortByLe le l) = sortByLe le l :=
  sortByLe_of_chain' le (sortByLe_chain' le htot l)

theorem charsLe_total : ∀ (a b : List Char), charsLe a b = true ∨ charsLe b a = true := by
  intro a
  induction a with
  | nil => intro b; left; rfl
  | cons x xs ih =>
      intro b
      cases b with
      | nil => right; rfl
      | cons y ys =>
          rcases lt_trichotomy x y with h | h | h
          · left; simp [charsLe, h]
          · subst h
            simpa [charsLe, lt_irrefl] using ih ys
          · right; simp [charsLe, h]

theorem pairLe_total : ∀ (a b : List Char × List Char), pairLe a b = true ∨ pairLe b a = true :=
  fun a b => charsLe_total _ _

/-- Well-formedness of a URL record: exactly the shape `parseUrlCs` can emit
(up to letter case in scheme and host), used to state when re-serialization
round-trips. -/
def wfUrl (r : UrlRec) : Bool :=
  r.scheme ≠ [] && r.scheme.all Char.isAlpha &&
  (r.host ≠ [] && r.host.all isHostChar) &&
  (match r.port with | none => true | some p => p ≠ [] && p.all Char.isDigit) &&
  (r.path.head? = some '/' && r.path.all (fun c => ¬ isPathEnd c)) &&
  (match r.query with | none => true | some q => q.all (· ≠ '#'))

/-- The trailing-slash strip of `normalizeUrl` reaches a fixed point on this
input after one application (vacuously true on unparsable input). -/
def stripStable (u : String) : Bool :=
  match parseUrlCs u.toList with
  | none => true
  | some r => stripSlashCs (stripSlashCs r.path) = stripSlashCs r.path

theorem dropWhile_of_all {p : α → Bool} {l : List α} (h : l.all p = true) :
    l.dropWhile p = [] := by
  have := dropWhile_append_all (p := p) (a := l) [] h
  simpa using this

theorem all_of_all {p q : α → Bool} (h : ∀ c, p c = true → q c = true) {l : List α}
    (hl : l.all p = true) : l.all q = true := by
  rw [List.all_eq_true] at hl ⊢
  exact fun x hx => h x (hl x hx)

theorem parsePort_shape {l : List Char} {port : Option (List Char)}
    (h : parsePort l = some port) :
    port = none ∨ ∃ p, port = some p ∧ p ≠ [] ∧ p.all Char.isDigit = true := by
  unfold parsePort at h
  split at h
  · left; injection h with h2; exact h2.symm
  · left; injection h with h2; exact h2.symm
  · split at h
    · rename_i ds hne hds
      right
      injection h with h2
      exact ⟨ds, h2.symm, fun hnil => hne hnil, hds⟩
    · exact absurd h (by simp)
  · exact absurd h (by simp)

theorem parsePort_digits {p : List Char} (hne : p ≠ []) (hd : p.all Char.isDigit = true) :
    parsePort (':' :: p) = some (some p) := by
  cases p with
  | nil => exact absurd rfl hne
  | cons d ds =>
      show (if (d :: ds).all Char.isDigit then some (some (d :: ds)) else none) =
        some (some (d :: ds))
      rw [if_pos hd]

theorem splitSchemeAux_append {s : List Char} (hs : ∀ c ∈ s, c ≠ ':') (t : List Char) :
    splitSchemeAux (s ++ ':' :: '/' :: '/' :: t) = some (s, t) := by
  induction s with
  | nil => rfl
  | cons c s' ih =>
      have hc : c ≠ ':' := hs c (List.mem_cons_self _ _)
      have ih2 := ih (fun d hd => hs d (List.mem_cons_of_mem _ hd))
      show splitSchemeAux (c :: (s' ++ ':' :: '/' :: '/' :: t)) = some (c :: s', t)
      conv_lhs => rw [splitSchemeAux.eq_def]
      split
      · rename_i heq
        injection heq with h1 _
        exact absurd h1 hc
      · rename_i c' rest heq
        injection heq with h1 h2
        subst h1
        subst h2
        rw [ih2]
      · rename_i heq
        exact absurd heq (by simp)

theorem pathCs_facts {rest1 : List Char}
    (hh : ∀ x t, rest1 = x :: t → isAuthorityEnd x = true) :
    (if rest1.takeWhile (fun c => ¬ isPathEnd c) = [] then ['/']
        else rest1.takeWhile (fun c => ¬ isPathEnd c)).head? = some '/' ∧
      (if rest1.takeWhile (fun c => ¬ isPathEnd c) = [] then ['/']
        else rest1.takeWhile (fun c => ¬ isPathEnd c)).all (fun c => ¬ isPathEnd c) = true := by
  by_cases hP : rest1.takeWhile (fun c => ¬ isPathEnd c) = []
  · rw [if_pos hP]
    exact ⟨rfl, by decide⟩
  · rw [if_neg hP]
    obtain ⟨x, t, hxt⟩ : ∃ x t, rest1.takeWhile (fun c => ¬ isPathEnd c) = x :: t := by
      cases hcc : rest1.takeWhile (fun c => ¬ isPathEnd c) with
      | nil => exact absurd hcc hP
      | cons a b => exact ⟨a, b, rfl⟩
    obtain ⟨hhead, hpred⟩ := takeWhile_eq_cons_head hxt
    obtain ⟨t2, ht2⟩ : ∃ t2, rest1 = x :: t2 := by
      cases rest1 with
      | nil => exact absurd hhead (by simp)
      | cons a b =>
          injection hhead with h1
          exact ⟨b, by rw [h1]⟩
    have hAuth := hh x t2 ht2
    have hPE : isPathEnd x = false := by simpa using hpred
    have hx : x = '/' := by
      simp only [isAuthorityEnd, decide_eq_true_eq] at hAuth
      have hPE2 : ¬(x = '?' ∨ x = '#') := by
        intro hor
        rcases hor with rfl | rfl <;> exact absurd hPE (by decide)
      rcases hAuth with rfl | h | h
      · rfl
      · exact absurd (Or.inl h) hPE2
      · exact absurd (Or.inr h) hPE2
    constructor
    · rw [hxt, hx]; rfl
    · rw [hxt, List.all_eq_true]
      intro c hc
      rw [← hxt] at hc
      exact mem_takeWhile_pred (p := fun c => ¬ isPathEnd c) hc

theorem queryOpt_facts {rest2 : List Char} {q : List Char}
    (h : (match rest2 with
          | '?' :: qs => some (qs.takeWhile (· ≠ '#'))
          | _ => none) = some q) :
    q.all (· ≠ '#') = true := by
  split at h
  · injection h with h2
    subst h2
    rw [List.all_eq_true]
    intro x hx
    exact mem_takeWhile_pred (p := (· ≠ '#')) hx
  · exact absurd h (by simp)

theorem parseUrlCs_shape {l : List Char} {r : UrlRec} (h : parseUrlCs l = some r) :
    wfUrl r = true ∧ r.scheme.all (fun c => !c.isUpper) = true ∧
      r.host.all (fun c => !c.isUpper) = true := by
  unfold parseUrlCs at h
  split at h
  · exact absurd h (by simp)
  · rename_i s0 rest0 heq0
    split at h
    case isFalse => exact absurd h (by simp)
    case isTrue hsch =>
    simp only [] at h
    split at h
    · exact absurd h (by simp)
    · rename_i port hport
      split at h
      case isFalse => exact absurd h (by simp)
      case isTrue hhost =>
      injection h with h2
      subst h2
      have hschU : (s0.map Char.toLower).all (fun c => !c.isUpper) = true := by
        rw [List.all_map, List.all_eq_true]
        intro c _
        simp [Function.comp, isUpper_toLower]
      have hhostU : (((rest0.takeWhile (fun c => ¬ isAuthorityEnd c)).takeWhile
          (· ≠ ':')).map Char.toLower).all (fun c => !c.isUpper) = true := by
        rw [List.all_map, List.all_eq_true]
        intro c _
        simp [Function.comp, isUpper_toLower]
      refine ⟨?_, hschU, hhostU⟩
      have hdroph : ∀ x t, rest0.dropWhile (fun c => ¬ isAuthorityEnd c) = x :: t →
          isAuthorityEnd x = true := by
        intro x t hxt
        have := dropWhile_eq_cons_head hxt
        simpa using this
      obtain ⟨hphead, hpall⟩ := pathCs_facts hdroph
      simp only [wfUrl, Bool.and_eq_true, decide_eq_true_eq]
      refine ⟨⟨⟨⟨⟨?_, ?_⟩, ⟨?_, ?_⟩⟩, ?_⟩, ⟨?_, ?_⟩⟩, ?_⟩
      · intro hm
        rw [List.map_eq_nil] at hm
        exact hsch.1 hm
      · rw [List.all_map, List.all_eq_true]
        intro c hc
        exact isAlpha_toLower c (List.all_eq_true.1 hsch.2 c hc)
      · intro hm
        rw [List.map_eq_nil] at hm
        exact hhost.1 hm
      · rw [List.all_map, List.all_eq_true]
        intro c hc
        exact isHostChar_toLower c (List.all_eq_true.1 hhost.2 c hc)
      · rcases parsePort_shape hport with rfl | ⟨p, rfl, hp1, hp2⟩
        · rfl
        · simp [hp1, hp2]
      · exact hphead
      · exact hpall
      · split
        · rfl
        · rename_i q hq
          exact queryOpt_facts hq

theorem parseUrlCs_reduce (s rest : List Char) (hs1 : s ≠ []) (hs2 : s.all Char.isAlpha = true)
    (hnc : ∀ c ∈ s, c ≠ ':') :
    parseUrlCs (s ++ ':' :: '/' :: '/' :: rest) =
      (match parsePort ((rest.takeWhile (fun c => ¬ isAuthorityEnd c)).dropWhile (· ≠ ':')) with
       | none => none
       | some port =>
          if (rest.takeWhile (fun c => ¬ isAuthorityEnd c)).takeWhile (· ≠ ':') ≠ [] ∧
              ((rest.takeWhile (fun c => ¬ isAuthorityEnd c)).takeWhile (· ≠ ':')).all
                isHostChar then
            some { scheme := s.map Char.toLower,
                   host := ((rest.takeWhile (fun c => ¬ isAuthorityEnd c)).takeWhile
                     (· ≠ ':')).map Char.toLower,
                   port := port,
                   path := if (rest.dropWhile (fun c => ¬ isAuthorityEnd c)).takeWhile
                         (fun c => ¬ isPathEnd c) = []
                       then ['/']
                       else (rest.dropWhile (fun c => ¬ isAuthorityEnd c)).takeWhile
                         (fun c => ¬ isPathEnd c),
                   query := match (rest.dropWhile (fun c => ¬ isAuthorityEnd c)).dropWhile
                       (fun c => ¬ isPathEnd c) with
                     | '?' :: qs => some (qs.takeWhile (· ≠ '#'))
                     | _ => none }
          else none) := by
  unfold parseUrlCs
  rw [splitSchemeAux_append hnc]
  have hcond : s ≠ [] ∧ s.all Char.isAlpha = true := ⟨hs1, hs2⟩
  simp only [if_pos hcond]

theorem parse_serialize (r : UrlRec) (h : wfUrl r = true) :
    parseUrlCs (serializeUrlCs r) =
      some { r with scheme := r.scheme.map Char.toLower,
                    host := r.host.map Char.toLower } := by
  obtain ⟨scheme, host, port, path, query⟩ := r
  simp only [wfUrl, Bool.and_eq_true, decide_eq_true_eq] at h
  obtain ⟨⟨⟨⟨⟨hs1, hs2⟩, hh1, hh2⟩, hport⟩, hpath1, hpath2⟩, hq⟩ := h
  obtain ⟨pt, rfl⟩ : ∃ pt, path = '/' :: pt := by
    cases path with
    | nil => exact absurd hpath1 (by simp)
    | cons a b =>
        injection hpath1 with h1
        exact ⟨b, by rw [h1]⟩
  have hnc : ∀ c ∈ scheme, c ≠ ':' :=
    fun c hc => isAlpha_ne_colon c (List.all_eq_true.1 hs2 c hc)
  have hostAllA : host.all (fun c => ¬ isAuthorityEnd c) = true :=
    all_of_all (fun c hc => by simp [isHostChar_not_authEnd c hc]) hh2
  have hostAllC : host.all (· ≠ ':') = true :=
    all_of_all (fun c hc => by simp [isHostChar_ne_colon c hc]) hh2
  have hptPE : pt.all (fun c => ¬ isPathEnd c) = true := by
    rw [List.all_cons, Bool.and_eq_true] at hpath2
    exact hpath2.2
  have hcond2 : host ≠ [] ∧ host.all isHostChar = true := ⟨hh1, hh2⟩
  have pp0 : parsePort [] = some none := rfl
  cases port with
  | none =>
      have hHostCs : host.takeWhile (· ≠ ':') = host := takeWhile_of_all hostAllC
      have hPortArg : host.dropWhile (· ≠ ':') = [] := dropWhile_of_all hostAllC
      cases query with
      | none =>
          simp only [serializeUrlCs, List.append_assoc, List.cons_append, List.nil_append,
            List.append_nil]
          rw [parseUrlCs_reduce _ _ hs1 hs2 hnc]
          have hAuth : (host ++ '/' :: pt).takeWhile (fun c => ¬ isAuthorityEnd c) = host := by
            rw [takeWhile_append_all _ hostAllA, List.takeWhile_cons_of_neg (by decide),
              List.append_nil]
          have hRest1 : (host ++ '/' :: pt).dropWhile (fun c => ¬ isAuthorityEnd c) =
              '/' :: pt := by
            rw [dropWhile_append_all _ hostAllA, List.dropWhile_cons_of_neg (by decide)]
          have hPathCs : ('/' :: pt).takeWhile (fun c => ¬ isPathEnd c) = '/' :: pt :=
            takeWhile_of_all hpath2
          have hRest2 : ('/' :: pt).dropWhile (fun c => ¬ isPathEnd c) = [] :=
            dropWhile_of_all hpath2
          simp only [hAuth, hRest1, hHostCs, hPortArg, pp0, hPathCs, hRest2,
            if_pos hcond2, if_neg (List.cons_ne_nil '/' pt)]
      | some q =>
          have hq2 : q.all (· ≠ '#') = true := hq
          simp only [serializeUrlCs, List.append_assoc, List.cons_append, List.nil_append,
            List.append_nil]
          rw [parseUrlCs_reduce _ _ hs1 hs2 hnc]
          have hAuth : (host ++ '/' :: (pt ++ '?' :: q)).takeWhile
              (fun c => ¬ isAuthorityEnd c) = host := by
            rw [takeWhile_append_all _ hostAllA, List.takeWhile_cons_of_neg (by decide),
              List.append_nil]
          have hRest1 : (host ++ '/' :: (pt ++ '?' :: q)).dropWhile
              (fun c => ¬ isAuthorityEnd c) = '/' :: (pt ++ '?' :: q) := by
            rw [dropWhile_append_all _ hostAllA, List.dropWhile_cons_of_neg (by decide)]
          have hPathCs : ('/' :: (pt ++ '?' :: q)).takeWhile (fun c => ¬ isPathEnd c) =
              '/' :: pt := by
            rw [List.takeWhile_cons_of_pos (by decide), takeWhile_append_all _ hptPE,
              List.takeWhile_cons_of_neg (by decide), List.append_nil]
          have hRest2 : ('/' :: (pt ++ '?' :: q)).dropWhile (fun c => ¬ isPathEnd c) =
              '?' :: q := by
            rw [List.dropWhile_cons_of_pos (by decide), dropWhile_append_all _ hptPE,
              List.dropWhile_cons_of_neg (by decide)]
          simp only [hAuth, hRest1, hHostCs, hPortArg, pp0, hPathCs, hRest2,
            if_pos hcond2, if_neg (List.cons_ne_nil '/' pt), takeWhile_of_all hq2]
  | some p =>
      have hpp2 : (decide (p ≠ []) && p.all Char.isDigit) = true := hport
      rw [Bool.and_eq_true, decide_eq_true_eq] at hpp2
      obtain ⟨hp1, hp2⟩ := hpp2
      have hpp : parsePort (':' :: p) = some (some p) := parsePort_digits hp1 hp2
      have hpA : p.all (fun c => ¬ isAuthorityEnd c) = true :=
        all_of_all (fun c hc => by simp [isDigit_not_authEnd c hc]) hp2
      have hHostCs : (host ++ ':' :: p).takeWhile (· ≠ ':') = host := by
        rw [takeWhile_append_all _ hostAllC, List.takeWhile_cons_of_neg (by decide),
          List.append_nil]
      have hPortArg : (host ++ ':' :: p).dropWhile (· ≠ ':') = ':' :: p := by
        rw [dropWhile_append_all _ hostAllC, List.dropWhile_cons_of_neg (by decide)]
      cases query with
      | none =>
          simp only [serializeUrlCs, List.append_assoc, List.cons_append, List.nil_append,
            List.append_nil]
          rw [parseUrlCs_reduce _ _ hs1 hs2 hnc]
          have hAuth : (host ++ ':' :: (p ++ '/' :: pt)).takeWhile
              (fun c => ¬ isAuthorityEnd c) = host ++ ':' :: p := by
            rw [takeWhile_append_all _ hostAllA, List.takeWhile_cons_of_pos (by decide),
              takeWhile_append_all _ hpA, List.takeWhile_cons_of_neg (by decide),
              List.append_nil]
          have hRest1 : (host ++ ':' :: (p ++ '/' :: pt)).dropWhile
              (fun c => ¬ isAuthorityEnd c) = '/' :: pt := by
            rw [dropWhile_append_all _ hostAllA, List.dropWhile_cons_of_pos (by decide),
              dropWhile_append_all _ hpA, List.dropWhile_cons_of_neg (by decide)]
          have hPathCs : ('/' :: pt).takeWhile (fun c => ¬ isPathEnd c) = '/' :: pt :=
            takeWhile_of_all hpath2
          have hRest2 : ('/' :: pt).dropWhile (fun c => ¬ isPathEnd c) = [] :=
            dropWhile_of_all hpath2
          simp only [hAuth, hRest1, hHostCs, hPortArg, hpp, hPathCs, hRest2,
            if_pos hcond2, if_neg (List.cons_ne_nil '/' pt)]
      | some q =>
          have hq2 : q.all (· ≠ '#') = true := hq
          simp only [serializeUrlCs, List.append_assoc, List.cons_append, List.nil_append,
            List.append_nil]
          rw [parseUrlCs_reduce _ _ hs1 hs2 hnc]
          have hAuth : (host ++ ':' :: (p ++ '/' :: (pt ++ '?' :: q))).takeWhile
              (fun c => ¬ isAuthorityEnd c) = host ++ ':' :: p := by
            rw [takeWhile_append_all _ hostAllA, List.takeWhile_cons_of_pos (by decide),
              takeWhile_append_all _ hpA, List.takeWhile_cons_of_neg (by decide),
              List.append_nil]
          have hRest1 : (host ++ ':' :: (p ++ '/' :: (pt ++ '?' :: q))).dropWhile
              (fun c => ¬ isAuthorityEnd c) = '/' :: (pt ++ '?' :: q) := by
            rw [dropWhile_append_all _ hostAllA, List.dropWhile_cons_of_pos (by decide),
              dropWhile_append_all _ hpA, List.dropWhile_cons_of_neg (by decide)]
          have hPathCs : ('/' :: (pt ++ '?' :: q)).takeWhile (fun c => ¬ isPathEnd c) =
              '/' :: pt := by
            rw [List.takeWhile_cons_of_pos (by decide), takeWhile_append_all _ hptPE,
              List.takeWhile_cons_of_neg (by decide), List.append_nil]
          have hRest2 : ('/' :: (pt ++ '?' :: q)).dropWhile (fun c => ¬ isPathEnd c) =
              '?' :: q := by
            rw [List.dropWhile_cons_of_pos (by decide), dropWhile_append_all _ hptPE,
              List.dropWhile_cons_of_neg (by decide)]
          simp only [hAuth, hRest1, hHostCs, hPortArg, hpp, hPathCs, hRest2,
            if_pos hcond2, if_neg (List.cons_ne_nil '/' pt), takeWhile_of_all hq2]

theorem mem_dropLast_mem : ∀ {l : List α} {x : α}, x ∈ l.dropLast → x ∈ l := by
  intro l
  induction l with
  | nil => intro x hx; exact absurd hx (List.not_mem_nil x)
  | cons a t ih =>
      intro x hx
      cases t with
      | nil => exact absurd hx (List.not_mem_nil x)
      | cons b t2 =>
          rw [show (a :: b :: t2).dropLast = a :: (b :: t2).dropLast from rfl,
            List.mem_cons] at hx
          rcases hx with rfl | hx
          · exact List.mem_cons_self _ _
          · exact List.mem_cons_of_mem _ (ih hx)

theorem stripSlashCs_facts {p : List Char} (h1 : p.head? = some '/')
    (h2 : p.all (fun c => ¬ isPathEnd c) = true) :
    (stripSlashCs p).head? = some '/' ∧
      (stripSlashCs p).all (fun c => ¬ isPathEnd c) = true := by
  unfold stripSlashCs
  by_cases hc : p ≠ ['/'] ∧ p.getLast? = some '/'
  · rw [if_pos hc]
    constructor
    · cases p with
      | nil => exact absurd h1 (by simp)
      | cons a t =>
          injection h1 with h1
          subst h1
          cases t with
          | nil => exact absurd rfl hc.1
          | cons b t2 => rfl
    · rw [List.all_eq_true]
      intro c hcm
      exact List.all_eq_true.1 h2 c (mem_dropLast_mem hcm)
  · rw [if_neg hc]
    exact ⟨h1, h2⟩

theorem stripSlashCs_concat_slash {p : List Char} (hne : p ≠ []) :
    stripSlashCs (p ++ ['/']) = p := by
  unfold stripSlashCs
  rw [if_pos, List.dropLast_concat]
  constructor
  · intro h
    have hl := congrArg List.length h
    simp at hl
    exact hne hl
  · exact List.getLast?_concat p

theorem stripSlashCs_id_of {p : List Char} (h : p.getLast? ≠ some '/') :
    stripSlashCs p = p := by
  unfold stripSlashCs
  rw [if_neg]
  intro hc
  exact h hc.2

theorem map_toLower_not_upper (l : List Char) :
    (l.map Char.toLower).all (fun c => !c.isUpper) = true := by
  rw [List.all_map, List.all_eq_true]
  intro c _
  simp [Function.comp, isUpper_toLower]

theorem map_toLower_idem (l : List Char) :
    (l.map Char.toLower).map Char.toLower = l.map Char.toLower :=
  map_toLower_eq_self (map_toLower_not_upper l)

theorem filterMap_eq_self {f : α → Option α} :
    ∀ {l : List α}, (∀ x ∈ l, f x = some x) → l.filterMap f = l := by
  intro l
  induction l with
  | nil => intro _; rfl
  | cons a t ih =>
      intro h
      rw [List.filterMap_cons, h a (List.mem_cons_self _ _), ih
        (fun x hx => h x (List.mem_cons_of_mem _ hx))]

theorem mem_parseParams {qs k v : List Char} (h : (k, v) ∈ parseParams qs) :
    (∀ c ∈ k, c ∈ qs ∧ c ≠ '&' ∧ c ≠ '=') ∧ (∀ c ∈ v, c ∈ qs ∧ c ≠ '&') := by
  unfold parseParams at h
  rw [List.mem_filterMap] at h
  obtain ⟨piece, hpm, hfn⟩ := h
  by_cases hpe : piece = []
  · rw [if_pos hpe] at hfn
    exact absurd hfn (by simp)
  · rw [if_neg hpe] at hfn
    injection hfn with hfn
    injection hfn with hk hv
    constructor
    · intro c hc
      rw [← hk] at hc
      have h1 := mem_takeWhile_mem hc
      have h2 := mem_takeWhile_pred (p := (· ≠ '=')) hc
      have h3 := splitOnChar_mem_sub hpm c h1
      refine ⟨h3.1, h3.2, ?_⟩
      simpa using h2
    · intro c hc
      split at hv
      · rename_i v2 heq
        subst hv
        have hcm : c ∈ '=' :: v2 := List.mem_cons_of_mem _ hc
        rw [← heq] at hcm
        have h1 := mem_dropWhile_mem hcm
        have h3 := splitOnChar_mem_sub hpm c h1
        exact ⟨h3.1, h3.2⟩
      · subst hv
        exact absurd hc (List.not_mem_nil c)

theorem parseParams_round {ps : List (List Char × List Char)} (hne : ps ≠ [])
    (hk : ∀ p ∈ ps, ∀ c ∈ p.1, c ≠ '&' ∧ c ≠ '=')
    (hv : ∀ p ∈ ps, ∀ c ∈ p.2, c ≠ '&') :
    parseParams (serializeParams ps) = ps := by
  unfold parseParams serializeParams
  rw [splitOnChar_join (by intro h; rw [List.map_eq_nil] at h; exact hne h) ?hch]
  case hch =>
    intro piece hpm c hc
    rw [List.mem_map] at hpm
    obtain ⟨⟨k2, v2⟩, hmem, rfl⟩ := hpm
    rw [List.mem_append, List.mem_cons] at hc
    rcases hc with hc | rfl | hc
    · exact (hk (k2, v2) hmem c hc).1
    · decide
    · exact hv (k2, v2) hmem c hc
  rw [List.filterMap_map]
  apply filterMap_eq_self
  intro x hx
  obtain ⟨k, v⟩ := x
  have hkall : k.all (· ≠ '=') = true :=
    List.all_eq_true.2 (fun c hc => by simpa using (hk (k, v) hx c hc).2)
  show (if k ++ '=' :: v = [] then none
    else some ((k ++ '=' :: v).takeWhile (· ≠ '='),
      match (k ++ '=' :: v).dropWhile (· ≠ '=') with
      | '=' :: v => v
      | _ => [])) = some (k, v)
  rw [if_neg (by simp)]
  rw [takeWhile_append_all _ hkall, List.takeWhile_cons_of_neg (by decide), List.append_nil,
    dropWhile_append_all _ hkall, List.dropWhile_cons_of_neg (by decide)]
  rfl

/-- The query-normalization step of `normalizeUrl`: parse, sort, reserialize,
and drop the query when it serializes to the empty string. -/
def normQuery (qRaw : List Char) : Option (List Char) :=
  let pairs := parseParams qRaw
  let sorted := sortByLe pairLe pairs
  let qser := serializeParams sorted
  if qser = [] then none else some qser

theorem normQuery_idem (qRaw : List Char) :
    normQuery (match normQuery qRaw with | none => [] | some q => q) = normQuery qRaw := by
  by_cases h0 : serializeParams (sortByLe pairLe (parseParams qRaw)) = []
  · have h1 : normQuery qRaw = none := by unfold normQuery; rw [if_pos h0]
    rw [h1]
    decide
  · have h1 : normQuery qRaw =
        some (serializeParams (sortByLe pairLe (parseParams qRaw))) := by
      unfold normQuery; rw [if_neg h0]
    rw [h1]
    show normQuery (serializeParams (sortByLe pairLe (parseParams qRaw))) =
      some (serializeParams (sortByLe pairLe (parseParams qRaw)))
    have hsne : sortByLe pairLe (parseParams qRaw) ≠ [] := by
      intro hnil
      apply h0
      rw [hnil]
      rfl
    have hrt : parseParams (serializeParams (sortByLe pairLe (parseParams qRaw))) =
        sortByLe pairLe (parseParams qRaw) := by
      apply parseParams_round hsne
      · intro p hp c hc
        have hmem : (p.1, p.2) ∈ parseParams qRaw :=
          (sortByLe_perm pairLe (parseParams qRaw)).mem_iff.1 hp
        have := (mem_parseParams hmem).1 c hc
        exact ⟨this.2.1, this.2.2⟩
      · intro p hp c hc
        have hmem : (p.1, p.2) ∈ parseParams qRaw :=
          (sortByLe_perm pairLe (parseParams qRaw)).mem_iff.1 hp
        exact ((mem_parseParams hmem).2 c hc).2
    simp only [normQuery]
    rw [hrt, sortByLe_idem pairLe pairLe_total, if_neg h0]

theorem normQuery_no_hash {qRaw : List Char} (h : qRaw.all (· ≠ '#') = true) :
    (match normQuery qRaw with | none => true | some q => q.all (· ≠ '#')) = true := by
  by_cases h0 : serializeParams (sortByLe pairLe (parseParams qRaw)) = []
  · have h1 : normQuery qRaw = none := by unfold normQuery; rw [if_pos h0]
    rw [h1]
  · have h1 : normQuery qRaw =
        some (serializeParams (sortByLe pairLe (parseParams qRaw))) := by
      unfold normQuery; rw [if_neg h0]
    rw [h1]
    show (serializeParams (sortByLe pairLe (parseParams qRaw))).all (· ≠ '#') = true
    rw [List.all_eq_true]
    intro c hcm
    unfold serializeParams at hcm
    rcases mem_joinWithChar hcm with rfl | ⟨piece, hpm, hcp⟩
    · decide
    · rw [List.mem_map] at hpm
      obtain ⟨⟨k, v⟩, hmem, rfl⟩ := hpm
      have hmem2 : (k, v) ∈ parseParams qRaw :=
        (sortByLe_perm pairLe (parseParams qRaw)).mem_iff.1 hmem
      rw [List.mem_append, List.mem_cons] at hcp
      rcases hcp with hcp | rfl | hcp
      · exact List.all_eq_true.1 h c ((mem_parseParams hmem2).1 c hcp).1
      · decide
      · exact List.all_eq_true.1 h c ((mem_parseParams hmem2).2 c hcp).1

theorem normalizeUrl_parse {u : String} {r2 : UrlRec} (hp : parseUrlCs u.toList = some r2) :
    normalizeUrl u = String.mk (serializeUrlCs
      { r2 with host := r2.host.map Char.toLower,
                path := stripSlashCs r2.path,
                query := normQuery (match r2.query with | none => [] | some q => q) }) := by
  unfold normalizeUrl normQuery
  rw [hp]

theorem wfUrl_out {r : UrlRec} (hwf : wfUrl r = true) :
    wfUrl { r with host := r.host.map Char.toLower,
                   path := stripSlashCs r.path,
                   query := normQuery (match r.query with | none => [] | some q => q) } =
      true := by
  simp only [wfUrl, Bool.and_eq_true, decide_eq_true_eq] at hwf ⊢
  obtain ⟨⟨⟨⟨⟨hs1, hs2⟩, hh1, hh2⟩, hport⟩, hpath1, hpath2⟩, hq⟩ := hwf
  obtain ⟨hsh, hsa⟩ := stripSlashCs_facts hpath1 hpath2
  refine ⟨⟨⟨⟨⟨hs1, hs2⟩, ?_, ?_⟩, hport⟩, hsh, hsa⟩, ?_⟩
  · intro hm
    rw [List.map_eq_nil] at hm
    exact hh1 hm
  · rw [List.all_map, List.all_eq_true]
    intro c hc
    exact isHostChar_toLower c (List.all_eq_true.1 hh2 c hc)
  · have hraw : (match r.query with | none => [] | some q => q).all (· ≠ '#') = true := by
      cases hq2 : r.query with
      | none => decide
      | some q => rw [hq2] at hq; exact hq
    exact normQuery_no_hash hraw

theorem normalizeUrl_fixed (r2 : UrlRec) (hwf : wfUrl r2 = true)
    (hsU : r2.scheme.all (fun c => !c.isUpper) = true)
    (hhU : r2.host.all (fun c => !c.isUpper) = true)
    (hstrip : stripSlashCs r2.path = r2.path)
    (hqr : normQuery (match r2.query with | none => [] | some q => q) = r2.query) :
    normalizeUrl (String.mk (serializeUrlCs r2)) = String.mk (serializeUrlCs r2) := by
  have hp2 : parseUrlCs (String.mk (serializeUrlCs r2)).toList = some r2 := by
    rw [show (String.mk (serializeUrlCs r2)).toList = serializeUrlCs r2 from rfl,
      parse_serialize r2 hwf, map_toLower_eq_self hsU, map_toLower_eq_self hhU]
  rw [normalizeUrl_parse hp2, map_toLower_eq_self hhU, hstrip, hqr]

theorem normalizeUrl_idem_aux (u : String) (hst : stripStable u = true) :
    normalizeUrl (normalizeUrl u) = normalizeUrl u := by
  cases hp : parseUrlCs u.toList with
  | none =>
      have h1 : normalizeUrl u = u := by unfold normalizeUrl; rw [hp]
      rw [h1, h1]
  | some r =>
      obtain ⟨hwf, hsU, hhU⟩ := parseUrlCs_shape hp
      have hst2 : stripSlashCs (stripSlashCs r.path) = stripSlashCs r.path := by
        unfold stripStable at hst
        rw [hp] at hst
        exact of_decide_eq_true hst
      rw [normalizeUrl_parse hp]
      apply normalizeUrl_fixed
      · exact wfUrl_out hwf
      · exact hsU
      · exact map_toLower_not_upper r.host
      · exact hst2
      · exact normQuery_idem (match r.query with | none => [] | some q => q)

theorem normalizeUrl_slash_aux (r : UrlRec) (hwf : wfUrl r = true)
    (hlast : r.path.getLast? ≠ some '/') :
    normalizeUrl (String.mk (serializeUrlCs { r with path := r.path ++ ['/'] })) =
      normalizeUrl (String.mk (serializeUrlCs r)) := by
  have hwfc := hwf
  simp only [wfUrl, Bool.and_eq_true, decide_eq_true_eq] at hwfc
  obtain ⟨⟨⟨⟨⟨hs1, hs2⟩, hh1, hh2⟩, hport⟩, hpath1, hpath2⟩, hq⟩ := hwfc
  have hne : r.path ≠ [] := by
    intro h
    rw [h] at hpath1
    exact absurd hpath1 (by simp)
  have hwf2 : wfUrl { r with path := r.path ++ ['/'] } = true := by
    simp only [wfUrl, Bool.and_eq_true, decide_eq_true_eq]
    refine ⟨⟨⟨⟨⟨hs1, hs2⟩, hh1, hh2⟩, hport⟩, ?_, ?_⟩, hq⟩
    · cases hp2 : r.path with
      | nil => exact absurd hp2 hne
      | cons a t =>
          rw [hp2] at hpath1
          injection hpath1 with h1
          subst h1
          rfl
    · rw [List.all_append, Bool.and_eq_true]
      exact ⟨hpath2, by decide⟩
  have hp1 : parseUrlCs
      (String.mk (serializeUrlCs { r with path := r.path ++ ['/'] })).toList =
      some { r with scheme := r.scheme.map Char.toLower,
                    host := r.host.map Char.toLower,
                    path := r.path ++ ['/'] } := by
    rw [show (String.mk (serializeUrlCs ({ r with path := r.path ++ ['/'] } : UrlRec))).toList
        = serializeUrlCs { r with path := r.path ++ ['/'] } from rfl,
      parse_serialize _ hwf2]
  have hp2 : parseUrlCs (String.mk (serializeUrlCs r)).toList =
      some { r with scheme := r.scheme.map Char.toLower,
                    host := r.host.map Char.toLower } := by
    rw [show (String.mk (serializeUrlCs r)).toList = serializeUrlCs r from rfl,
      parse_serialize r hwf]
  rw [normalizeUrl_parse hp1, normalizeUrl_parse hp2]
  simp only [map_toLower_idem, stripSlashCs_concat_slash hne, stripSlashCs_id_of hlast]

theorem normalizeUrl_hostcase_aux (r : UrlRec) (h2 : List Char) (hwf : wfUrl r = true)
    (hne2 : h2 ≠ []) (hall2 : h2.all isHostChar = true)
    (hmap2 : h2.map Char.toLower = r.host.map Char.toLower) :
    normalizeUrl (String.mk (serializeUrlCs { r with host := h2 })) =
      normalizeUrl (String.mk (serializeUrlCs r)) := by
  have hwfc := hwf
  simp only [wfUrl, Bool.and_eq_true, decide_eq_true_eq] at hwfc
  obtain ⟨⟨⟨⟨⟨hs1, hs2⟩, _, _⟩, hport⟩, hpath1, hpath2⟩, hq⟩ := hwfc
  have hwf2 : wfUrl { r with host := h2 } = true := by
    simp only [wfUrl, Bool.and_eq_true, decide_eq_true_eq]
    exact ⟨⟨⟨⟨⟨hs1, hs2⟩, hne2, hall2⟩, hport⟩, hpath1, hpath2⟩, hq⟩
  have hp1 : parseUrlCs (String.mk (serializeUrlCs { r with host := h2 })).toList =
      some { r with scheme := r.scheme.map Char.toLower,
                    host := r.host.map Char.toLower } := by
    rw [show (String.mk (serializeUrlCs ({ r with host := h2 } : UrlRec))).toList =
        serializeUrlCs { r with host := h2 } from rfl, parse_serialize _ hwf2]
    simp only [hmap2]
  have hp2 : parseUrlCs (String.mk (serializeUrlCs r)).toList =
      some { r with scheme := r.scheme.map Char.toLower,
                    host := r.host.map Char.toLower } := by
    rw [show (String.mk (serializeUrlCs r)).toList = serializeUrlCs r from rfl,
      parse_serialize r hwf]
  rw [normalizeUrl_parse hp1, normalizeUrl_parse hp2]

/-- C9 counterexample: `normalizeUrl` strips only one trailing slash per
application, so on `"https://h.x/a//"` a second application strips again and
the claimed idempotence `normalize (normalize u) = normalize u` fails. -/
theorem normalizeUrl_not_idempotent_cx :
    normalizeUrl "https://h.x/a//" = "https://h.x/a/" ∧
      normalizeUrl (normalizeUrl "https://h.x/a//") = "https://h.x/a" ∧
      normalizeUrl (normalizeUrl "https://h.x/a//") ≠ normalizeUrl "https://h.x/a//" := by
  decide

/-- C9 amended: `normalizeUrl` is idempotent on every input whose
trailing-slash strip reaches a fixed point after one application (in
particular on every unparsable input and every path not ending in `"//"`);
appending one trailing slash to a well-formed URL whose path does not already
end in a slash does not change the normal form; changing only the letter case
of the hostname does not change the normal form; and the spec's concrete
instance `normalizeUrl "https://Example.com/a/" = normalizeUrl
"https://example.com/a"` holds. -/
theorem normalizeUrl_idempotent_amended :
    (∀ u : String, stripStable u = true →
        normalizeUrl (normalizeUrl u) = normalizeUrl u) ∧
    (∀ r : UrlRec, wfUrl r = true → r.path.getLast? ≠ some '/' →
        normalizeUrl (String.mk (serializeUrlCs { r with path := r.path ++ ['/'] })) =
          normalizeUrl (String.mk (serializeUrlCs r))) ∧
    (∀ (r : UrlRec) (h : List Char), wfUrl r = true → h ≠ [] →
        h.all isHostChar = true → h.map Char.toLower = r.host.map Char.toLower →
        normalizeUrl (String.mk (serializeUrlCs { r with host := h })) =
          normalizeUrl (String.mk (serializeUrlCs r))) ∧
    normalizeUrl "https://Example.com/a/" = normalizeUrl "https://example.com/a" :=
  ⟨normalizeUrl_idem_aux, normalizeUrl_slash_aux, normalizeUrl_hostcase_aux, by decide⟩

theorem normalizeUrl_idempotent_amended_witness :
    (stripStable "https://h.x/a?b=2&a=1" = true ∧
      normalizeUrl (normalizeUrl "https://h.x/a?b=2&a=1") =
        normalizeUrl "https://h.x/a?b=2&a=1") ∧
    (wfUrl ⟨"https".toList, "h.x".toList, none, "/a".toList, none⟩ = true ∧
      normalizeUrl (String.mk (serializeUrlCs
        { (⟨"https".toList, "h.x".toList, none, "/a".toList, none⟩ : UrlRec) with
          path := "/a".toList ++ ['/'] })) =
        normalizeUrl (String.mk (serializeUrlCs
          (⟨"https".toList, "h.x".toList, none, "/a".toList, none⟩ : UrlRec)))) ∧
    normalizeUrl (String.mk (serializeUrlCs
        { (⟨"https".toList, "example.com".toList, none, "/a".toList, none⟩ : UrlRec) with
          host := "Example.COM".toList })) =
      normalizeUrl (String.mk (serializeUrlCs
        (⟨"https".toList, "example.com".toList, none, "/a".toList, none⟩ : UrlRec))) :=
  ⟨⟨by decide, normalizeUrl_idempotent_amended.1 "https://h.x/a?b=2&a=1" (by decide)⟩,
   ⟨by decide, normalizeUrl_idempotent_amended.2.1 _ (by decide) (by decide)⟩,
   normalizeUrl_idempotent_amended.2.2.1 _ "Example.COM".toList (by decide) (by decide)
     (by decide) (by decide)⟩

/-! ## C8: crawl termination and bounds -/

theorem crawlPage_facts (cfg : CrawlConfig) (ro : String) (nav : String → Option NavOut)
    (st : CrawlSt) (url : String) (d : Nat) :
    (crawlPage cfg ro nav st url d).1.queue = st.queue ∧
    (∃ t, (crawlPage cfg ro nav st url d).1.visited = st.visited ++ t ∧
      t.length ≤ 1 ∧
      (∀ x ∈ t, x = url ∧ x ∉ st.visited) ∧
      (∀ u2 links, (crawlPage cfg ro nav st url d).2 = some (u2, links) →
        u2 = url ∧ u2 ∈ t ∧ ∃ out, nav url = some out ∧ links = out.links)) := by
  unfold crawlPage
  by_cases h1 : st.visited.contains url = true
  · rw [if_pos h1]
    exact ⟨rfl, [], by simp, by simp, by simp, by simp⟩
  · rw [if_neg h1]
    have hnm : url ∉ st.visited := fun hm => h1 (List.elem_iff.2 hm)
    by_cases h2 : shouldSkipUrl url cfg.excludePatterns = true
    · rw [if_pos h2]
      exact ⟨rfl, [], by simp, by simp, by simp, by simp⟩
    · rw [if_neg h2]
      by_cases h3 : isSameOrigin url ro = true
      · rw [if_neg (by simp [h3])]
        cases hnav : nav url with
        | some out =>
            refine ⟨rfl, [url], rfl, by simp, ?_, ?_⟩
            · intro x hx
              rw [List.mem_singleton] at hx
              subst hx
              exact ⟨rfl, hnm⟩
            · intro u2 links hres
              injection hres with hres
              injection hres with hres1 hres2
              subst hres1
              exact ⟨rfl, List.mem_singleton.2 rfl, out, rfl, hres2.symm⟩
        | none =>
            refine ⟨rfl, [url], rfl, by simp, ?_, by simp⟩
            intro x hx
            rw [List.mem_singleton] at hx
            subst hx
            exact ⟨rfl, hnm⟩
      · rw [if_pos (by simp [h3])]
        exact ⟨rfl, [], by simp, by simp, by simp, by simp⟩

theorem nodup_of_length_le_one {l : List α} (h : l.length ≤ 1) : l.Nodup := by
  cases l with
  | nil => exact List.nodup_nil
  | cons x t =>
      cases t with
      | nil => simp
      | cons y t2 => simp at h

theorem runBatch_aux (cfg : CrawlConfig) (ro : String) (nav : String → Option NavOut) :
    ∀ (batch : List (String × Nat)) (st0 : CrawlSt)
      (acc : List (Option (String × List String))),
    (batch.foldl (fun a item =>
        let r := crawlPage cfg ro nav a.1 item.1 item.2
        (r.1, a.2 ++ [r.2])) (st0, acc)).1.queue = st0.queue ∧
    ∃ t, (batch.foldl (fun a item =>
        let r := crawlPage cfg ro nav a.1 item.1 item.2
        (r.1, a.2 ++ [r.2])) (st0, acc)).1.visited = st0.visited ++ t ∧
      t.length ≤ batch.length ∧ t.Nodup ∧
      (∀ x ∈ t, x ∈ batch.map Prod.fst ∧ x ∉ st0.visited) ∧
      (∀ res ∈ (batch.foldl (fun a item =>
          let r := crawlPage cfg ro nav a.1 item.1 item.2
          (r.1, a.2 ++ [r.2])) (st0, acc)).2, res ∈ acc ∨
        ∀ u2 links, res = some (u2, links) →
          u2 ∈ batch.map Prod.fst ∧ u2 ∈ t ∧
            ∃ out, nav u2 = some out ∧ links = out.links) := by
  intro batch
  induction batch with
  | nil =>
      intro st0 acc
      exact ⟨rfl, [], by simp, by simp, List.nodup_nil, by simp, fun res hres => Or.inl hres⟩
  | cons b bs ih =>
      intro st0 acc
      obtain ⟨hq0, t0, hv0, hl0, hm0, hr0⟩ :=
        crawlPage_facts cfg ro nav st0 b.1 b.2
      obtain ⟨ihq, t1, ihv, ihlen, ihnodup, ihmem, ihres⟩ :=
        ih (crawlPage cfg ro nav st0 b.1 b.2).1 (acc ++ [(crawlPage cfg ro nav st0 b.1 b.2).2])
      constructor
      · rw [List.foldl_cons]
        exact ihq.trans hq0
      · refine ⟨t0 ++ t1, ?_, ?_, ?_, ?_, ?_⟩
        · rw [List.foldl_cons, ihv, hv0, List.append_assoc]
        · rw [List.length_append, List.length_cons]
          have := hl0
          omega
        · refine List.Nodup.append (nodup_of_length_le_one hl0) ihnodup ?_
          intro x hx0 hx1
          have h1 := (ihmem x hx1).2
          rw [hv0, List.mem_append] at h1
          exact h1 (Or.inr hx0)
        · intro x hx
          rw [List.mem_append] at hx
          rcases hx with hx | hx
          · obtain ⟨h1, h2⟩ := hm0 x hx
            subst h1
            exact ⟨List.mem_cons_self _ _, h2⟩
          · obtain ⟨h1, h2⟩ := ihmem x hx
            refine ⟨List.mem_cons_of_mem _ h1, fun hm => h2 ?_⟩
            rw [hv0, List.mem_append]
            exact Or.inl hm
        · intro res hres
          rw [List.foldl_cons] at hres
          rcases ihres res hres with hacc | hP
          · rw [List.mem_append, List.mem_singleton] at hacc
            rcases hacc with hacc | rfl
            · exact Or.inl hacc
            · right
              intro u2 links heq
              obtain ⟨h1, h2, out, h3, h4⟩ := hr0 u2 links heq
              subst h1
              exact ⟨List.mem_cons_self _ _, List.mem_append.2 (Or.inl h2), out, h3, h4⟩
          · right
            intro u2 links heq
            obtain ⟨h1, h2, h3⟩ := hP u2 links heq
            exact ⟨List.mem_cons_of_mem _ h1, List.mem_append.2 (Or.inr h2), h3⟩

theorem runBatch_facts (cfg : CrawlConfig) (ro : String) (nav : String → Option NavOut)
    (st0 : CrawlSt) (batch : List (String × Nat)) :
    (runBatch cfg ro nav st0 batch).1.queue = st0.queue ∧
    ∃ t, (runBatch cfg ro nav st0 batch).1.visited = st0.visited ++ t ∧
      t.length ≤ batch.length ∧ t.Nodup ∧
      (∀ x ∈ t, x ∈ batch.map Prod.fst ∧ x ∉ st0.visited) ∧
      (∀ res ∈ (runBatch cfg ro nav st0 batch).2,
        ∀ u2 links, res = some (u2, links) →
          u2 ∈ batch.map Prod.fst ∧ u2 ∈ t ∧
            ∃ out, nav u2 = some out ∧ links = out.links) := by
  obtain ⟨hq, t, hv, hlen, hnd, hmem, hres⟩ := runBatch_aux cfg ro nav batch st0 []
  refine ⟨hq, t, hv, hlen, hnd, hmem, ?_⟩
  intro res hres2 u2 links heq
  rcases hres res hres2 with hacc | hP
  · exact absurd hacc (List.not_mem_nil res)
  · exact hP u2 links heq

theorem linkFold_aux (cfg : CrawlConfig) (ro cur : String) (d : Nat) :
    ∀ (links : List String) (st : CrawlSt),
    ((links.foldl (fun s link =>
        match resolveUrl cur link with
        | none => s
        | some resolved =>
            let normalized := normalizeUrl resolved
            if ¬ s.visited.contains normalized ∧
                ¬ s.queue.any (fun q => q.1 = normalized) ∧
                isSameOrigin normalized ro ∧
                ¬ shouldSkipUrl normalized cfg.excludePatterns then
              { s with queue := s.queue ++ [(normalized, d + 1)] }
            else s) st).visited = st.visited ∧
     (links.foldl (fun s link =>
        match resolveUrl cur link with
        | none => s
        | some resolved =>
            let normalized := normalizeUrl resolved
            if ¬ s.visited.contains normalized ∧
                ¬ s.queue.any (fun q => q.1 = normalized) ∧
                isSameOrigin normalized ro ∧
                ¬ shouldSkipUrl normalized cfg.excludePatterns then
              { s with queue := s.queue ++ [(normalized, d + 1)] }
            else s) st).discovered = st.discovered ∧
     ∃ t, (links.foldl (fun s link =>
        match resolveUrl cur link with
        | none => s
        | some resolved =>
            let normalized := normalizeUrl resolved
            if ¬ s.visited.contains normalized ∧
                ¬ s.queue.any (fun q => q.1 = normalized) ∧
                isSameOrigin normalized ro ∧
                ¬ shouldSkipUrl normalized cfg.excludePatterns then
              { s with queue := s.queue ++ [(normalized, d + 1)] }
            else s) st).queue = st.queue ++ t ∧
       (t.map Prod.fst).Nodup ∧
       (∀ p ∈ t, (∃ l ∈ links, ∃ res, resolveUrl cur l = some res ∧
           p.1 = normalizeUrl res) ∧
         p.2 = d + 1 ∧ p.1 ∉ st.visited ∧ p.1 ∉ st.queue.map Prod.fst)) := by
  intro links
  induction links with
  | nil =>
      intro st
      exact ⟨rfl, rfl, [], by simp, by simp, by simp⟩
  | cons l ls ih =>
      intro st
      rw [List.foldl_cons]
      split
      · rename_i heq
        obtain ⟨ihv, ihd, t1, ihq, ihnd, ihmem⟩ := ih st
        refine ⟨ihv, ihd, t1, ihq, ihnd, ?_⟩
        intro p hp
        obtain ⟨⟨l2, hl2, hrest⟩, h2, h3, h4⟩ := ihmem p hp
        exact ⟨⟨l2, List.mem_cons_of_mem _ hl2, hrest⟩, h2, h3, h4⟩
      · rename_i resolved heq
        by_cases hcnd : ¬ st.visited.contains (normalizeUrl resolved) = true ∧
            ¬ (st.queue.any fun q => q.1 = normalizeUrl resolved) = true ∧
            isSameOrigin (normalizeUrl resolved) ro = true ∧
            ¬ shouldSkipUrl (normalizeUrl resolved) cfg.excludePatterns = true
        · rw [if_pos hcnd]
          obtain ⟨ihv, ihd, t1, ihq, ihnd, ihmem⟩ :=
            ih { st with queue := st.queue ++ [(normalizeUrl resolved, d + 1)] }
          refine ⟨ihv, ihd, (normalizeUrl resolved, d + 1) :: t1, ?_, ?_, ?_⟩
          · rw [ihq, List.append_assoc]
            rfl
          · rw [List.map_cons]
            refine List.nodup_cons.2 ⟨?_, ihnd⟩
            intro hmem2
            rw [List.mem_map] at hmem2
            obtain ⟨p, hp, hp1⟩ := hmem2
            have h4 := (ihmem p hp).2.2.2
            rw [List.map_append, List.mem_append] at h4
            exact h4 (Or.inr (by rw [hp1]; simp))
          · intro p hp
            rw [List.mem_cons] at hp
            rcases hp with rfl | hp
            · refine ⟨⟨l, List.mem_cons_self _ _, resolved, heq, rfl⟩, rfl, ?_, ?_⟩
              · intro hm
                exact hcnd.1 (List.elem_iff.2 hm)
              · intro hm
                rw [List.mem_map] at hm
                obtain ⟨q, hq, hq1⟩ := hm
                apply hcnd.2.1
                rw [List.any_eq_true]
                exact ⟨q, hq, by rw [hq1]; simp⟩
            · obtain ⟨⟨l2, hl2, hrest⟩, h2, h3, h4⟩ := ihmem p hp
              refine ⟨⟨l2, List.mem_cons_of_mem _ hl2, hrest⟩, h2, h3, ?_⟩
              intro hm
              apply h4
              rw [List.map_append, List.mem_append]
              exact Or.inl hm
        · rw [if_neg hcnd]
          obtain ⟨ihv, ihd, t1, ihq, ihnd, ihmem⟩ := ih st
          refine ⟨ihv, ihd, t1, ihq, ihnd, ?_⟩
          intro p hp
          obtain ⟨⟨l2, hl2, hrest⟩, h2, h3, h4⟩ := ihmem p hp
          exact ⟨⟨l2, List.mem_cons_of_mem _ hl2, hrest⟩, h2, h3, h4⟩

theorem processLinks_facts (cfg : CrawlConfig) (ro : String) (st : CrawlSt)
    (links : List String) (cur : String) (d : Nat) :
    (processLinks cfg ro st links cur d).visited = st.visited ∧
    (processLinks cfg ro st links cur d).discovered = st.discovered ∧
    ∃ t, (processLinks cfg ro st links cur d).queue = st.queue ++ t ∧
      (t.map Prod.fst).Nodup ∧
      (∀ p ∈ t, (∃ l ∈ links, ∃ res, resolveUrl cur l = some res ∧
          p.1 = normalizeUrl res) ∧
        p.2 = d + 1 ∧ d < cfg.maxDepth ∧ p.1 ∉ st.visited ∧
        p.1 ∉ st.queue.map Prod.fst) := by
  unfold processLinks
  by_cases hd : cfg.maxDepth ≤ d
  · rw [if_pos hd]
    exact ⟨rfl, rfl, [], by simp, by simp, by simp⟩
  · rw [if_neg hd]
    obtain ⟨hv, hdis, t, hq, hnd, hmem⟩ := linkFold_aux cfg ro cur d links st
    refine ⟨hv, hdis, t, hq, hnd, ?_⟩
    intro p hp
    obtain ⟨h1, h2, h3, h4⟩ := hmem p hp
    exact ⟨h1, h2, Nat.lt_of_not_le hd, h3, h4⟩

theorem resultFold_aux (cfg : CrawlConfig) (ro : String) (hd : Nat) :
    ∀ (results : List (Option (String × List String))) (s : CrawlSt),
    (results.foldl (fun s r =>
        match r with
        | some (url, links) =>
            processLinks cfg ro { s with discovered := s.discovered ++ [url] }
              links url hd
        | none => s) s).visited = s.visited ∧
    ∃ t, (results.foldl (fun s r =>
        match r with
        | some (url, links) =>
            processLinks cfg ro { s with discovered := s.discovered ++ [url] }
              links url hd
        | none => s) s).queue = s.queue ++ t ∧
      (t.map Prod.fst).Nodup ∧
      (∀ p ∈ t, (∃ url links, some (url, links) ∈ results ∧
          ∃ l ∈ links, ∃ res, resolveUrl url l = some res ∧ p.1 = normalizeUrl res) ∧
        p.2 = hd + 1 ∧ hd < cfg.maxDepth ∧ p.1 ∉ s.visited ∧
        p.1 ∉ s.queue.map Prod.fst) ∧
      ((∀ r ∈ results, r = none) → t = []) := by
  intro results
  induction results with
  | nil =>
      intro s
      exact ⟨rfl, [], by simp, by simp, by simp, fun _ => rfl⟩
  | cons r rs ih =>
      intro s
      rw [List.foldl_cons]
      cases r with
      | none =>
          obtain ⟨ihv, t1, ihq, ihnd, ihmem, ihnone⟩ := ih s
          refine ⟨ihv, t1, ihq, ihnd, ?_, ?_⟩
          · intro p hp
            obtain ⟨⟨url, links, hm, hrest⟩, h2, h3, h4, h5⟩ := ihmem p hp
            exact ⟨⟨url, links, List.mem_cons_of_mem _ hm, hrest⟩, h2, h3, h4, h5⟩
          · intro hall
            exact ihnone (fun r2 hr2 => hall r2 (List.mem_cons_of_mem _ hr2))
      | some ul =>
          obtain ⟨url, links⟩ := ul
          obtain ⟨hv0, hd0, t0, hq0, hnd0, hmem0⟩ :=
            processLinks_facts cfg ro { s with discovered := s.discovered ++ [url] }
              links url hd
          obtain ⟨ihv, t1, ihq, ihnd, ihmem, _⟩ :=
            ih (processLinks cfg ro { s with discovered := s.discovered ++ [url] }
              links url hd)
          constructor
          · rw [ihv, hv0]
          · refine ⟨t0 ++ t1, ?_, ?_, ?_, ?_⟩
            · rw [ihq, hq0, List.append_assoc]
            · rw [List.map_append]
              refine List.Nodup.append hnd0 ihnd ?_
              intro x hx0 hx1
              rw [List.mem_map] at hx1
              obtain ⟨p, hp, hp1⟩ := hx1
              have h5 := (ihmem p hp).2.2.2.2
              rw [hq0, List.map_append, List.mem_append] at h5
              rw [← hp1] at hx0
              exact h5 (Or.inr hx0)
            · intro p hp
              rw [List.mem_append] at hp
              rcases hp with hp | hp
              · obtain ⟨h1, h2, h3, h4, h5⟩ := hmem0 p hp
                exact ⟨⟨url, links, List.mem_cons_self _ _, h1⟩, h2, h3, h4, h5⟩
              · obtain ⟨⟨url2, links2, hm, hrest⟩, h2, h3, h4, h5⟩ := ihmem p hp
                refine ⟨⟨url2, links2, List.mem_cons_of_mem _ hm, hrest⟩, h2, h3, ?_, ?_⟩
                · rw [hv0] at h4
                  exact h4
                · intro hm2
                  apply h5
                  rw [hq0, List.map_append, List.mem_append]
                  exact Or.inl hm2
            · intro hall
              exact absurd (hall (some (url, links)) (List.mem_cons_self _ _)) (by simp)

/-- Loop invariant of the crawl: no URL is both visited and queued or listed
twice, and every known URL lies in the finite universe `U` with its recorded
depth within `maxDepth`. -/
def crawlInv (cfg : CrawlConfig) (U : List String) (st : CrawlSt) : Prop :=
  (st.visited ++ st.queue.map Prod.fst).Nodup ∧
  (∀ u ∈ st.visited, u ∈ U) ∧
  (∀ p ∈ st.queue, p.1 ∈ U ∧ p.2 ≤ cfg.maxDepth)

theorem crawlStep_facts (cfg : CrawlConfig) (ro : String) (nav : String → Option NavOut)
    (U : List String) (st : CrawlSt) (hconc : 1 ≤ cfg.concurrency)
    (hclosed : ∀ u ∈ U, ∀ out, nav u = some out → ∀ l ∈ out.links,
      ∀ res, resolveUrl u l = some res → normalizeUrl res ∈ U)
    (hinv : crawlInv cfg U st) (hq : st.queue ≠ []) :
    crawlInv cfg U (crawlStep cfg ro nav st) ∧
    st.visited.length ≤ (crawlStep cfg ro nav st).visited.length ∧
    (crawlStep cfg ro nav st).visited.length ≤ st.visited.length + cfg.concurrency ∧
    ((crawlStep cfg ro nav st).visited.length = st.visited.length →
      (crawlStep cfg ro nav st).queue.length < st.queue.length) := by
  obtain ⟨hnd, hvU, hqU⟩ := hinv
  obtain ⟨visNodup, qkeysNodup, hdisjVQ⟩ := List.nodup_append.1 hnd
  obtain ⟨rbq0, t, hv0, hlen, tnd, tmem, hres⟩ :=
    runBatch_facts cfg ro nav { st with queue := st.queue.drop cfg.concurrency }
      (st.queue.take cfg.concurrency)
  have rbq : (runBatch cfg ro nav { st with queue := st.queue.drop cfg.concurrency }
      (st.queue.take cfg.concurrency)).1.queue = st.queue.drop cfg.concurrency := rbq0
  have hv : (runBatch cfg ro nav { st with queue := st.queue.drop cfg.concurrency }
      (st.queue.take cfg.concurrency)).1.visited = st.visited ++ t := hv0
  obtain ⟨rfv, t2, rfq, t2nd, t2mem, t2none⟩ :=
    resultFold_aux cfg ro
      (match st.queue.take cfg.concurrency with | [] => 0 | b :: _ => b.2)
      (runBatch cfg ro nav { st with queue := st.queue.drop cfg.concurrency }
        (st.queue.take cfg.concurrency)).2
      (runBatch cfg ro nav { st with queue := st.queue.drop cfg.concurrency }
        (st.queue.take cfg.concurrency)).1
  have hfv : (crawlStep cfg ro nav st).visited = st.visited ++ t := by
    have h := rfv
    rw [hv] at h
    exact h
  have hfq : (crawlStep cfg ro nav st).queue = st.queue.drop cfg.concurrency ++ t2 := by
    have h := rfq
    rw [rbq] at h
    exact h
  -- membership helpers
  have hbatchU : ∀ x, x ∈ (st.queue.take cfg.concurrency).map Prod.fst → x ∈ U := by
    intro x hx
    rw [List.mem_map] at hx
    obtain ⟨p, hp, hp1⟩ := hx
    rw [← hp1]
    exact (hqU p (List.take_subset _ _ hp)).1
  have htU : ∀ x ∈ t, x ∈ U := fun x hx => hbatchU x (tmem x hx).1
  have ht2U : ∀ p ∈ t2, p.1 ∈ U ∧ p.2 ≤ cfg.maxDepth := by
    intro p hp
    obtain ⟨⟨url, links, hm, l, hl, res, hresolve, hp1⟩, h2, h3, _, _⟩ := t2mem p hp
    obtain ⟨hukeys, _, out, hnav, hlinks⟩ := hres _ hm url links rfl
    constructor
    · rw [hp1]
      refine hclosed url (hbatchU url hukeys) out hnav l ?_ res hresolve
      rw [← hlinks]
      exact hl
    · omega
  -- key-list bookkeeping
  have hqsplit : st.queue.map Prod.fst =
      (st.queue.take cfg.concurrency).map Prod.fst ++
        (st.queue.drop cfg.concurrency).map Prod.fst := by
    rw [← List.map_append, List.take_append_drop]
  have htdNodup : ((st.queue.take cfg.concurrency).map Prod.fst ++
      (st.queue.drop cfg.concurrency).map Prod.fst).Nodup := by
    rw [← hqsplit]
    exact qkeysNodup
  obtain ⟨takeNodup, dropNodup, hdisjTD⟩ := List.nodup_append.1 htdNodup
  have ht2fresh : ∀ x ∈ t2.map Prod.fst,
      x ∉ st.visited ++ t ∧ x ∉ (st.queue.drop cfg.concurrency).map Prod.fst := by
    intro x hx
    rw [List.mem_map] at hx
    obtain ⟨p, hp, hp1⟩ := hx
    obtain ⟨_, _, _, h4, h5⟩ := t2mem p hp
    subst hp1
    constructor
    · rw [← hv]
      exact h4
    · rw [← rbq]
      exact h5
  -- the new Nodup invariant
  have hN1 : (st.visited ++ t).Nodup := by
    refine List.Nodup.append visNodup tnd ?_
    intro x hx0 hx1
    exact (tmem x hx1).2 hx0
  have hN2 : ((st.queue.drop cfg.concurrency).map Prod.fst ++ t2.map Prod.fst).Nodup := by
    refine List.Nodup.append dropNodup t2nd ?_
    intro x hx0 hx1
    exact (ht2fresh x hx1).2 hx0
  have hdisjN : ∀ x ∈ st.visited ++ t,
      x ∉ (st.queue.drop cfg.concurrency).map Prod.fst ++ t2.map Prod.fst := by
    intro x hx
    rw [List.mem_append]
    rintro (hc | hc)
    · rw [List.mem_append] at hx
      rcases hx with hx | hx
      · exact hdisjVQ hx (by rw [hqsplit, List.mem_append]; exact Or.inr hc)
      · exact hdisjTD ((tmem x hx).1) hc
    · exact (ht2fresh x hc).1 hx
  refine ⟨⟨?_, ?_, ?_⟩, ?_, ?_, ?_⟩
  · rw [hfv, hfq, List.map_append]
    exact List.Nodup.append hN1 hN2 hdisjN
  · rw [hfv]
    intro u hu
    rw [List.mem_append] at hu
    rcases hu with hu | hu
    · exact hvU u hu
    · exact htU u hu
  · rw [hfq]
    intro p hp
    rw [List.mem_append] at hp
    rcases hp with hp | hp
    · exact hqU p (List.drop_subset _ _ hp)
    · exact ht2U p hp
  · rw [hfv, List.length_append]
    omega
  · rw [hfv, List.length_append]
    have : (st.queue.take cfg.concurrency).length ≤ cfg.concurrency := by
      rw [List.length_take]
      omega
    omega
  · rw [hfv, hfq]
    intro hlen2
    rw [List.length_append] at hlen2
    have ht0 : t = [] := by
      cases t with
      | nil => rfl
      | cons a b => simp at hlen2
    have hallnone : ∀ res ∈ (runBatch cfg ro nav
        { st with queue := st.queue.drop cfg.concurrency }
        (st.queue.take cfg.concurrency)).2, res = none := by
      intro res hresm
      cases res with
      | none => rfl
      | some p =>
          obtain ⟨u2, links⟩ := p
          have h2 := (hres _ hresm u2 links rfl).2.1
          rw [ht0] at h2
          exact absurd h2 (List.not_mem_nil u2)
    rw [t2none hallnone, List.append_nil, List.length_drop]
    have := List.length_pos.2 hq
    omega

/-- Termination measure of the crawl loop over a finite universe `U`. -/
def crawlMeasure (U : List String) (st : CrawlSt) : Nat :=
  (U.length + 1 - st.visited.length) * (U.length + 1) + st.queue.length

theorem crawlInv_lens {cfg : CrawlConfig} {U : List String} {st : CrawlSt}
    (h : crawlInv cfg U st) :
    st.visited.length ≤ U.length ∧ st.queue.length ≤ U.length := by
  obtain ⟨hnd, hvU, hqU⟩ := h
  obtain ⟨vN, qN, _⟩ := List.nodup_append.1 hnd
  constructor
  · exact (vN.subperm (fun u hu => hvU u hu)).length_le
  · have hsub : ∀ x ∈ st.queue.map Prod.fst, x ∈ U := by
      intro x hx
      rw [List.mem_map] at hx
      obtain ⟨p, hp, hp1⟩ := hx
      rw [← hp1]
      exact (hqU p hp).1
    have := (qN.subperm (fun x hx => hsub x hx)).length_le
    rw [List.length_map] at this
    exact this

theorem crawlGuard_true {cfg : CrawlConfig} {st : CrawlSt}
    (hg : crawlGuard cfg st = true) :
    st.queue ≠ [] ∧ st.visited.length < cfg.maxPages := by
  simp only [crawlGuard, Bool.and_eq_true] at hg
  obtain ⟨h1, h2⟩ := hg
  constructor
  · intro h
    rw [h] at h1
    exact absurd h1 (by decide)
  · exact of_decide_eq_true h2

theorem crawlLoop_term (cfg : CrawlConfig) (ro : String) (nav : String → Option NavOut)
    (U : List String) (hconc : 1 ≤ cfg.concurrency)
    (hclosed : ∀ u ∈ U, ∀ out, nav u = some out → ∀ l ∈ out.links,
      ∀ res, resolveUrl u l = some res → normalizeUrl res ∈ U) :
    ∀ (n : Nat) (st : CrawlSt), crawlInv cfg U st → crawlMeasure U st ≤ n →
      (crawlLoop cfg ro nav n st).2 = true ∧
        crawlInv cfg U (crawlLoop cfg ro nav n st).1 := by
  intro n
  induction n with
  | zero =>
      intro st hinv hm
      obtain ⟨hvl, hql⟩ := crawlInv_lens hinv
      unfold crawlMeasure at hm
      have h1 : 1 ≤ (U.length + 1 - st.visited.length) * (U.length + 1) :=
        Nat.mul_pos (by omega) (by omega)
      omega
  | succ n ih =>
      intro st hinv hm
      show ((if crawlGuard cfg st then
          crawlLoop cfg ro nav n (crawlStep cfg ro nav st)
        else (st, true)).2 = true ∧
        crawlInv cfg U (if crawlGuard cfg st then
          crawlLoop cfg ro nav n (crawlStep cfg ro nav st)
        else (st, true)).1)
      by_cases hg : crawlGuard cfg st = true
      · rw [if_pos hg]
        obtain ⟨hqne, _⟩ := crawlGuard_true hg
        obtain ⟨hinv2, hle1, hle2, heq⟩ :=
          crawlStep_facts cfg ro nav U st hconc hclosed hinv hqne
        apply ih _ hinv2
        -- measure decrease
        obtain ⟨hvl, hql⟩ := crawlInv_lens hinv
        obtain ⟨hvl2, hql2⟩ := crawlInv_lens hinv2
        unfold crawlMeasure at hm ⊢
        by_cases hsame : (crawlStep cfg ro nav st).visited.length = st.visited.length
        · have hq2 := heq hsame
          rw [hsame]
          omega
        · have hgrow : st.visited.length + 1 ≤ (crawlStep cfg ro nav st).visited.length := by
            omega
          have hA : U.length + 1 - (crawlStep cfg ro nav st).visited.length + 1 ≤
              U.length + 1 - st.visited.length := by
            omega
          have hmul : (U.length + 1 - (crawlStep cfg ro nav st).visited.length + 1) *
              (U.length + 1) ≤ (U.length + 1 - st.visited.length) * (U.length + 1) :=
            Nat.mul_le_mul_right _ hA
          have hexp : (U.length + 1 - (crawlStep cfg ro nav st).visited.length + 1) *
              (U.length + 1) =
              (U.length + 1 - (crawlStep cfg ro nav st).visited.length) *
                (U.length + 1) + (U.length + 1) := by
            ring
          rw [hexp] at hmul
          omega
      · rw [if_neg hg]
        exact ⟨rfl, hinv⟩

theorem crawlStep_visited_le (cfg : CrawlConfig) (ro : String)
    (nav : String → Option NavOut) (st : CrawlSt) :
    st.visited.length ≤ (crawlStep cfg ro nav st).visited.length ∧
      (crawlStep cfg ro nav st).visited.length ≤ st.visited.length + cfg.concurrency := by
  obtain ⟨rbq0, t, hv0, hlen, _, _, _⟩ :=
    runBatch_facts cfg ro nav { st with queue := st.queue.drop cfg.concurrency }
      (st.queue.take cfg.concurrency)
  have hv : (runBatch cfg ro nav { st with queue := st.queue.drop cfg.concurrency }
      (st.queue.take cfg.concurrency)).1.visited = st.visited ++ t := hv0
  obtain ⟨rfv, _, _, _, _, _⟩ :=
    resultFold_aux cfg ro
      (match st.queue.take cfg.concurrency with | [] => 0 | b :: _ => b.2)
      (runBatch cfg ro nav { st with queue := st.queue.drop cfg.concurrency }
        (st.queue.take cfg.concurrency)).2
      (runBatch cfg ro nav { st with queue := st.queue.drop cfg.concurrency }
        (st.queue.take cfg.concurrency)).1
  have hfv : (crawlStep cfg ro nav st).visited = st.visited ++ t := by
    have h := rfv
    rw [hv] at h
    exact h
  have htake : (st.queue.take cfg.concurrency).length ≤ cfg.concurrency := by
    rw [List.length_take]
    omega
  rw [hfv, List.length_append]
  omega

theorem crawlLoop_visited_bound (cfg : CrawlConfig) (ro : String)
    (nav : String → Option NavOut) :
    ∀ (n : Nat) (st : CrawlSt),
      (crawlLoop cfg ro nav n st).1.visited.length ≤
        max st.visited.length (cfg.maxPages - 1 + cfg.concurrency) := by
  intro n
  induction n with
  | zero =>
      intro st
      exact Nat.le_max_left _ _
  | succ n ih =>
      intro st
      show (if crawlGuard cfg st then
          crawlLoop cfg ro nav n (crawlStep cfg ro nav st)
        else (st, true)).1.visited.length ≤ _
      by_cases hg : crawlGuard cfg st = true
      · rw [if_pos hg]
        obtain ⟨_, hvlt⟩ := crawlGuard_true hg
        obtain ⟨_, hle2⟩ := crawlStep_visited_le cfg ro nav st
        have h1 := ih (crawlStep cfg ro nav st)
        have h2 : (crawlStep cfg ro nav st).visited.length ≤
            cfg.maxPages - 1 + cfg.concurrency := by omega
        omega
      · rw [if_neg hg]
        exact Nat.le_max_left _ _

/-- C8 counterexample: with `maxPages = 2` the guard is checked only between
batches, so a concurrency-3 batch pushes the visited set to 4 URLs; and with
`maxDepth = 2` links are cut off by the depth of the *first* batch item only
(`batch[0]?.depth ?? 0`), so `https://s.x/e` — three hops from the root — is
still visited. -/
theorem crawl_bounds_cx :
    (exCfg1.maxPages = 2 ∧
      (crawl exCfg1 "https://s.x/" exNav1 10).2 = true ∧
      (crawl exCfg1 "https://s.x/" exNav1 10).1.visited.length = 4) ∧
    (exCfg2.maxDepth = 2 ∧
      (crawl exCfg2 "https://s.x/" exNav2 20).2 = true ∧
      (crawl exCfg2 "https://s.x/" exNav2 20).1.visited.contains "https://s.x/e" = true) := by
  decide

/-- C8 amended: over any finite URL universe closed under link resolution the
crawl halts — fuel `(|U|+1)^2 + 1` already drives the loop guard to false —
no URL is ever visited twice, every queued entry's recorded depth stays at
most `maxDepth`, and the visited count is at most
`maxPages - 1 + concurrency`: the guard runs only between batches, so the
final batch can overshoot `maxPages` by up to `concurrency - 1`. -/
theorem crawl_terminates_bounded (cfg : CrawlConfig) (rootUrl : String)
    (nav : String → Option NavOut) (U : List String)
    (hconc : 1 ≤ cfg.concurrency)
    (hroot : normalizeUrl rootUrl ∈ U)
    (hclosed : ∀ u ∈ U, ∀ out, nav u = some out → ∀ l ∈ out.links,
      ∀ res, resolveUrl u l = some res → normalizeUrl res ∈ U) :
    ∀ n, (U.length + 1) * (U.length + 1) + 1 ≤ n →
      (crawl cfg rootUrl nav n).2 = true ∧
      (crawl cfg rootUrl nav n).1.visited.Nodup ∧
      (crawl cfg rootUrl nav n).1.visited.length ≤
        cfg.maxPages - 1 + cfg.concurrency ∧
      ∀ p ∈ (crawl cfg rootUrl nav n).1.queue, p.2 ≤ cfg.maxDepth := by
  intro n hn
  have hcr : crawl cfg rootUrl nav n =
      crawlLoop cfg (crawlRootOrigin rootUrl) nav n (initialCrawlSt rootUrl) := rfl
  rw [hcr]
  have hinv0 : crawlInv cfg U (initialCrawlSt rootUrl) := by
    refine ⟨?_, ?_, ?_⟩
    · simp [initialCrawlSt]
    · intro u hu
      simp [initialCrawlSt] at hu
    · intro p hp
      simp only [initialCrawlSt, List.mem_singleton] at hp
      subst hp
      exact ⟨hroot, Nat.zero_le _⟩
  have hm0 : crawlMeasure U (initialCrawlSt rootUrl) ≤ n := by
    unfold crawlMeasure initialCrawlSt
    simp only [List.length_nil, List.length_cons, Nat.sub_zero]
    omega
  obtain ⟨hterm, hinvf⟩ :=
    crawlLoop_term cfg (crawlRootOrigin rootUrl) nav U hconc hclosed n
      (initialCrawlSt rootUrl) hinv0 hm0
  have hbound := crawlLoop_visited_bound cfg (crawlRootOrigin rootUrl) nav n
    (initialCrawlSt rootUrl)
  refine ⟨hterm, ?_, ?_, ?_⟩
  · obtain ⟨hnd, _, _⟩ := hinvf
    exact (List.nodup_append.1 hnd).1
  · have h0 : (initialCrawlSt rootUrl).visited.length = 0 := rfl
    rw [h0] at hbound
    omega
  · obtain ⟨_, _, hq⟩ := hinvf
    intro p hp
    exact (hq p hp).2

theorem crawl_terminates_bounded_witness :
    (1 ≤ exCfg1.concurrency ∧ normalizeUrl "https://s.x/" ∈ ["https://s.x/"] ∧
      (1 + 1) * (1 + 1) + 1 ≤ 5) ∧
    (crawl exCfg1 "https://s.x/"
        (fun u => some { finalUrl := u, links := [] }) 5).2 = true ∧
    (crawl exCfg1 "https://s.x/"
        (fun u => some { finalUrl := u, links := [] }) 5).1.visited.Nodup ∧
    (crawl exCfg1 "https://s.x/"
        (fun u => some { finalUrl := u, links := [] }) 5).1.visited.length ≤
      exCfg1.maxPages - 1 + exCfg1.concurrency ∧
    ∀ p ∈ (crawl exCfg1 "https://s.x/"
        (fun u => some { finalUrl := u, links := [] }) 5).1.queue,
      p.2 ≤ exCfg1.maxDepth :=
  ⟨⟨by decide, by decide, by decide⟩,
    crawl_terminates_bounded exCfg1 "https://s.x/"
      (fun u => some { finalUrl := u, links := [] }) ["https://s.x/"]
      (by decide) (by decide)
      (by
        intro u hu out hout l hl res hres
        injection hout with h
        subst h
        exact absurd hl (List.not_mem_nil l))
      5 (by decide)⟩

/-! ## C5: fingerprint stability over well-formed HTML renders

A token model of HTML subtrees: a subtree is a list of open tags (with
attributes), close tags and text runs; `renderToks` prints it.  The theorems
below show that `normalizeHtmlStructure` acts on such renders exactly as the
token-level erasure `eraseToks` (drop text, drop the volatile attributes,
sort class tokens), which settles both invariance and discrimination. -/

inductive HtmlTok where
  | openT : List Char → List (List Char × List Char) → HtmlTok
  | closeT : List Char → HtmlTok
  | textT : List Char → HtmlTok
deriving DecidableEq, Repr

def renderAttrs (attrs : List (List Char × List Char)) : List Char :=
  (attrs.map (fun a => ' ' :: a.1 ++ '=' :: '"' :: a.2 ++ ['"'])).join

def renderTok : HtmlTok → List Char
  | .openT nm attrs => '<' :: (nm ++ renderAttrs attrs) ++ ['>']
  | .closeT nm => '<' :: '/' :: nm ++ ['>']
  | .textT t => t

def renderToks (ts : List HtmlTok) : List Char := (ts.map renderTok).join

def nameChar (c : Char) : Bool := c.isLower ∨ c = '-'

def valChar (c : Char) : Bool := ¬(c = '"' ∨ c = '<' ∨ c = '>' ∨ c = '=')

def dataName : List Char := ['d', 'a', 't', 'a', '-']

def className : List Char := ['c', 'l', 'a', 's', 's']

def nameOk (nm : List Char) : Bool := nm ≠ [] && nm.all nameChar

/-- A well-formed attribute value: no quote, bracket or equals sign, and no
whitespace-separated token that begins with `data-` (such a token would let
the wildcard volatile-attribute regex match into the value). -/
def valueOk (v : List Char) : Bool :=
  v.all valChar &&
  v.tails.all (fun s =>
    match s with
    | c :: rest => !c.isWhitespace || (dropNameCI dataName rest).isNone
    | [] => true)

def attrOk (a : List Char × List Char) : Bool :=
  nameOk a.1 && (a.1 = className || !containsSub className a.1) && valueOk a.2

def tokOk : HtmlTok → Bool
  | .openT nm attrs => nameOk nm && attrs.all attrOk
  | .closeT nm => nameOk nm
  | .textT t => t ≠ [] && t.all (· ≠ '<')

def isTextTok : HtmlTok → Bool
  | .textT _ => true
  | _ => false

def noAdjTexts : List HtmlTok → Bool
  | [] => true
  | [_] => true
  | a :: b :: t => !(isTextTok a && isTextTok b) && noAdjTexts (b :: t)

/-- Well-formed HTML subtree token list: every token well formed, no two
adjacent text runs, and the list begins and ends with a tag. -/
def wfToks (ts : List HtmlTok) : Bool :=
  ts.all tokOk && noAdjTexts ts &&
  (match ts with | [] => false | a :: _ => !isTextTok a) &&
  (match ts.getLast? with | some a => !isTextTok a | none => false)

def isVolatileName (nm : List Char) : Bool :=
  volatileSimpleNames.contains nm || (dropNameCI dataName nm).isSome

def eraseAttr (a : List Char × List Char) : List Char × List Char :=
  if a.1 = className then (a.1, sortClassTokens a.2) else a

def eraseTok : HtmlTok → HtmlTok
  | .openT nm attrs =>
      .openT nm ((attrs.filter (fun a => !isVolatileName a.1)).map eraseAttr)
  | t => t

/-- Token-level counterpart of `normalizeHtmlStructure`: drop text runs,
drop volatile attributes, sort class token lists. -/
def eraseToks (ts : List HtmlTok) : List HtmlTok :=
  (ts.filter (fun t => !isTextTok t)).map eraseTok

/-- The tag skeleton: the sequence of open/close tag names, text ignored. -/
def tagStructure : List HtmlTok → List (Bool × List Char)
  | [] => []
  | .openT nm _ :: rest => (false, nm) :: tagStructure rest
  | .closeT nm :: rest => (true, nm) :: tagStructure rest
  | .textT _ :: rest => tagStructure rest

/-! ### Character-class facts for the token model -/

theorem nameChar_facts {c : Char} (h : nameChar c = true) :
    c.toLower = c ∧ c.isWhitespace = false ∧ c.isUpper = false ∧
    c ≠ '=' ∧ c ≠ '"' ∧ c ≠ '<' ∧ c ≠ '>' ∧ c ≠ '/' ∧ c ≠ ' ' := by
  simp only [nameChar, decide_eq_true_eq] at h
  rcases h with h | rfl
  · have hl := (isLower_iff c).1 h
    have hu : c.isUpper = false := by
      rw [Bool.eq_false_iff]; intro hup; have := (isUpper_iff c).1 hup; omega
    refine ⟨toLower_eq_self c hu, ?_, hu, ?_, ?_, ?_, ?_, ?_, ?_⟩
    · rw [Bool.eq_false_iff]
      intro hw
      have hw' : ((c = ' ' ∨ c = '\t') ∨ c = '\r') ∨ c = '\n' := by
        simpa [Char.isWhitespace] using hw
      rcases hw' with ((rfl | rfl) | rfl) | rfl <;> exact absurd h (by decide)
    all_goals intro hq; subst hq; exact absurd h (by decide)
  · exact ⟨by decide, by decide, by decide, by decide, by decide,
      by decide, by decide, by decide, by decide⟩

theorem valChar_facts {c : Char} (h : valChar c = true) :
    c ≠ '"' ∧ c ≠ '<' ∧ c ≠ '>' ∧ c ≠ '=' := by
  simp only [valChar, decide_eq_true_eq] at h
  push_neg at h
  exact h

/-! ### Rendering basics -/

theorem renderToks_cons (t : HtmlTok) (ts : List HtmlTok) :
    renderToks (t :: ts) = renderTok t ++ renderToks ts := by
  simp [renderToks]

theorem joinWithChar_mem (sep : Char) :
    ∀ (ws : List (List Char)) {c : Char}, c ∈ joinWithChar sep ws →
      c = sep ∨ ∃ w ∈ ws, c ∈ w := by
  intro ws
  induction ws with
  | nil => intro c hc; exact absurd hc (List.not_mem_nil c)
  | cons w ws ih =>
      intro c hc
      cases ws with
      | nil =>
          right
          exact ⟨w, List.mem_cons_self _ _, hc⟩
      | cons w2 ws2 =>
          have hc2 : c ∈ w ++ sep :: joinWithChar sep (w2 :: ws2) := hc
          rw [List.mem_append, List.mem_cons] at hc2
          rcases hc2 with hc2 | rfl | hc2
          · exact Or.inr ⟨w, List.mem_cons_self _ _, hc2⟩
          · exact Or.inl rfl
          · rcases ih hc2 with h | ⟨w3, hw3, hcw3⟩
            · exact Or.inl h
            · exact Or.inr ⟨w3, List.mem_cons_of_mem _ hw3, hcw3⟩

theorem splitOnP_mem_sub {p : Char → Bool} :
    ∀ (l : List Char), ∀ w ∈ l.splitOnP p, ∀ c ∈ w, c ∈ l ∧ p c = false := by
  intro l
  induction l with
  | nil =>
      intro w hw c hc
      have : w = [] := by simpa [List.splitOnP_nil] using hw
      subst this
      exact absurd hc (List.not_mem_nil c)
  | cons a xs ih =>
      intro w hw c hc
      rw [List.splitOnP_cons] at hw
      by_cases ha : p a = true
      · rw [if_pos ha, List.mem_cons] at hw
        rcases hw with rfl | hw
        · exact absurd hc (List.not_mem_nil c)
        · have := ih w hw c hc
          exact ⟨List.mem_cons_of_mem _ this.1, this.2⟩
      · rw [if_neg ha] at hw
        cases hsp : xs.splitOnP p with
        | nil => rw [hsp] at hw; exact absurd hw (List.not_mem_nil w)
        | cons h t =>
            rw [hsp, List.modifyHead_cons, List.mem_cons] at hw
            rcases hw with rfl | hw
            · rw [List.mem_cons] at hc
              rcases hc with rfl | hc
              · exact ⟨List.mem_cons_self _ _, Bool.eq_false_iff.2 ha⟩
              · have hh : h ∈ xs.splitOnP p := by rw [hsp]; exact List.mem_cons_self _ _
                have := ih h hh c hc
                exact ⟨List.mem_cons_of_mem _ this.1, this.2⟩
            · have ht : w ∈ xs.splitOnP p := by rw [hsp]; exact List.mem_cons_of_mem _ hw
              have := ih w ht c hc
              exact ⟨List.mem_cons_of_mem _ this.1, this.2⟩

/-- Every character of a sorted class-token list is a space or a character of
the original value. -/
theorem sortClassTokens_chars {v : List Char} {c : Char}
    (h : c ∈ sortClassTokens v) : c = ' ' ∨ c ∈ v := by
  unfold sortClassTokens at h
  rcases joinWithChar_mem ' ' _ h with rfl | ⟨w, hw, hcw⟩
  · exact Or.inl rfl
  · have hw2 : w ∈ (v.splitOnP (·.isWhitespace)).filter (· ≠ []) :=
      (sortByLe_perm charsLe _).mem_iff.1 hw
    have hw3 : w ∈ v.splitOnP (·.isWhitespace) := List.mem_of_mem_filter hw2
    exact Or.inr (splitOnP_mem_sub v w hw3 c hcw).1

/-! ### Case equations for the five scanners -/

theorem stripTextAux_nil (n : Nat) : stripTextAux n [] = [] := by cases n <;> rfl

theorem stripTextAux_gt_tag {rest tail : List Char}
    (hd : rest.dropWhile (· ≠ '<') = '<' :: tail)
    (ht : rest.takeWhile (· ≠ '<') = []) (n : Nat) :
    stripTextAux (n + 1) ('>' :: rest) = '>' :: stripTextAux n rest := by
  conv_lhs => rw [stripTextAux]
  rw [hd]
  show (if rest.takeWhile (· ≠ '<') = [] then '>' :: stripTextAux n rest
    else '>' :: '<' :: stripTextAux n tail) = '>' :: stripTextAux n rest
  rw [if_pos ht]

theorem stripTextAux_gt_text {rest tail : List Char}
    (hd : rest.dropWhile (· ≠ '<') = '<' :: tail)
    (ht : rest.takeWhile (· ≠ '<') ≠ []) (n : Nat) :
    stripTextAux (n + 1) ('>' :: rest) = '>' :: '<' :: stripTextAux n tail := by
  conv_lhs => rw [stripTextAux]
  rw [hd]
  show (if rest.takeWhile (· ≠ '<') = [] then '>' :: stripTextAux n rest
    else '>' :: '<' :: stripTextAux n tail) = '>' :: '<' :: stripTextAux n tail
  rw [if_neg ht]

theorem stripTextAux_gt_end {rest : List Char}
    (hd : rest.dropWhile (· ≠ '<') = []) (n : Nat) :
    stripTextAux (n + 1) ('>' :: rest) = '>' :: rest := by
  conv_lhs => rw [stripTextAux]
  rw [hd]

theorem stripTextAux_ne {c : Char} (hc : c ≠ '>') (rest : List Char) (n : Nat) :
    stripTextAux (n + 1) (c :: rest) = c :: stripTextAux n rest := by
  rw [stripTextAux]
  exact fun h => hc h

theorem removeAttrAux_nil (nm : List Char) (n : Nat) : removeAttrAux nm n [] = [] := by
  cases n <;> rfl

theorem removeAttrAux_ws_some {nm rest rem : List Char} {c : Char}
    (hws : c.isWhitespace = true) (hm : matchAttr nm rest = some rem) (n : Nat) :
    removeAttrAux nm (n + 1) (c :: rest) = removeAttrAux nm n rem := by
  rw [removeAttrAux, if_pos hws, hm]

theorem removeAttrAux_ws_none {nm rest : List Char} {c : Char}
    (hws : c.isWhitespace = true) (hm : matchAttr nm rest = none) (n : Nat) :
    removeAttrAux nm (n + 1) (c :: rest) = c :: removeAttrAux nm n rest := by
  rw [removeAttrAux, if_pos hws, hm]

theorem removeAttrAux_nws {nm rest : List Char} {c : Char}
    (hws : c.isWhitespace = false) (n : Nat) :
    removeAttrAux nm (n + 1) (c :: rest) = c :: removeAttrAux nm n rest := by
  rw [removeAttrAux, if_neg (by simp [hws])]

theorem removeDataAttrAux_nil (n : Nat) : removeDataAttrAux n [] = [] := by
  cases n <;> rfl

theorem removeDataAttrAux_ws_some {rest rem : List Char} {c : Char}
    (hws : c.isWhitespace = true) (hm : matchDataAttr rest = some rem) (n : Nat) :
    removeDataAttrAux (n + 1) (c :: rest) = removeDataAttrAux n rem := by
  rw [removeDataAttrAux, if_pos hws, hm]

theorem removeDataAttrAux_ws_none {rest : List Char} {c : Char}
    (hws : c.isWhitespace = true) (hm : matchDataAttr rest = none) (n : Nat) :
    removeDataAttrAux (n + 1) (c :: rest) = c :: removeDataAttrAux n rest := by
  rw [removeDataAttrAux, if_pos hws, hm]

theorem removeDataAttrAux_nws {rest : List Char} {c : Char}
    (hws : c.isWhitespace = false) (n : Nat) :
    removeDataAttrAux (n + 1) (c :: rest) = c :: removeDataAttrAux n rest := by
  rw [removeDataAttrAux, if_neg (by simp [hws])]

theorem sortClassesAux_nil (n : Nat) : sortClassesAux n [] = [] := by cases n <;> rfl

theorem sortClassesAux_some {rest v rem : List Char} {c : Char}
    (hm : matchClassAttr (c :: rest) = some (v, rem)) (n : Nat) :
    sortClassesAux (n + 1) (c :: rest) =
      ('c' :: 'l' :: 'a' :: 's' :: 's' :: '=' :: '"' :: sortClassTokens v) ++
        '"' :: sortClassesAux n rem := by
  rw [sortClassesAux, hm]

theorem sortClassesAux_none {rest : List Char} {c : Char}
    (hm : matchClassAttr (c :: rest) = none) (n : Nat) :
    sortClassesAux (n + 1) (c :: rest) = c :: sortClassesAux n rest := by
  rw [sortClassesAux, hm]

theorem collapseWsAux_nil (n : Nat) : collapseWsAux n [] = [] := by cases n <;> rfl

theorem collapseWsAux_gt_tag {rest tail : List Char}
    (hd : rest.dropWhile Char.isWhitespace = '<' :: tail)
    (ht : rest.takeWhile Char.isWhitespace = []) (n : Nat) :
    collapseWsAux (n + 1) ('>' :: rest) = '>' :: collapseWsAux n rest := by
  conv_lhs => rw [collapseWsAux]
  rw [hd]
  show (if rest.takeWhile Char.isWhitespace = [] then '>' :: collapseWsAux n rest
    else '>' :: '<' :: collapseWsAux n tail) = '>' :: collapseWsAux n rest
  rw [if_pos ht]

theorem collapseWsAux_gt_other {rest : List Char}
    (hd : rest.dropWhile Char.isWhitespace = []) (n : Nat) :
    collapseWsAux (n + 1) ('>' :: rest) = '>' :: collapseWsAux n rest := by
  conv_lhs => rw [collapseWsAux]
  rw [hd]

theorem collapseWsAux_ne {c : Char} (hc : c ≠ '>') (rest : List Char) (n : Nat) :
    collapseWsAux (n + 1) (c :: rest) = c :: collapseWsAux n rest := by
  rw [collapseWsAux]
  exact fun h => hc h

theorem lowerTagsAux_nil (n : Nat) : lowerTagsAux n [] = [] := by cases n <;> rfl

theorem lowerTagsAux_lt_close {c : Char} {cs : List Char}
    (hu : c.isUpper = false) (n : Nat) :
    lowerTagsAux (n + 1) ('<' :: '/' :: c :: cs) =
      '<' :: lowerTagsAux n ('/' :: c :: cs) := by
  conv_lhs => rw [lowerTagsAux]
  show (if c.isUpper = true then
      '<' :: '/' :: (c :: cs.takeWhile isUpperDigit).map Char.toLower ++
        lowerTagsAux n (cs.dropWhile isUpperDigit)
    else '<' :: lowerTagsAux n ('/' :: c :: cs)) = '<' :: lowerTagsAux n ('/' :: c :: cs)
  rw [if_neg (by simp [hu])]

theorem lowerTagsAux_lt_open {d : Char} {cs : List Char}
    (hd : d ≠ '/') (hu : d.isUpper = false) (n : Nat) :
    lowerTagsAux (n + 1) ('<' :: d :: cs) = '<' :: lowerTagsAux n (d :: cs) := by
  rw [lowerTagsAux]
  · rw [if_neg (by simp [hu])]
  · intro c1 cs1 h1 _
    exact hd h1

theorem lowerTagsAux_ne {c : Char} (hc : c ≠ '<') (rest : List Char) (n : Nat) :
    lowerTagsAux (n + 1) (c :: rest) = c :: lowerTagsAux n rest := by
  rw [lowerTagsAux]
  exact fun h => hc h

/-! ### Matcher lemmas -/

theorem dropNameCI_self_lower :
    ∀ {nm : List Char}, nm.all (fun c => c.toLower = c) = true →
      ∀ R, dropNameCI nm (nm ++ R) = some R := by
  intro nm
  induction nm with
  | nil => intro _ R; rfl
  | cons c nm' ih =>
      intro h R
      rw [List.all_cons, Bool.and_eq_true, decide_eq_true_eq] at h
      rw [List.cons_append, dropNameCI, if_pos rfl]
      exact ih h.2 R

theorem dropNameCI_extend {nm : List Char} :
    ∀ {s s2 : List Char}, dropNameCI nm s = some s2 →
      ∀ X, dropNameCI nm (s ++ X) = some (s2 ++ X) := by
  induction nm with
  | nil =>
      intro s s2 h X
      rw [dropNameCI] at h
      injection h with h1
      subst h1
      rfl
  | cons c nm' ih =>
      intro s s2 h X
      cases s with
      | nil => exact absurd h (by rw [dropNameCI]; simp)
      | cons d s' =>
          rw [dropNameCI] at h
          by_cases hc : d.toLower = c.toLower
          · rw [if_pos hc] at h
            rw [List.cons_append, dropNameCI, if_pos hc]
            exact ih h X
          · rw [if_neg hc] at h
            exact absurd h (by simp)

theorem dropNameCI_sub {nm : List Char} :
    ∀ {s s2 : List Char}, dropNameCI nm s = some s2 → ∀ c ∈ s2, c ∈ s := by
  induction nm with
  | nil =>
      intro s s2 h c hc
      rw [dropNameCI] at h
      injection h with h1
      subst h1
      exact hc
  | cons e nm' ih =>
      intro s s2 h c hc
      cases s with
      | nil => exact absurd h (by rw [dropNameCI]; simp)
      | cons d s' =>
          rw [dropNameCI] at h
          by_cases hd : d.toLower = e.toLower
          · rw [if_pos hd] at h
            exact List.mem_cons_of_mem _ (ih h c hc)
          · rw [if_neg hd] at h
            exact absurd h (by simp)

theorem dropNameCI_confined {nm : List Char} {q : Char}
    (hq : ∀ c ∈ nm, q.toLower ≠ c.toLower) :
    ∀ {s X l2 : List Char}, dropNameCI nm (s ++ q :: X) = some l2 →
      ∃ s2, dropNameCI nm s = some s2 ∧ l2 = s2 ++ q :: X := by
  induction nm with
  | nil =>
      intro s X l2 h
      rw [dropNameCI] at h
      injection h with h1
      exact ⟨s, rfl, h1.symm⟩
  | cons c nm' ih =>
      intro s X l2 h
      cases s with
      | nil =>
          rw [List.nil_append, dropNameCI] at h
          rw [if_neg (fun he => hq c (List.mem_cons_self _ _) he)] at h
          exact absurd h (by simp)
      | cons d s' =>
          rw [List.cons_append, dropNameCI] at h
          by_cases hd : d.toLower = c.toLower
          · rw [if_pos hd] at h
            obtain ⟨s2, h1, h2⟩ := ih (fun e he => hq e (List.mem_cons_of_mem _ he)) h
            refine ⟨s2, ?_, h2⟩
            rw [dropNameCI, if_pos hd]
            exact h1
          · rw [if_neg hd] at h
            exact absurd h (by simp)

theorem matchAttr_cons_ci {c d : Char} {nm' rest : List Char} (h : d.toLower = c.toLower) :
    matchAttr (c :: nm') (d :: rest) = matchAttr nm' rest := by
  unfold matchAttr
  rw [dropNameCI, if_pos h]

theorem matchAttr_cons_ne {c d : Char} {nm' rest : List Char} (h : ¬ d.toLower = c.toLower) :
    matchAttr (c :: nm') (d :: rest) = none := by
  unfold matchAttr
  rw [dropNameCI, if_neg h]

theorem matchAttr_self {nm : List Char} (hnm : nm.all (fun c => c.toLower = c) = true)
    {v : List Char} (hv : v.all (· ≠ '"') = true) (R : List Char) :
    matchAttr nm (nm ++ '=' :: '"' :: (v ++ '"' :: R)) = some R := by
  unfold matchAttr
  rw [dropNameCI_self_lower hnm]
  simp only []
  rw [dropWhile_append_all _ hv, List.dropWhile_cons_of_neg (by decide)]
  rfl

theorem matchAttr_mismatch :
    ∀ {nm a : List Char}, nm.all nameChar = true → a.all nameChar = true → a ≠ nm →
      ∀ X, matchAttr nm (a ++ '=' :: '"' :: X) = none := by
  intro nm
  induction nm with
  | nil =>
      intro a _ ha hne X
      cases a with
      | nil => exact absurd rfl hne
      | cons e a' =>
          rw [List.all_cons, Bool.and_eq_true] at ha
          have hef := nameChar_facts ha.1
          unfold matchAttr
          rw [dropNameCI]
          simp only []
          rw [List.cons_append]
          split
          · rename_i l2 heq
            injection heq with h1 _
            exact absurd h1 hef.2.2.2.1
          · rfl
  | cons c nm' ih =>
      intro a hnm ha hne X
      rw [List.all_cons, Bool.and_eq_true] at hnm
      have hcf := nameChar_facts hnm.1
      cases a with
      | nil =>
          rw [List.nil_append]
          refine matchAttr_cons_ne ?_
          intro h
          rw [hcf.1] at h
          have h2 : ('=' : Char).toLower = '=' := by decide
          rw [h2] at h
          exact hcf.2.2.2.1 h.symm
      | cons d a' =>
          rw [List.all_cons, Bool.and_eq_true] at ha
          have hdf := nameChar_facts ha.1
          rw [List.cons_append]
          by_cases hdc : d = c
          · subst hdc
            rw [matchAttr_cons_ci rfl]
            exact ih hnm.2 ha.2 (fun h => hne (by rw [h])) X
          · refine matchAttr_cons_ne ?_
            rw [hdf.1, hcf.1]
            exact hdc

theorem matchAttr_ws_val :
    ∀ {nm s : List Char}, nm.all nameChar = true → s.all valChar = true →
      ∀ R, matchAttr nm (s ++ '"' :: R) = none := by
  intro nm
  induction nm with
  | nil =>
      intro s _ hs R
      unfold matchAttr
      rw [dropNameCI]
      simp only []
      cases s with
      | nil =>
          rw [List.nil_append]
          split
          · rename_i l2 heq
            injection heq with h1 _
            exact absurd h1 (by decide)
          · rfl
      | cons e s' =>
          rw [List.all_cons, Bool.and_eq_true] at hs
          have hef := valChar_facts hs.1
          rw [List.cons_append]
          split
          · rename_i l2 heq
            injection heq with h1 _
            exact absurd h1 hef.2.2.2
          · rfl
  | cons c nm' ih =>
      intro s hnm hs R
      rw [List.all_cons, Bool.and_eq_true] at hnm
      have hcf := nameChar_facts hnm.1
      cases s with
      | nil =>
          rw [List.nil_append]
          refine matchAttr_cons_ne ?_
          intro h
          rw [hcf.1] at h
          have h2 : ('"' : Char).toLower = '"' := by decide
          rw [h2] at h
          exact hcf.2.2.2.2.1 h.symm
      | cons d s' =>
          rw [List.all_cons, Bool.and_eq_true] at hs
          rw [List.cons_append]
          by_cases hd : d.toLower = c.toLower
          · rw [matchAttr_cons_ci hd]
            exact ih hnm.2 hs.2 R
          · exact matchAttr_cons_ne hd

theorem matchDataAttr_attr_pos {a1 a2 : List Char} (hsome : dropNameCI dataName a1 = some a2)
    (ha : a1.all nameChar = true) {v : List Char} (hv : v.all (· ≠ '"') = true)
    (R : List Char) :
    matchDataAttr (a1 ++ '=' :: '"' :: (v ++ '"' :: R)) = some R := by
  have hext := dropNameCI_extend hsome ('=' :: '"' :: (v ++ '"' :: R))
  have ha2 : a2.all (· ≠ '=') = true := by
    rw [List.all_eq_true]
    intro c hc
    have hcm := dropNameCI_sub hsome c hc
    have hcf := nameChar_facts (List.all_eq_true.1 ha c hcm)
    simp only [decide_eq_true_eq]
    exact hcf.2.2.2.1
  have hext2 : dropNameCI ['d', 'a', 't', 'a', '-'] (a1 ++ '=' :: '"' :: (v ++ '"' :: R)) =
      some (a2 ++ '=' :: '"' :: (v ++ '"' :: R)) := hext
  unfold matchDataAttr
  rw [hext2]
  simp only []
  rw [dropWhile_append_all _ ha2, List.dropWhile_cons_of_neg (by decide)]
  simp only []
  rw [dropWhile_append_all _ hv, List.dropWhile_cons_of_neg (by decide)]
  rfl

theorem matchDataAttr_attr_neg {a1 : List Char} (hn : dropNameCI dataName a1 = none)
    (X : List Char) : matchDataAttr (a1 ++ '=' :: X) = none := by
  cases hdn : dropNameCI dataName (a1 ++ '=' :: X) with
  | none =>
      have hdn2 : dropNameCI ['d', 'a', 't', 'a', '-'] (a1 ++ '=' :: X) = none := hdn
      unfold matchDataAttr
      rw [hdn2]
  | some l2 =>
      obtain ⟨s2, h1, _⟩ := dropNameCI_confined (by decide) hdn
      rw [hn] at h1
      cases h1

theorem matchDataAttr_ws_val {s : List Char} (hnd : (dropNameCI dataName s).isNone = true)
    (R : List Char) : matchDataAttr (s ++ '"' :: R) = none := by
  cases hdn : dropNameCI dataName (s ++ '"' :: R) with
  | none =>
      have hdn2 : dropNameCI ['d', 'a', 't', 'a', '-'] (s ++ '"' :: R) = none := hdn
      unfold matchDataAttr
      rw [hdn2]
  | some l2 =>
      obtain ⟨s2, h1, _⟩ := dropNameCI_confined (by decide) hdn
      rw [h1] at hnd
      exact absurd hnd (by simp)

theorem matchClassAttr_eq_some :
    ∀ {l : List Char} {p : List Char × List Char}, matchClassAttr l = some p →
      ∃ l2, l = 'c' :: 'l' :: 'a' :: 's' :: 's' :: '=' :: '"' :: l2 := by
  intro l p h
  unfold matchClassAttr at h
  split at h
  · rename_i l2
    exact ⟨l2, rfl⟩
  · exact absurd h (by simp)

theorem matchClassAttr_pos {v : List Char} (hv : v.all (· ≠ '"') = true) (R : List Char) :
    matchClassAttr ('c' :: 'l' :: 'a' :: 's' :: 's' :: '=' :: '"' :: (v ++ '"' :: R)) =
      some (v, R) := by
  unfold matchClassAttr
  simp only []
  rw [dropWhile_append_all _ hv, List.dropWhile_cons_of_neg (by decide)]
  simp only []
  rw [takeWhile_append_all _ hv, List.takeWhile_cons_of_neg (by decide), List.append_nil]

theorem matchClassAttr_ne_c {b : Char} (hb : b ≠ 'c') (X : List Char) :
    matchClassAttr (b :: X) = none := by
  unfold matchClassAttr
  split
  · rename_i heq
    injection heq with h1 _
    exact absurd h1 hb
  · rfl

theorem matchClassAttr_val_fail {s : List Char} (hs : s.all valChar = true) (R : List Char) :
    matchClassAttr (s ++ '"' :: R) = none := by
  cases hm : matchClassAttr (s ++ '"' :: R) with
  | none => rfl
  | some p =>
      exfalso
      obtain ⟨l2, heq⟩ := matchClassAttr_eq_some hm
      rcases s with _ | ⟨x1, _ | ⟨x2, _ | ⟨x3, _ | ⟨x4, _ | ⟨x5, _ | ⟨x6, s7⟩⟩⟩⟩⟩⟩ <;>
        simp only [List.cons_append, List.nil_append, List.cons.injEq] at heq
      · exact absurd heq.1 (by decide)
      · exact absurd heq.2.1 (by decide)
      · exact absurd heq.2.2.1 (by decide)
      · exact absurd heq.2.2.2.1 (by decide)
      · exact absurd heq.2.2.2.2.1 (by decide)
      · exact absurd heq.2.2.2.2.2.1 (by decide)
      · obtain ⟨-, -, -, -, -, h6, -⟩ := heq
        subst h6
        have := List.all_eq_true.1 hs '=' (by simp)
        exact absurd this (by decide)

theorem matchClassAttr_attrname_fail {s : List Char} (hs : s.all nameChar = true)
    (hpre : className.isPrefixOf s = false) (X : List Char) :
    matchClassAttr (s ++ '=' :: X) = none := by
  cases hm : matchClassAttr (s ++ '=' :: X) with
  | none => rfl
  | some p =>
      exfalso
      obtain ⟨l2, heq⟩ := matchClassAttr_eq_some hm
      rcases s with _ | ⟨x1, _ | ⟨x2, _ | ⟨x3, _ | ⟨x4, _ | ⟨x5, _ | ⟨x6, s7⟩⟩⟩⟩⟩⟩ <;>
        simp only [List.cons_append, List.nil_append, List.cons.injEq] at heq
      · exact absurd heq.1 (by decide)
      · exact absurd heq.2.1 (by decide)
      · exact absurd heq.2.2.1 (by decide)
      · exact absurd heq.2.2.2.1 (by decide)
      · exact absurd heq.2.2.2.2.1 (by decide)
      · obtain ⟨h1, h2, h3, h4, h5, -⟩ := heq
        subst h1; subst h2; subst h3; subst h4; subst h5
        exact absurd hpre (by decide)
      · obtain ⟨-, -, -, -, -, h6, -⟩ := heq
        subst h6
        have := List.all_eq_true.1 hs '=' (by simp)
        have hf := nameChar_facts this
        exact hf.2.2.2.1 rfl

theorem matchClassAttr_tagname_fail {s : List Char} (hs : s.all nameChar = true)
    {b : Char} (hb : b = ' ' ∨ b = '>') (X : List Char) :
    matchClassAttr (s ++ b :: X) = none := by
  cases hm : matchClassAttr (s ++ b :: X) with
  | none => rfl
  | some p =>
      exfalso
      obtain ⟨l2, heq⟩ := matchClassAttr_eq_some hm
      rcases s with _ | ⟨x1, _ | ⟨x2, _ | ⟨x3, _ | ⟨x4, _ | ⟨x5, _ | ⟨x6, s7⟩⟩⟩⟩⟩⟩ <;>
        simp only [List.cons_append, List.nil_append, List.cons.injEq] at heq
      · rcases hb with rfl | rfl
        · exact absurd heq.1 (by decide)
        · exact absurd heq.1 (by decide)
      · rcases hb with rfl | rfl
        · exact absurd heq.2.1 (by decide)
        · exact absurd heq.2.1 (by decide)
      · rcases hb with rfl | rfl
        · exact absurd heq.2.2.1 (by decide)
        · exact absurd heq.2.2.1 (by decide)
      · rcases hb with rfl | rfl
        · exact absurd heq.2.2.2.1 (by decide)
        · exact absurd heq.2.2.2.1 (by decide)
      · rcases hb with rfl | rfl
        · exact absurd heq.2.2.2.2.1 (by decide)
        · exact absurd heq.2.2.2.2.1 (by decide)
      · rcases hb with rfl | rfl
        · exact absurd heq.2.2.2.2.2.1 (by decide)
        · exact absurd heq.2.2.2.2.2.1 (by decide)
      · obtain ⟨-, -, -, -, -, h6, -⟩ := heq
        subst h6
        have := List.all_eq_true.1 hs '=' (by simp)
        have hf := nameChar_facts this
        exact hf.2.2.2.1 rfl

/-! ### Pass 1: text stripping acts as token-level text removal -/

def tagInner : HtmlTok → List Char
  | .openT nm attrs => nm ++ renderAttrs attrs
  | .closeT nm => '/' :: nm
  | .textT t => t

def lastNotText (ts : List HtmlTok) : Bool :=
  match ts.getLast? with
  | some a => !isTextTok a
  | none => true

theorem renderTok_tag {t : HtmlTok} (h : isTextTok t = false) :
    renderTok t = '<' :: (tagInner t ++ ['>']) := by
  cases t with
  | openT nm attrs => simp [renderTok, tagInner]
  | closeT nm => simp [renderTok, tagInner]
  | textT txt => exact absurd h (by simp [isTextTok])

theorem renderToks_tag_cons {t : HtmlTok} (h : isTextTok t = false) (ts : List HtmlTok) :
    renderToks (t :: ts) = '<' :: (tagInner t ++ ('>' :: renderToks ts)) := by
  rw [renderToks_cons, renderTok_tag h]
  simp [List.cons_append, List.append_assoc]

theorem all_and_left {p q : α → Bool} {l : List α}
    (h : l.all (fun c => p c && q c) = true) : l.all p = true := by
  rw [List.all_eq_true] at h ⊢
  intro x hx
  have hpq := h x hx
  rw [Bool.and_eq_true] at hpq
  exact hpq.1

theorem all_and_right {p q : α → Bool} {l : List α}
    (h : l.all (fun c => p c && q c) = true) : l.all q = true := by
  rw [List.all_eq_true] at h ⊢
  intro x hx
  have hpq := h x hx
  rw [Bool.and_eq_true] at hpq
  exact hpq.2

theorem attrOk_parts {a : List Char × List Char} (h : attrOk a = true) :
    a.1 ≠ [] ∧ a.1.all nameChar = true ∧
      (a.1 = className ∨ containsSub className a.1 = false) ∧
      a.2.all valChar = true ∧
      a.2.tails.all (fun s =>
        match s with
        | c :: rest => !c.isWhitespace || (dropNameCI dataName rest).isNone
        | [] => true) = true := by
  unfold attrOk at h
  rw [Bool.and_eq_true, Bool.and_eq_true] at h
  have h1 := h.1.1
  unfold nameOk at h1
  rw [Bool.and_eq_true, decide_eq_true_eq] at h1
  have h2 := h.1.2
  rw [Bool.or_eq_true, decide_eq_true_eq, Bool.not_eq_true'] at h2
  have h3 := h.2
  unfold valueOk at h3
  rw [Bool.and_eq_true] at h3
  exact ⟨h1.1, h1.2, h2, h3.1, h3.2⟩

theorem nameOk_parts {nm : List Char} (h : nameOk nm = true) :
    nm ≠ [] ∧ nm.all nameChar = true := by
  unfold nameOk at h
  rw [Bool.and_eq_true, decide_eq_true_eq] at h
  exact h

theorem renderAttrs_chars {attrs : List (List Char × List Char)}
    (h : attrs.all attrOk = true) {c : Char} (hc : c ∈ renderAttrs attrs) :
    c = ' ' ∨ c = '=' ∨ c = '"' ∨ nameChar c = true ∨ valChar c = true := by
  unfold renderAttrs at hc
  rw [List.mem_join] at hc
  obtain ⟨piece, hp, hcp⟩ := hc
  rw [List.mem_map] at hp
  obtain ⟨a, ha, rfl⟩ := hp
  obtain ⟨-, hnm, -, hval, -⟩ := attrOk_parts (List.all_eq_true.1 h a ha)
  rw [List.mem_append, List.mem_append] at hcp
  rcases hcp with (hcp | hcp) | hcp
  · rw [List.mem_cons] at hcp
    rcases hcp with rfl | hcp
    · exact Or.inl rfl
    · exact Or.inr (Or.inr (Or.inr (Or.inl (List.all_eq_true.1 hnm c hcp))))
  · rw [List.mem_cons, List.mem_cons] at hcp
    rcases hcp with rfl | rfl | hcp
    · exact Or.inr (Or.inl rfl)
    · exact Or.inr (Or.inr (Or.inl rfl))
    · exact Or.inr (Or.inr (Or.inr (Or.inr (List.all_eq_true.1 hval c hcp))))
  · rw [List.mem_singleton] at hcp
    subst hcp
    exact Or.inr (Or.inr (Or.inl rfl))

theorem tagInner_chars {t : HtmlTok} (htok : tokOk t = true) (htag : isTextTok t = false) :
    (tagInner t).all (fun c => c ≠ '>' && c ≠ '<') = true := by
  cases t with
  | textT txt => exact absurd htag (by simp [isTextTok])
  | closeT nm =>
      obtain ⟨-, hnm⟩ := nameOk_parts (by unfold tokOk at htok; exact htok)
      unfold tagInner
      rw [List.all_cons, Bool.and_eq_true]
      refine ⟨by decide, ?_⟩
      rw [List.all_eq_true]
      intro x hx
      have hf := nameChar_facts (List.all_eq_true.1 hnm x hx)
      simp only [Bool.and_eq_true, decide_eq_true_eq]
      exact ⟨hf.2.2.2.2.2.2.1, hf.2.2.2.2.2.1⟩
  | openT nm attrs =>
      unfold tokOk at htok
      rw [Bool.and_eq_true] at htok
      obtain ⟨-, hnm⟩ := nameOk_parts htok.1
      unfold tagInner
      rw [List.all_eq_true]
      intro x hx
      rw [List.mem_append] at hx
      simp only [Bool.and_eq_true, decide_eq_true_eq]
      rcases hx with hx | hx
      · have hf := nameChar_facts (List.all_eq_true.1 hnm x hx)
        exact ⟨hf.2.2.2.2.2.2.1, hf.2.2.2.2.2.1⟩
      · rcases renderAttrs_chars htok.2 hx with rfl | rfl | rfl | hn | hv
        · exact ⟨by decide, by decide⟩
        · exact ⟨by decide, by decide⟩
        · exact ⟨by decide, by decide⟩
        · have hf := nameChar_facts hn
          exact ⟨hf.2.2.2.2.2.2.1, hf.2.2.2.2.2.1⟩
        · have hf := valChar_facts hv
          exact ⟨hf.2.2.1, hf.2.1⟩

theorem noAdjTexts_tail {t : HtmlTok} {ts : List HtmlTok}
    (h : noAdjTexts (t :: ts) = true) : noAdjTexts ts = true := by
  cases ts with
  | nil => rfl
  | cons b rest =>
      unfold noAdjTexts at h
      rw [Bool.and_eq_true] at h
      exact h.2

theorem lastNotText_tail {t : HtmlTok} {ts : List HtmlTok}
    (h : lastNotText (t :: ts) = true) : lastNotText ts = true := by
  cases ts with
  | nil => rfl
  | cons b rest =>
      unfold lastNotText at h ⊢
      rwa [List.getLast?_cons_cons] at h

theorem stripTextAux_skip :
    ∀ (A : List Char), A.all (· ≠ '>') = true →
      ∀ (B : List Char) (n : Nat), A.length + B.length ≤ n →
        stripTextAux n (A ++ B) = A ++ stripTextAux (n - A.length) B := by
  intro A
  induction A with
  | nil => intro _ B n _; simp
  | cons c A' ih =>
      intro h B n hn
      rw [List.all_cons, Bool.and_eq_true, decide_eq_true_eq] at h
      rw [List.length_cons] at hn
      cases n with
      | zero => exact absurd hn (by omega)
      | succ n' =>
          rw [List.cons_append, stripTextAux_ne h.1, ih h.2 B n' (by omega),
            List.cons_append, List.length_cons, Nat.succ_sub_succ]

theorem stripTextAux_gt_render :
    ∀ (k : Nat) (ts : List HtmlTok), ts.length ≤ k →
      ts.all tokOk = true → noAdjTexts ts = true → lastNotText ts = true →
      ∀ n, (renderToks ts).length + 1 ≤ n →
        stripTextAux n ('>' :: renderToks ts) =
          '>' :: renderToks (ts.filter (fun t => !isTextTok t)) := by
  intro k
  induction k with
  | zero =>
      intro ts hk _ _ _ n hn
      have hts : ts = [] := List.length_eq_zero.1 (Nat.le_zero.1 hk)
      subst hts
      have h0 : renderToks ([] : List HtmlTok) = [] := rfl
      rw [h0] at hn ⊢
      cases n with
      | zero => exact absurd hn (by omega)
      | succ n' => rw [stripTextAux_gt_end List.dropWhile_nil]; rfl
  | succ k ih =>
      intro ts hk htok hadj hlast n hn
      cases ts with
      | nil =>
          have h0 : renderToks ([] : List HtmlTok) = [] := rfl
          rw [h0] at hn ⊢
          cases n with
          | zero => exact absurd hn (by omega)
          | succ n' => rw [stripTextAux_gt_end List.dropWhile_nil]; rfl
      | cons t rest =>
          rw [List.all_cons, Bool.and_eq_true] at htok
          cases htt : isTextTok t with
          | true =>
              cases t with
              | openT nm attrs => exact absurd htt (by simp [isTextTok])
              | closeT nm => exact absurd htt (by simp [isTextTok])
              | textT txt =>
                  have htxt := htok.1
                  unfold tokOk at htxt
                  rw [Bool.and_eq_true, decide_eq_true_eq] at htxt
                  cases rest with
                  | nil => exact absurd hlast (by simp [lastNotText, isTextTok])
                  | cons b rest' =>
                      have hbt : isTextTok b = false := by
                        unfold noAdjTexts at hadj
                        rw [Bool.and_eq_true] at hadj
                        have h1 := hadj.1
                        rw [Bool.not_eq_true'] at h1
                        rwa [show isTextTok (HtmlTok.textT txt) = true from rfl,
                          Bool.true_and] at h1
                      have hadjb : noAdjTexts (b :: rest') = true := noAdjTexts_tail hadj
                      have hlastb : lastNotText (b :: rest') = true := lastNotText_tail hlast
                      have htokb := htok.2
                      rw [List.all_cons, Bool.and_eq_true] at htokb
                      have hr1 : renderToks (HtmlTok.textT txt :: b :: rest') =
                          txt ++ ('<' :: (tagInner b ++ ('>' :: renderToks rest'))) := by
                        rw [renderToks_cons, show renderTok (HtmlTok.textT txt) = txt from rfl,
                          renderToks_tag_cons hbt]
                      rw [hr1] at hn ⊢
                      cases n with
                      | zero => exact absurd hn (by omega)
                      | succ n' =>
                          have hd : (txt ++ ('<' :: (tagInner b ++ ('>' :: renderToks rest')))).dropWhile
                              (· ≠ '<') = '<' :: (tagInner b ++ ('>' :: renderToks rest')) := by
                            rw [dropWhile_append_all _ htxt.2, List.dropWhile_cons_of_neg (by decide)]
                          have ht : (txt ++ ('<' :: (tagInner b ++ ('>' :: renderToks rest')))).takeWhile
                              (· ≠ '<') ≠ [] := by
                            rw [takeWhile_append_all _ htxt.2, List.takeWhile_cons_of_neg (by decide),
                              List.append_nil]
                            exact htxt.1
                          rw [stripTextAux_gt_text hd ht]
                          have hbody := all_and_left (tagInner_chars htokb.1 hbt)
                          rw [stripTextAux_skip _ hbody _ n' (by
                            simp only [List.length_append, List.length_cons] at hn ⊢; omega)]
                          rw [ih rest' (by
                              rw [List.length_cons, List.length_cons] at hk; omega)
                            htokb.2 (noAdjTexts_tail hadjb) (lastNotText_tail hlastb)
                            (n' - (tagInner b).length) (by
                              simp only [List.length_append, List.length_cons] at hn ⊢; omega)]
                          rw [List.filter_cons_of_neg (by simp [isTextTok]),
                            List.filter_cons_of_pos (by simp [hbt]),
                            renderToks_tag_cons hbt]
          | false =>
              have hr1 : renderToks (t :: rest) =
                  '<' :: (tagInner t ++ ('>' :: renderToks rest)) := renderToks_tag_cons htt rest
              rw [hr1] at hn ⊢
              cases n with
              | zero => exact absurd hn (by omega)
              | succ n' =>
                  have hd : ('<' :: (tagInner t ++ ('>' :: renderToks rest))).dropWhile
                      (· ≠ '<') = '<' :: (tagInner t ++ ('>' :: renderToks rest)) := by
                    rw [List.dropWhile_cons_of_neg (by decide)]
                  have ht2 : ('<' :: (tagInner t ++ ('>' :: renderToks rest))).takeWhile
                      (· ≠ '<') = [] := by
                    rw [List.takeWhile_cons_of_neg (by decide)]
                  rw [stripTextAux_gt_tag hd ht2]
                  cases n' with
                  | zero =>
                      exfalso
                      simp only [List.length_cons, List.length_append] at hn
                      omega
                  | succ n'' =>
                      rw [stripTextAux_ne (by decide) _ n'']
                      have hbody := all_and_left (tagInner_chars htok.1 htt)
                      rw [stripTextAux_skip _ hbody _ n'' (by
                        simp only [List.length_append, List.length_cons] at hn ⊢; omega)]
                      rw [ih rest (by rw [List.length_cons] at hk; omega)
                        htok.2 (noAdjTexts_tail hadj) (lastNotText_tail hlast)
                        (n'' - (tagInner t).length) (by
                          simp only [List.length_append, List.length_cons] at hn ⊢; omega)]
                      rw [List.filter_cons_of_pos (by simp [htt]), renderToks_tag_cons htt]

theorem stripTextAux_render {t : HtmlTok} {rest : List HtmlTok}
    (htt : isTextTok t = false)
    (htok : (t :: rest).all tokOk = true) (hadj : noAdjTexts (t :: rest) = true)
    (hlast : lastNotText (t :: rest) = true) :
    ∀ n, (renderToks (t :: rest)).length ≤ n →
      stripTextAux n (renderToks (t :: rest)) =
        renderToks ((t :: rest).filter (fun x => !isTextTok x)) := by
  intro n hn
  rw [renderToks_tag_cons htt] at hn ⊢
  rw [List.all_cons, Bool.and_eq_true] at htok
  cases n with
  | zero =>
      exfalso
      rw [List.length_cons] at hn
      omega
  | succ n' =>
      rw [stripTextAux_ne (by decide) _ n']
      have hbody := all_and_left (tagInner_chars htok.1 htt)
      rw [stripTextAux_skip _ hbody _ n' (by
        simp only [List.length_cons, List.length_append] at hn ⊢; omega)]
      rw [stripTextAux_gt_render rest.length rest le_rfl htok.2
        (noAdjTexts_tail hadj) (lastNotText_tail hlast) (n' - (tagInner t).length) (by
          simp only [List.length_cons, List.length_append] at hn ⊢; omega)]
      rw [List.filter_cons_of_pos (by simp [htt]), renderToks_tag_cons htt]

/-! ### Pass 2: volatile-attribute removal acts as token-level attribute filtering -/

def valueTailsOk (v : List Char) : Bool :=
  v.tails.all (fun s =>
    match s with
    | c :: rest => !c.isWhitespace || (dropNameCI dataName rest).isNone
    | [] => true)

def filterAttrsTok (p : List Char × List Char → Bool) : HtmlTok → HtmlTok
  | .openT nm attrs => .openT nm (attrs.filter p)
  | t => t

theorem valueTailsOk_of_attrOk {a : List Char × List Char} (h : attrOk a = true) :
    valueTailsOk a.2 = true := (attrOk_parts h).2.2.2.2

theorem valueTailsOk_tail {c : Char} {s : List Char}
    (h : valueTailsOk (c :: s) = true) : valueTailsOk s = true := by
  unfold valueTailsOk at h ⊢
  rw [List.tails_cons, List.all_cons, Bool.and_eq_true] at h
  exact h.2

theorem valueTailsOk_head {c : Char} {s : List Char}
    (h : valueTailsOk (c :: s) = true) (hws : c.isWhitespace = true) :
    (dropNameCI dataName s).isNone = true := by
  unfold valueTailsOk at h
  rw [List.tails_cons, List.all_cons, Bool.and_eq_true] at h
  have h1 := h.1
  simp only [hws, Bool.not_true, Bool.false_or] at h1
  exact h1

theorem nameChar_all_lower {l : List Char} (h : l.all nameChar = true) :
    l.all (fun c => c.toLower = c) = true := by
  rw [List.all_eq_true] at h ⊢
  intro x hx
  simp only [decide_eq_true_eq]
  exact (nameChar_facts (h x hx)).1

theorem val_no_quote {l : List Char} (h : l.all valChar = true) :
    l.all (· ≠ '"') = true := by
  rw [List.all_eq_true] at h ⊢
  intro x hx
  simp only [decide_eq_true_eq]
  exact (valChar_facts (h x hx)).1

theorem name_no_ws {l : List Char} (h : l.all nameChar = true) :
    l.all (fun c => !c.isWhitespace) = true := by
  rw [List.all_eq_true] at h ⊢
  intro x hx
  simp only [Bool.not_eq_true']
  exact (nameChar_facts (h x hx)).2.1

theorem renderAttrs_nil : renderAttrs [] = [] := rfl

theorem renderAttrs_cons_flat (a : List Char × List Char)
    (attrs : List (List Char × List Char)) (R : List Char) :
    renderAttrs (a :: attrs) ++ R =
      ' ' :: (a.1 ++ '=' :: '"' :: (a.2 ++ '"' :: (renderAttrs attrs ++ R))) := by
  simp [renderAttrs, List.cons_append, List.append_assoc]

theorem removeAttrAux_skip {nm : List Char} :
    ∀ (A : List Char), A.all (fun c => !c.isWhitespace) = true →
      ∀ (B : List Char) (n : Nat), A.length + B.length ≤ n →
        removeAttrAux nm n (A ++ B) = A ++ removeAttrAux nm (n - A.length) B := by
  intro A
  induction A with
  | nil => intro _ B n _; simp
  | cons c A' ih =>
      intro h B n hn
      rw [List.all_cons, Bool.and_eq_true, Bool.not_eq_true'] at h
      rw [List.length_cons] at hn
      cases n with
      | zero => exact absurd hn (by omega)
      | succ n' =>
          rw [List.cons_append, removeAttrAux_nws h.1, ih h.2 B n' (by omega),
            List.cons_append, List.length_cons, Nat.succ_sub_succ]

theorem removeDataAttrAux_skip :
    ∀ (A : List Char), A.all (fun c => !c.isWhitespace) = true →
      ∀ (B : List Char) (n : Nat), A.length + B.length ≤ n →
        removeDataAttrAux n (A ++ B) = A ++ removeDataAttrAux (n - A.length) B := by
  intro A
  induction A with
  | nil => intro _ B n _; simp
  | cons c A' ih =>
      intro h B n hn
      rw [List.all_cons, Bool.and_eq_true, Bool.not_eq_true'] at h
      rw [List.length_cons] at hn
      cases n with
      | zero => exact absurd hn (by omega)
      | succ n' =>
          rw [List.cons_append, removeDataAttrAux_nws h.1, ih h.2 B n' (by omega),
            List.cons_append, List.length_cons, Nat.succ_sub_succ]

theorem removeAttrAux_val {nm : List Char} (hnm : nm.all nameChar = true) :
    ∀ (s : List Char), s.all valChar = true →
      ∀ (B : List Char) (n : Nat), s.length + 1 + B.length ≤ n →
        removeAttrAux nm n (s ++ '"' :: B) =
          s ++ '"' :: removeAttrAux nm (n - s.length - 1) B := by
  intro s
  induction s with
  | nil =>
      intro _ B n hn
      cases n with
      | zero => exact absurd hn (by omega)
      | succ n' =>
          rw [List.nil_append, removeAttrAux_nws (by decide)]
          rfl
  | cons c s' ih =>
      intro hs B n hn
      rw [List.all_cons, Bool.and_eq_true] at hs
      rw [List.length_cons] at hn
      cases n with
      | zero => exact absurd hn (by omega)
      | succ n' =>
          cases hws : c.isWhitespace with
          | true =>
              have hm : matchAttr nm (s' ++ '"' :: B) = none := matchAttr_ws_val hnm hs.2 B
              rw [List.cons_append, removeAttrAux_ws_none hws hm,
                ih hs.2 B n' (by omega), List.cons_append, List.length_cons,
                Nat.succ_sub_succ]
          | false =>
              rw [List.cons_append, removeAttrAux_nws hws,
                ih hs.2 B n' (by omega), List.cons_append, List.length_cons,
                Nat.succ_sub_succ]

theorem removeDataAttrAux_val :
    ∀ (s : List Char), valueTailsOk s = true →
      ∀ (B : List Char) (n : Nat), s.length + 1 + B.length ≤ n →
        removeDataAttrAux n (s ++ '"' :: B) =
          s ++ '"' :: removeDataAttrAux (n - s.length - 1) B := by
  intro s
  induction s with
  | nil =>
      intro _ B n hn
      cases n with
      | zero => exact absurd hn (by omega)
      | succ n' =>
          rw [List.nil_append, removeDataAttrAux_nws (by decide)]
          rfl
  | cons c s' ih =>
      intro hs B n hn
      rw [List.length_cons] at hn
      cases n with
      | zero => exact absurd hn (by omega)
      | succ n' =>
          cases hws : c.isWhitespace with
          | true =>
              have hm : matchDataAttr (s' ++ '"' :: B) = none :=
                matchDataAttr_ws_val (valueTailsOk_head hs hws) B
              rw [List.cons_append, removeDataAttrAux_ws_none hws hm,
                ih (valueTailsOk_tail hs) B n' (by omega), List.cons_append,
                List.length_cons, Nat.succ_sub_succ]
          | false =>
              rw [List.cons_append, removeDataAttrAux_nws hws,
                ih (valueTailsOk_tail hs) B n' (by omega), List.cons_append,
                List.length_cons, Nat.succ_sub_succ]

theorem removeAttrAux_attrs {nm : List Char} (hnm : nm.all nameChar = true) :
    ∀ (attrs : List (List Char × List Char)), attrs.all attrOk = true →
      ∀ (R OUT : List Char), (∀ m, R.length ≤ m → removeAttrAux nm m R = OUT) →
        ∀ n, (renderAttrs attrs).length + R.length ≤ n →
          removeAttrAux nm n (renderAttrs attrs ++ R) =
            renderAttrs (attrs.filter (fun a => !decide (a.1 = nm))) ++ OUT := by
  intro attrs
  induction attrs with
  | nil =>
      intro _ R OUT hcont n hn
      rw [renderAttrs_nil, List.nil_append, List.filter_nil, renderAttrs_nil,
        List.nil_append]
      rw [renderAttrs_nil] at hn
      exact hcont n (by omega)
  | cons a attrs' ih =>
      intro hok R OUT hcont n hn
      rw [List.all_cons, Bool.and_eq_true] at hok
      obtain ⟨hane, hanm, -, haval, -⟩ := attrOk_parts hok.1
      rw [renderAttrs_cons_flat]
      have hlen : (renderAttrs (a :: attrs')).length =
          a.1.length + a.2.length + 4 + (renderAttrs attrs').length := by
        have : renderAttrs (a :: attrs') ++ [] =
            ' ' :: (a.1 ++ '=' :: '"' :: (a.2 ++ '"' :: (renderAttrs attrs' ++ []))) :=
          renderAttrs_cons_flat a attrs' []
        rw [List.append_nil, List.append_nil] at this
        rw [this]
        simp [List.length_cons, List.length_append]
        omega
      rw [hlen] at hn
      cases n with
      | zero => exact absurd hn (by omega)
      | succ n' =>
          by_cases hname : a.1 = nm
          · have hm : matchAttr nm (a.1 ++ '=' :: '"' :: (a.2 ++ '"' ::
                (renderAttrs attrs' ++ R))) = some (renderAttrs attrs' ++ R) := by
              rw [hname]
              exact matchAttr_self (nameChar_all_lower hnm) (val_no_quote haval) _
            rw [removeAttrAux_ws_some (by decide) hm]
            rw [ih hok.2 R OUT hcont n' (by omega)]
            rw [List.filter_cons_of_neg (by simp [hname])]
          · have hm : matchAttr nm (a.1 ++ '=' :: '"' :: (a.2 ++ '"' ::
                (renderAttrs attrs' ++ R))) = none := by
              have h2 : a.1 ++ '=' :: '"' :: (a.2 ++ '"' :: (renderAttrs attrs' ++ R)) =
                  a.1 ++ '=' :: '"' :: (a.2 ++ '"' :: (renderAttrs attrs' ++ R)) := rfl
              exact matchAttr_mismatch hnm hanm hname _
            rw [removeAttrAux_ws_none (by decide) hm]
            have hsplit : a.1 ++ '=' :: '"' :: (a.2 ++ '"' :: (renderAttrs attrs' ++ R)) =
                (a.1 ++ ['=', '"']) ++ (a.2 ++ '"' :: (renderAttrs attrs' ++ R)) := by
              simp [List.append_assoc]
            rw [hsplit]
            have hA : (a.1 ++ ['=', '"']).all (fun c => !c.isWhitespace) = true := by
              rw [List.all_append, Bool.and_eq_true]
              exact ⟨name_no_ws hanm, by decide⟩
            rw [removeAttrAux_skip _ hA _ n' (by
              simp only [List.length_append, List.length_cons] at hn ⊢
              simp only [List.length_nil]
              omega)]
            rw [removeAttrAux_val hnm a.2 haval _ _ (by
              simp only [List.length_append, List.length_cons, List.length_nil] at hn ⊢
              omega)]
            rw [ih hok.2 R OUT hcont _ (by
              simp only [List.length_append, List.length_cons, List.length_nil] at hn ⊢
              omega)]
            rw [List.filter_cons_of_pos (by simp [hname])]
            rw [renderAttrs_cons_flat]
            simp [List.append_assoc]

theorem removeDataAttrAux_attrs :
    ∀ (attrs : List (List Char × List Char)), attrs.all attrOk = true →
      ∀ (R OUT : List Char), (∀ m, R.length ≤ m → removeDataAttrAux m R = OUT) →
        ∀ n, (renderAttrs attrs).length + R.length ≤ n →
          removeDataAttrAux n (renderAttrs attrs ++ R) =
            renderAttrs (attrs.filter (fun a => (dropNameCI dataName a.1).isNone)) ++ OUT := by
  intro attrs
  induction attrs with
  | nil =>
      intro _ R OUT hcont n hn
      rw [renderAttrs_nil, List.nil_append, List.filter_nil, renderAttrs_nil,
        List.nil_append]
      rw [renderAttrs_nil] at hn
      exact hcont n (by omega)
  | cons a attrs' ih =>
      intro hok R OUT hcont n hn
      rw [List.all_cons, Bool.and_eq_true] at hok
      obtain ⟨hane, hanm, -, haval, -⟩ := attrOk_parts hok.1
      rw [renderAttrs_cons_flat]
      have hlen : (renderAttrs (a :: attrs')).length =
          a.1.length + a.2.length + 4 + (renderAttrs attrs').length := by
        have h3 : renderAttrs (a :: attrs') ++ [] =
            ' ' :: (a.1 ++ '=' :: '"' :: (a.2 ++ '"' :: (renderAttrs attrs' ++ []))) :=
          renderAttrs_cons_flat a attrs' []
        rw [List.append_nil, List.append_nil] at h3
        rw [h3]
        simp [List.length_cons, List.length_append]
        omega
      rw [hlen] at hn
      cases n with
      | zero => exact absurd hn (by omega)
      | succ n' =>
          cases hdn : dropNameCI dataName a.1 with
          | some a2 =>
              have hm : matchDataAttr (a.1 ++ '=' :: '"' :: (a.2 ++ '"' ::
                  (renderAttrs attrs' ++ R))) = some (renderAttrs attrs' ++ R) :=
                matchDataAttr_attr_pos hdn hanm (val_no_quote haval) _
              rw [removeDataAttrAux_ws_some (by decide) hm]
              rw [ih hok.2 R OUT hcont n' (by omega)]
              rw [List.filter_cons_of_neg (by simp [hdn])]
          | none =>
              have hm : matchDataAttr (a.1 ++ '=' :: '"' :: (a.2 ++ '"' ::
                  (renderAttrs attrs' ++ R))) = none := matchDataAttr_attr_neg hdn _
              rw [removeDataAttrAux_ws_none (by decide) hm]
              have hsplit : a.1 ++ '=' :: '"' :: (a.2 ++ '"' :: (renderAttrs attrs' ++ R)) =
                  (a.1 ++ ['=', '"']) ++ (a.2 ++ '"' :: (renderAttrs attrs' ++ R)) := by
                simp [List.append_assoc]
              rw [hsplit]
              have hA : (a.1 ++ ['=', '"']).all (fun c => !c.isWhitespace) = true := by
                rw [List.all_append, Bool.and_eq_true]
                exact ⟨name_no_ws hanm, by decide⟩
              rw [removeDataAttrAux_skip _ hA _ n' (by
                simp only [List.length_append, List.length_cons, List.length_nil] at hn ⊢
                omega)]
              rw [removeDataAttrAux_val a.2 (valueTailsOk_of_attrOk hok.1) _ _ (by
                simp only [List.length_append, List.length_cons, List.length_nil] at hn ⊢
                omega)]
              rw [ih hok.2 R OUT hcont _ (by
                simp only [List.length_append, List.length_cons, List.length_nil] at hn ⊢
                omega)]
              rw [List.filter_cons_of_pos (by simp [hdn])]
              rw [renderAttrs_cons_flat]
              simp [List.append_assoc]

theorem renderTok_close_no_ws {nm0 : List Char} (h : nm0.all nameChar = true) :
    (renderTok (HtmlTok.closeT nm0)).all (fun c => !c.isWhitespace) = true := by
  show (('<' :: '/' :: nm0) ++ ['>']).all (fun c => !c.isWhitespace) = true
  rw [List.all_append, Bool.and_eq_true, List.all_cons, List.all_cons,
    Bool.and_eq_true, Bool.and_eq_true]
  exact ⟨⟨by decide, by decide, name_no_ws h⟩, by decide⟩

theorem renderToks_open_flat (nm0 : List Char) (attrs : List (List Char × List Char))
    (rest : List HtmlTok) :
    renderToks (HtmlTok.openT nm0 attrs :: rest) =
      ('<' :: nm0) ++ (renderAttrs attrs ++ ('>' :: renderToks rest)) := by
  rw [renderToks_cons]
  simp [renderTok, List.cons_append, List.append_assoc]

theorem removeAttrAux_render {nm : List Char} (hnm : nm.all nameChar = true) :
    ∀ (k : Nat) (ts : List HtmlTok), ts.length ≤ k →
      ts.all tokOk = true → ts.all (fun t => !isTextTok t) = true →
      ∀ n, (renderToks ts).length ≤ n →
        removeAttrAux nm n (renderToks ts) =
          renderToks (ts.map (filterAttrsTok (fun a => !decide (a.1 = nm)))) := by
  intro k
  induction k with
  | zero =>
      intro ts hk _ _ n _
      have hts : ts = [] := List.length_eq_zero.1 (Nat.le_zero.1 hk)
      subst hts
      rw [show renderToks ([] : List HtmlTok) = [] from rfl, removeAttrAux_nil]
      rfl
  | succ k ih =>
      intro ts hk htok htag n hn
      cases ts with
      | nil =>
          rw [show renderToks ([] : List HtmlTok) = [] from rfl, removeAttrAux_nil]
          rfl
      | cons t rest =>
          rw [List.all_cons, Bool.and_eq_true] at htok htag
          rw [List.length_cons] at hk
          cases t with
          | textT txt => exact absurd htag.1 (by simp [isTextTok])
          | closeT nm0 =>
              obtain ⟨-, hnm0⟩ := nameOk_parts (by unfold tokOk at htok; exact htok.1)
              rw [renderToks_cons] at hn ⊢
              rw [removeAttrAux_skip _ (renderTok_close_no_ws hnm0) _ n (by
                rw [List.length_append] at hn; omega)]
              rw [ih rest (by omega) htok.2 htag.2 _ (by
                rw [List.length_append] at hn; omega)]
              rw [List.map_cons, renderToks_cons,
                show filterAttrsTok (fun a => !decide (a.1 = nm)) (HtmlTok.closeT nm0) =
                  HtmlTok.closeT nm0 from rfl]
          | openT nm0 attrs =>
              have htok1 := htok.1
              unfold tokOk at htok1
              rw [Bool.and_eq_true] at htok1
              obtain ⟨-, hnm0⟩ := nameOk_parts htok1.1
              rw [renderToks_open_flat] at hn ⊢
              have hlt : ('<' :: nm0).all (fun c => !c.isWhitespace) = true := by
                rw [List.all_cons, Bool.and_eq_true]
                exact ⟨by decide, name_no_ws hnm0⟩
              rw [removeAttrAux_skip _ hlt _ n (by
                simp only [List.length_append, List.length_cons] at hn ⊢; omega)]
              rw [removeAttrAux_attrs hnm attrs htok1.2 ('>' :: renderToks rest)
                ('>' :: renderToks (rest.map (filterAttrsTok (fun a => !decide (a.1 = nm)))))
                (by
                  intro m hm
                  rw [List.length_cons] at hm
                  cases m with
                  | zero => exact absurd hm (by omega)
                  | succ m' =>
                      rw [removeAttrAux_nws (by decide)]
                      rw [ih rest (by omega) htok.2 htag.2 m' (by omega)])
                _ (by
                  simp only [List.length_append, List.length_cons] at hn ⊢; omega)]
              rw [List.map_cons, show filterAttrsTok (fun a => !decide (a.1 = nm))
                  (HtmlTok.openT nm0 attrs) =
                  HtmlTok.openT nm0 (attrs.filter (fun a => !decide (a.1 = nm))) from rfl,
                renderToks_open_flat]

theorem removeDataAttrAux_render :
    ∀ (k : Nat) (ts : List HtmlTok), ts.length ≤ k →
      ts.all tokOk = true → ts.all (fun t => !isTextTok t) = true →
      ∀ n, (renderToks ts).length ≤ n →
        removeDataAttrAux n (renderToks ts) =
          renderToks (ts.map (filterAttrsTok (fun a => (dropNameCI dataName a.1).isNone))) := by
  intro k
  induction k with
  | zero =>
      intro ts hk _ _ n _
      have hts : ts = [] := List.length_eq_zero.1 (Nat.le_zero.1 hk)
      subst hts
      rw [show renderToks ([] : List HtmlTok) = [] from rfl, removeDataAttrAux_nil]
      rfl
  | succ k ih =>
      intro ts hk htok htag n hn
      cases ts with
      | nil =>
          rw [show renderToks ([] : List HtmlTok) = [] from rfl, removeDataAttrAux_nil]
          rfl
      | cons t rest =>
          rw [List.all_cons, Bool.and_eq_true] at htok htag
          rw [List.length_cons] at hk
          cases t with
          | textT txt => exact absurd htag.1 (by simp [isTextTok])
          | closeT nm0 =>
              obtain ⟨-, hnm0⟩ := nameOk_parts (by unfold tokOk at htok; exact htok.1)
              rw [renderToks_cons] at hn ⊢
              rw [removeDataAttrAux_skip _ (renderTok_close_no_ws hnm0) _ n (by
                rw [List.length_append] at hn; omega)]
              rw [ih rest (by omega) htok.2 htag.2 _ (by
                rw [List.length_append] at hn; omega)]
              rw [List.map_cons, renderToks_cons,
                show filterAttrsTok (fun a => (dropNameCI dataName a.1).isNone)
                  (HtmlTok.closeT nm0) = HtmlTok.closeT nm0 from rfl]
          | openT nm0 attrs =>
              have htok1 := htok.1
              unfold tokOk at htok1
              rw [Bool.and_eq_true] at htok1
              obtain ⟨-, hnm0⟩ := nameOk_parts htok1.1
              rw [renderToks_open_flat] at hn ⊢
              have hlt : ('<' :: nm0).all (fun c => !c.isWhitespace) = true := by
                rw [List.all_cons, Bool.and_eq_true]
                exact ⟨by decide, name_no_ws hnm0⟩
              rw [removeDataAttrAux_skip _ hlt _ n (by
                simp only [List.length_append, List.length_cons] at hn ⊢; omega)]
              rw [removeDataAttrAux_attrs attrs htok1.2 ('>' :: renderToks rest)
                ('>' :: renderToks (rest.map
                  (filterAttrsTok (fun a => (dropNameCI dataName a.1).isNone))))
                (by
                  intro m hm
                  rw [List.length_cons] at hm
                  cases m with
                  | zero => exact absurd hm (by omega)
                  | succ m' =>
                      rw [removeDataAttrAux_nws (by decide)]
                      rw [ih rest (by omega) htok.2 htag.2 m' (by omega)])
                _ (by
                  simp only [List.length_append, List.length_cons] at hn ⊢; omega)]
              rw [List.map_cons, show filterAttrsTok
                  (fun a => (dropNameCI dataName a.1).isNone) (HtmlTok.openT nm0 attrs) =
                  HtmlTok.openT nm0 (attrs.filter
                    (fun a => (dropNameCI dataName a.1).isNone)) from rfl,
                renderToks_open_flat]

/-! ### Pass 3: class-token sorting acts as token-level attribute rewriting -/

def mapAttrsTok (f : List Char × List Char → List Char × List Char) : HtmlTok → HtmlTok
  | .openT nm attrs => .openT nm (attrs.map f)
  | t => t

theorem containsSub_tail {pat : List Char} {c : Char} {s : List Char}
    (h : containsSub pat (c :: s) = false) : containsSub pat s = false := by
  unfold containsSub at h ⊢
  rw [List.tails_cons, List.any_cons] at h
  rw [Bool.or_eq_false_iff] at h
  exact h.2

theorem containsSub_head {pat : List Char} {c : Char} {s : List Char}
    (h : containsSub pat (c :: s) = false) : pat.isPrefixOf (c :: s) = false := by
  unfold containsSub at h
  rw [List.tails_cons, List.any_cons] at h
  rw [Bool.or_eq_false_iff] at h
  exact h.1

theorem sortClassesAux_val :
    ∀ (s : List Char), s.all valChar = true →
      ∀ (B OUT : List Char), (∀ m, B.length ≤ m → sortClassesAux m B = OUT) →
        ∀ n, s.length + 1 + B.length ≤ n →
          sortClassesAux n (s ++ '"' :: B) = s ++ '"' :: OUT := by
  intro s
  induction s with
  | nil =>
      intro _ B OUT hcont n hn
      cases n with
      | zero => exact absurd hn (by omega)
      | succ n' =>
          rw [List.nil_append, sortClassesAux_none (matchClassAttr_ne_c (by decide) B),
            hcont n' (by omega)]
          rfl
  | cons c s' ih =>
      intro hs B OUT hcont n hn
      rw [List.all_cons, Bool.and_eq_true] at hs
      rw [List.length_cons] at hn
      cases n with
      | zero => exact absurd hn (by omega)
      | succ n' =>
          have hm : matchClassAttr (c :: (s' ++ '"' :: B)) = none := by
            have h2 := matchClassAttr_val_fail (s := c :: s') (by
              rw [List.all_cons, Bool.and_eq_true]; exact hs) B
            rwa [List.cons_append] at h2
          rw [List.cons_append, sortClassesAux_none hm,
            ih hs.2 B OUT hcont n' (by omega), List.cons_append]

theorem sortClassesAux_name :
    ∀ (s : List Char), s.all nameChar = true → containsSub className s = false →
      ∀ {v : List Char}, v.all valChar = true →
      ∀ (B OUT : List Char), (∀ m, B.length ≤ m → sortClassesAux m B = OUT) →
        ∀ n, s.length + 2 + (v.length + 1 + B.length) ≤ n →
          sortClassesAux n (s ++ '=' :: '"' :: (v ++ '"' :: B)) =
            s ++ '=' :: '"' :: (v ++ '"' :: OUT) := by
  intro s
  induction s with
  | nil =>
      intro _ _ v hv B OUT hcont n hn
      cases n with
      | zero => exact absurd hn (by omega)
      | succ n' =>
          rw [List.nil_append,
            sortClassesAux_none (matchClassAttr_ne_c (by decide) _)]
          cases n' with
          | zero => exact absurd hn (by omega)
          | succ n'' =>
              rw [sortClassesAux_none (matchClassAttr_ne_c (by decide) _),
                sortClassesAux_val v hv B OUT hcont n'' (by omega)]
              rfl
  | cons c s' ih =>
      intro hs hcs v hv B OUT hcont n hn
      rw [List.all_cons, Bool.and_eq_true] at hs
      rw [List.length_cons] at hn
      cases n with
      | zero => exact absurd hn (by omega)
      | succ n' =>
          have hm : matchClassAttr (c :: (s' ++ '=' :: '"' :: (v ++ '"' :: B))) = none := by
            have h2 := matchClassAttr_attrname_fail (s := c :: s') (by
              rw [List.all_cons, Bool.and_eq_true]; exact hs)
              (containsSub_head hcs) ('"' :: (v ++ '"' :: B))
            rwa [List.cons_append] at h2
          rw [List.cons_append, sortClassesAux_none hm,
            ih hs.2 (containsSub_tail hcs) hv B OUT hcont n' (by omega),
            List.cons_append]

theorem sortClassesAux_tagname :
    ∀ (s : List Char), s.all nameChar = true →
      ∀ (b : Char), (b = ' ' ∨ b = '>') →
      ∀ (B OUT : List Char), (∀ m, B.length + 1 ≤ m → sortClassesAux m (b :: B) = OUT) →
        ∀ n, s.length + (B.length + 1) ≤ n →
          sortClassesAux n (s ++ b :: B) = s ++ OUT := by
  intro s
  induction s with
  | nil =>
      intro _ b _ B OUT hcont n hn
      rw [List.nil_append, List.nil_append]
      exact hcont n (by omega)
  | cons c s' ih =>
      intro hs b hb B OUT hcont n hn
      rw [List.all_cons, Bool.and_eq_true] at hs
      rw [List.length_cons] at hn
      cases n with
      | zero => exact absurd hn (by omega)
      | succ n' =>
          have hm : matchClassAttr (c :: (s' ++ b :: B)) = none := by
            have h2 := matchClassAttr_tagname_fail (s := c :: s') (by
              rw [List.all_cons, Bool.and_eq_true]; exact hs) hb B
            rwa [List.cons_append] at h2
          rw [List.cons_append, sortClassesAux_none hm,
            ih hs.2 b hb B OUT hcont n' (by omega), List.cons_append]

theorem renderToks_close_flat (nm0 : List Char) (rest : List HtmlTok) :
    renderToks (HtmlTok.closeT nm0 :: rest) =
      '<' :: ('/' :: (nm0 ++ '>' :: renderToks rest)) := by
  rw [renderToks_cons]
  simp [renderTok, List.cons_append, List.append_assoc]

theorem renderToks_open_flat2 (nm0 : List Char) (attrs : List (List Char × List Char))
    (rest : List HtmlTok) :
    renderToks (HtmlTok.openT nm0 attrs :: rest) =
      '<' :: (nm0 ++ (renderAttrs attrs ++ ('>' :: renderToks rest))) := by
  rw [renderToks_open_flat, List.cons_append]

theorem sortClassesAux_attrs :
    ∀ (attrs : List (List Char × List Char)), attrs.all attrOk = true →
      ∀ (R OUT : List Char), (∀ m, R.length ≤ m → sortClassesAux m R = OUT) →
        ∀ n, (renderAttrs attrs).length + R.length ≤ n →
          sortClassesAux n (renderAttrs attrs ++ R) =
            renderAttrs (attrs.map eraseAttr) ++ OUT := by
  intro attrs
  induction attrs with
  | nil =>
      intro _ R OUT hcont n hn
      rw [renderAttrs_nil, List.nil_append, List.map_nil, renderAttrs_nil,
        List.nil_append]
      rw [renderAttrs_nil] at hn
      exact hcont n (by omega)
  | cons a attrs' ih =>
      intro hok R OUT hcont n hn
      rw [List.all_cons, Bool.and_eq_true] at hok
      obtain ⟨hane, hanm, hacl, haval, -⟩ := attrOk_parts hok.1
      rw [renderAttrs_cons_flat]
      have hlen : (renderAttrs (a :: attrs')).length =
          a.1.length + a.2.length + 4 + (renderAttrs attrs').length := by
        have h3 : renderAttrs (a :: attrs') ++ [] =
            ' ' :: (a.1 ++ '=' :: '"' :: (a.2 ++ '"' :: (renderAttrs attrs' ++ []))) :=
          renderAttrs_cons_flat a attrs' []
        rw [List.append_nil, List.append_nil] at h3
        rw [h3]
        simp [List.length_cons, List.length_append]
        omega
      rw [hlen] at hn
      cases n with
      | zero => exact absurd hn (by omega)
      | succ n' =>
          rw [sortClassesAux_none (matchClassAttr_ne_c (by decide) _)]
          by_cases hcl : a.1 = className
          · rw [hcl]
            have hred : className ++ '=' :: '"' :: (a.2 ++ '"' ::
                (renderAttrs attrs' ++ R)) =
                'c' :: 'l' :: 'a' :: 's' :: 's' :: '=' :: '"' ::
                  (a.2 ++ '"' :: (renderAttrs attrs' ++ R)) := rfl
            rw [hred]
            cases n' with
            | zero => exact absurd hn (by omega)
            | succ n'' =>
                rw [sortClassesAux_some (matchClassAttr_pos (val_no_quote haval) _)]
                rw [ih hok.2 R OUT hcont n'' (by omega)]
                rw [List.map_cons,
                  show eraseAttr a = (className, sortClassTokens a.2) from by
                    unfold eraseAttr; rw [if_pos hcl, hcl],
                  renderAttrs_cons_flat]
                simp [className, List.cons_append, List.append_assoc]
          · have hcsub : containsSub className a.1 = false := hacl.resolve_left hcl
            rw [sortClassesAux_name a.1 hanm hcsub haval (renderAttrs attrs' ++ R)
              (renderAttrs (attrs'.map eraseAttr) ++ OUT)
              (fun m hm => ih hok.2 R OUT hcont m (by
                rw [List.length_append] at hm; omega))
              n' (by
                simp only [List.length_append, List.length_cons] at hn ⊢; omega)]
            rw [List.map_cons,
              show eraseAttr a = a from by unfold eraseAttr; rw [if_neg hcl],
              renderAttrs_cons_flat]

theorem sortClassesAux_render :
    ∀ (k : Nat) (ts : List HtmlTok), ts.length ≤ k →
      ts.all tokOk = true → ts.all (fun t => !isTextTok t) = true →
      ∀ n, (renderToks ts).length ≤ n →
        sortClassesAux n (renderToks ts) = renderToks (ts.map (mapAttrsTok eraseAttr)) := by
  intro k
  induction k with
  | zero =>
      intro ts hk _ _ n _
      have hts : ts = [] := List.length_eq_zero.1 (Nat.le_zero.1 hk)
      subst hts
      rw [show renderToks ([] : List HtmlTok) = [] from rfl, sortClassesAux_nil]
      rfl
  | succ k ih =>
      intro ts hk htok htag n hn
      cases ts with
      | nil =>
          rw [show renderToks ([] : List HtmlTok) = [] from rfl, sortClassesAux_nil]
          rfl
      | cons t rest =>
          rw [List.all_cons, Bool.and_eq_true] at htok htag
          rw [List.length_cons] at hk
          cases t with
          | textT txt => exact absurd htag.1 (by simp [isTextTok])
          | closeT nm0 =>
              obtain ⟨-, hnm0⟩ := nameOk_parts (by unfold tokOk at htok; exact htok.1)
              rw [renderToks_close_flat] at hn ⊢
              simp only [List.length_cons, List.length_append] at hn
              cases n with
              | zero => exact absurd hn (by omega)
              | succ n1 =>
                  rw [sortClassesAux_none (matchClassAttr_ne_c (by decide) _)]
                  cases n1 with
                  | zero => exact absurd hn (by omega)
                  | succ n2 =>
                      rw [sortClassesAux_none (matchClassAttr_ne_c (by decide) _)]
                      rw [sortClassesAux_tagname nm0 hnm0 '>' (Or.inr rfl)
                        (renderToks rest) ('>' :: renderToks (rest.map (mapAttrsTok eraseAttr)))
                        (fun m hm => by
                          cases m with
                          | zero => exact absurd hm (by omega)
                          | succ m' =>
                              rw [sortClassesAux_none (matchClassAttr_ne_c (by decide) _)]
                              rw [ih rest (by omega) htok.2 htag.2 m' (by omega)])
                        n2 (by omega)]
                      rw [List.map_cons,
                        show mapAttrsTok eraseAttr (HtmlTok.closeT nm0) =
                          HtmlTok.closeT nm0 from rfl, renderToks_close_flat]
          | openT nm0 attrs =>
              have htok1 := htok.1
              unfold tokOk at htok1
              rw [Bool.and_eq_true] at htok1
              obtain ⟨-, hnm0⟩ := nameOk_parts htok1.1
              rw [renderToks_open_flat2] at hn ⊢
              simp only [List.length_cons, List.length_append] at hn
              cases n with
              | zero => exact absurd hn (by omega)
              | succ n1 =>
                  rw [sortClassesAux_none (matchClassAttr_ne_c (by decide) _)]
                  cases attrs with
                  | nil =>
                      rw [renderAttrs_nil, List.nil_append]
                      rw [sortClassesAux_tagname nm0 hnm0 '>' (Or.inr rfl)
                        (renderToks rest) ('>' :: renderToks (rest.map (mapAttrsTok eraseAttr)))
                        (fun m hm => by
                          cases m with
                          | zero => exact absurd hm (by omega)
                          | succ m' =>
                              rw [sortClassesAux_none (matchClassAttr_ne_c (by decide) _)]
                              rw [ih rest (by omega) htok.2 htag.2 m' (by omega)])
                        n1 (by simp only [renderAttrs_nil, List.length_nil] at hn; omega)]
                      rw [List.map_cons,
                        show mapAttrsTok eraseAttr (HtmlTok.openT nm0 []) =
                          HtmlTok.openT nm0 [] from rfl, renderToks_open_flat2,
                        renderAttrs_nil, List.nil_append]
                  | cons a attrs2 =>
                      rw [renderAttrs_cons_flat]
                      have h4 := congrArg List.length
                        (renderAttrs_cons_flat a attrs2 ('>' :: renderToks rest))
                      simp only [List.length_append, List.length_cons] at h4
                      rw [sortClassesAux_tagname nm0 hnm0 ' ' (Or.inl rfl) _
                        (renderAttrs ((a :: attrs2).map eraseAttr) ++
                          ('>' :: renderToks (rest.map (mapAttrsTok eraseAttr))))
                        (fun m hm => by
                          rw [← renderAttrs_cons_flat]
                          refine sortClassesAux_attrs (a :: attrs2) htok1.2
                            ('>' :: renderToks rest)
                            ('>' :: renderToks (rest.map (mapAttrsTok eraseAttr)))
                            (fun m2 hm2 => by
                              rw [List.length_cons] at hm2
                              cases m2 with
                              | zero => exact absurd hm2 (by omega)
                              | succ m2' =>
                                  rw [sortClassesAux_none
                                    (matchClassAttr_ne_c (by decide) _)]
                                  rw [ih rest (by omega) htok.2 htag.2 m2' (by omega)])
                            m ?_
                          simp only [List.length_append, List.length_cons] at hm ⊢
                          omega)
                        n1 (by
                          simp only [List.length_cons, List.length_append] at hn ⊢
                          omega)]
                      have hrhs : renderToks (List.map (mapAttrsTok eraseAttr)
                          (HtmlTok.openT nm0 (a :: attrs2) :: rest)) =
                          '<' :: (nm0 ++ (renderAttrs ((a :: attrs2).map eraseAttr) ++
                            ('>' :: renderToks (rest.map (mapAttrsTok eraseAttr))))) := by
                        rw [List.map_cons,
                          show mapAttrsTok eraseAttr (HtmlTok.openT nm0 (a :: attrs2)) =
                            HtmlTok.openT nm0 ((a :: attrs2).map eraseAttr) from rfl,
                          renderToks_open_flat2]
                      rw [hrhs]

/-! ### Passes 4-5 and trim: identities on text-free token renders -/

def tameVal (c : Char) : Bool := c ≠ '<' && c ≠ '>'

def tokTame : HtmlTok → Bool
  | .openT nm attrs => nameOk nm && attrs.all (fun a => nameOk a.1 && a.2.all tameVal)
  | .closeT nm => nameOk nm
  | .textT _ => false

theorem tokTame_not_text {t : HtmlTok} (h : tokTame t = true) : isTextTok t = false := by
  cases t with
  | openT nm attrs => rfl
  | closeT nm => rfl
  | textT txt => exact absurd h (by simp [tokTame])

theorem renderAttrs_tame_chars {attrs : List (List Char × List Char)}
    (h : attrs.all (fun a => nameOk a.1 && a.2.all tameVal) = true) {c : Char}
    (hc : c ∈ renderAttrs attrs) :
    c = ' ' ∨ c = '=' ∨ c = '"' ∨ nameChar c = true ∨ tameVal c = true := by
  unfold renderAttrs at hc
  rw [List.mem_join] at hc
  obtain ⟨piece, hp, hcp⟩ := hc
  rw [List.mem_map] at hp
  obtain ⟨a, ha, rfl⟩ := hp
  have hae := List.all_eq_true.1 h a ha
  rw [Bool.and_eq_true] at hae
  obtain ⟨-, hanm⟩ := nameOk_parts hae.1
  rw [List.mem_append, List.mem_append] at hcp
  rcases hcp with (hcp | hcp) | hcp
  · rw [List.mem_cons] at hcp
    rcases hcp with rfl | hcp
    · exact Or.inl rfl
    · exact Or.inr (Or.inr (Or.inr (Or.inl (List.all_eq_true.1 hanm c hcp))))
  · rw [List.mem_cons, List.mem_cons] at hcp
    rcases hcp with rfl | rfl | hcp
    · exact Or.inr (Or.inl rfl)
    · exact Or.inr (Or.inr (Or.inl rfl))
    · exact Or.inr (Or.inr (Or.inr (Or.inr (List.all_eq_true.1 hae.2 c hcp))))
  · rw [List.mem_singleton] at hcp
    subst hcp
    exact Or.inr (Or.inr (Or.inl rfl))

theorem tagInner_tame_chars {t : HtmlTok} (h : tokTame t = true) :
    (tagInner t).all (fun c => c ≠ '>' && c ≠ '<') = true := by
  cases t with
  | textT txt => exact absurd h (by simp [tokTame])
  | closeT nm =>
      obtain ⟨-, hnm⟩ := nameOk_parts (by unfold tokTame at h; exact h)
      unfold tagInner
      rw [List.all_cons, Bool.and_eq_true]
      refine ⟨by decide, ?_⟩
      rw [List.all_eq_true]
      intro x hx
      have hf := nameChar_facts (List.all_eq_true.1 hnm x hx)
      simp only [Bool.and_eq_true, decide_eq_true_eq]
      exact ⟨hf.2.2.2.2.2.2.1, hf.2.2.2.2.2.1⟩
  | openT nm attrs =>
      unfold tokTame at h
      rw [Bool.and_eq_true] at h
      obtain ⟨-, hnm⟩ := nameOk_parts h.1
      unfold tagInner
      rw [List.all_eq_true]
      intro x hx
      rw [List.mem_append] at hx
      simp only [Bool.and_eq_true, decide_eq_true_eq]
      rcases hx with hx | hx
      · have hf := nameChar_facts (List.all_eq_true.1 hnm x hx)
        exact ⟨hf.2.2.2.2.2.2.1, hf.2.2.2.2.2.1⟩
      · rcases renderAttrs_tame_chars h.2 hx with rfl | rfl | rfl | hn | hv
        · exact ⟨by decide, by decide⟩
        · exact ⟨by decide, by decide⟩
        · exact ⟨by decide, by decide⟩
        · have hf := nameChar_facts hn
          exact ⟨hf.2.2.2.2.2.2.1, hf.2.2.2.2.2.1⟩
        · unfold tameVal at hv
          rw [Bool.and_eq_true, decide_eq_true_eq, decide_eq_true_eq] at hv
          exact ⟨hv.2, hv.1⟩

theorem collapseWsAux_skip :
    ∀ (A : List Char), A.all (· ≠ '>') = true →
      ∀ (B : List Char) (n : Nat), A.length + B.length ≤ n →
        collapseWsAux n (A ++ B) = A ++ collapseWsAux (n - A.length) B := by
  intro A
  induction A with
  | nil => intro _ B n _; simp
  | cons c A' ih =>
      intro h B n hn
      rw [List.all_cons, Bool.and_eq_true, decide_eq_true_eq] at h
      rw [List.length_cons] at hn
      cases n with
      | zero => exact absurd hn (by omega)
      | succ n' =>
          rw [List.cons_append, collapseWsAux_ne h.1, ih h.2 B n' (by omega),
            List.cons_append, List.length_cons, Nat.succ_sub_succ]

theorem lowerTagsAux_skip :
    ∀ (A : List Char), A.all (· ≠ '<') = true →
      ∀ (B : List Char) (n : Nat), A.length + B.length ≤ n →
        lowerTagsAux n (A ++ B) = A ++ lowerTagsAux (n - A.length) B := by
  intro A
  induction A with
  | nil => intro _ B n _; simp
  | cons c A' ih =>
      intro h B n hn
      rw [List.all_cons, Bool.and_eq_true, decide_eq_true_eq] at h
      rw [List.length_cons] at hn
      cases n with
      | zero => exact absurd hn (by omega)
      | succ n' =>
          rw [List.cons_append, lowerTagsAux_ne h.1, ih h.2 B n' (by omega),
            List.cons_append, List.length_cons, Nat.succ_sub_succ]

theorem collapseWsAux_render :
    ∀ (k : Nat) (ts : List HtmlTok), ts.length ≤ k → ts.all tokTame = true →
      ∀ n, (renderToks ts).length ≤ n →
        collapseWsAux n (renderToks ts) = renderToks ts := by
  intro k
  induction k with
  | zero =>
      intro ts hk _ n _
      have hts : ts = [] := List.length_eq_zero.1 (Nat.le_zero.1 hk)
      subst hts
      rw [show renderToks ([] : List HtmlTok) = [] from rfl, collapseWsAux_nil]
  | succ k ih =>
      intro ts hk htame n hn
      cases ts with
      | nil => rw [show renderToks ([] : List HtmlTok) = [] from rfl, collapseWsAux_nil]
      | cons t rest =>
          rw [List.all_cons, Bool.and_eq_true] at htame
          rw [List.length_cons] at hk
          have htt := tokTame_not_text htame.1
          rw [renderToks_tag_cons htt] at hn ⊢
          have hA : ('<' :: tagInner t).all (· ≠ '>') = true := by
            rw [List.all_cons, Bool.and_eq_true]
            exact ⟨by decide, all_and_left (tagInner_tame_chars htame.1)⟩
          have hsh : '<' :: (tagInner t ++ ('>' :: renderToks rest)) =
              ('<' :: tagInner t) ++ ('>' :: renderToks rest) := by
            rw [List.cons_append]
          rw [hsh] at hn ⊢
          rw [collapseWsAux_skip _ hA _ n (by
            simp only [List.length_append, List.length_cons] at hn ⊢; omega)]
          cases hm : n - ('<' :: tagInner t).length with
          | zero =>
              exfalso
              simp only [List.length_append, List.length_cons] at hn hm
              omega
          | succ m' =>
              cases rest with
              | nil =>
                  rw [show renderToks ([] : List HtmlTok) = [] from rfl,
                    collapseWsAux_gt_other List.dropWhile_nil, collapseWsAux_nil]
              | cons t2 rest2 =>
                  have ht2 := tokTame_not_text (by
                    have := htame.2
                    rw [List.all_cons, Bool.and_eq_true] at this
                    exact this.1)
                  rw [renderToks_tag_cons ht2]
                  have hd : ('<' :: (tagInner t2 ++ ('>' :: renderToks rest2))).dropWhile
                      Char.isWhitespace =
                      '<' :: (tagInner t2 ++ ('>' :: renderToks rest2)) := by
                    rw [List.dropWhile_cons_of_neg (by decide)]
                  have ht3 : ('<' :: (tagInner t2 ++ ('>' :: renderToks rest2))).takeWhile
                      Char.isWhitespace = [] := by
                    rw [List.takeWhile_cons_of_neg (by decide)]
                  rw [collapseWsAux_gt_tag hd ht3]
                  rw [← renderToks_tag_cons ht2]
                  rw [ih (t2 :: rest2) (by rw [List.length_cons] at hk ⊢; omega) htame.2 m' (by
                    rw [renderToks_tag_cons ht2]
                    rw [renderToks_tag_cons ht2] at hn
                    simp only [List.length_append, List.length_cons] at hn hm ⊢
                    omega)]

theorem lowerTagsAux_render :
    ∀ (k : Nat) (ts : List HtmlTok), ts.length ≤ k → ts.all tokTame = true →
      ∀ n, (renderToks ts).length ≤ n →
        lowerTagsAux n (renderToks ts) = renderToks ts := by
  intro k
  induction k with
  | zero =>
      intro ts hk _ n _
      have hts : ts = [] := List.length_eq_zero.1 (Nat.le_zero.1 hk)
      subst hts
      rw [show renderToks ([] : List HtmlTok) = [] from rfl, lowerTagsAux_nil]
  | succ k ih =>
      intro ts hk htame n hn
      cases ts with
      | nil => rw [show renderToks ([] : List HtmlTok) = [] from rfl, lowerTagsAux_nil]
      | cons t rest =>
          rw [List.all_cons, Bool.and_eq_true] at htame
          rw [List.length_cons] at hk
          have hskip : ∀ m, (tagInner t ++ ('>' :: renderToks rest)).length ≤ m →
              lowerTagsAux m (tagInner t ++ ('>' :: renderToks rest)) =
                tagInner t ++ ('>' :: renderToks rest) := by
            intro m hm
            have hA : (tagInner t ++ ['>']).all (· ≠ '<') = true := by
              rw [List.all_append, Bool.and_eq_true]
              refine ⟨?_, by decide⟩
              have h2 := tagInner_tame_chars htame.1
              rw [List.all_eq_true] at h2 ⊢
              intro x hx
              have h3 := h2 x hx
              rw [Bool.and_eq_true] at h3
              exact h3.2
            have hsh2 : tagInner t ++ ('>' :: renderToks rest) =
                (tagInner t ++ ['>']) ++ renderToks rest := by
              simp [List.append_assoc]
            rw [hsh2] at hm ⊢
            rw [lowerTagsAux_skip _ hA _ m (by rw [List.length_append] at hm; omega)]
            rw [ih rest (by omega) htame.2 _ (by rw [List.length_append] at hm; omega)]
          cases t with
          | textT txt => exact absurd htame.1 (by simp [tokTame])
          | closeT nm =>
              obtain ⟨hne, hnm⟩ := nameOk_parts (by
                unfold tokTame at htame
                exact htame.1)
              cases nm with
              | nil => exact absurd rfl hne
              | cons c nm' =>
                  have hcf := nameChar_facts (by
                    rw [List.all_cons, Bool.and_eq_true] at hnm
                    exact hnm.1)
                  have hsh : renderToks (HtmlTok.closeT (c :: nm') :: rest) =
                      '<' :: '/' :: c :: (nm' ++ '>' :: renderToks rest) := by
                    rw [renderToks_close_flat, List.cons_append]
                  rw [hsh] at hn ⊢
                  cases n with
                  | zero =>
                      exfalso
                      simp only [List.length_cons] at hn
                      omega
                  | succ n1 =>
                      rw [lowerTagsAux_lt_close hcf.2.2.1]
                      have hback : '/' :: c :: (nm' ++ '>' :: renderToks rest) =
                          tagInner (HtmlTok.closeT (c :: nm')) ++
                            ('>' :: renderToks rest) := by
                        show '/' :: c :: (nm' ++ '>' :: renderToks rest) =
                          ('/' :: (c :: nm')) ++ ('>' :: renderToks rest)
                        simp [List.cons_append]
                      rw [hback]
                      rw [hskip n1 (by
                        rw [← hback]
                        simp only [List.length_cons, List.length_append] at hn ⊢
                        omega)]
          | openT nm attrs =>
              have htt1 := htame.1
              unfold tokTame at htt1
              rw [Bool.and_eq_true] at htt1
              obtain ⟨hne, hnm⟩ := nameOk_parts htt1.1
              cases nm with
              | nil => exact absurd rfl hne
              | cons c nm' =>
                  have hcf := nameChar_facts (by
                    rw [List.all_cons, Bool.and_eq_true] at hnm
                    exact hnm.1)
                  have hsh : renderToks (HtmlTok.openT (c :: nm') attrs :: rest) =
                      '<' :: c :: (nm' ++ (renderAttrs attrs ++ ('>' :: renderToks rest))) := by
                    rw [renderToks_open_flat2, List.cons_append]
                  rw [hsh] at hn ⊢
                  cases n with
                  | zero =>
                      exfalso
                      simp only [List.length_cons] at hn
                      omega
                  | succ n1 =>
                      rw [lowerTagsAux_lt_open hcf.2.2.2.2.2.2.2.1 hcf.2.2.1]
                      have hback : c :: (nm' ++ (renderAttrs attrs ++ ('>' :: renderToks rest))) =
                          tagInner (HtmlTok.openT (c :: nm') attrs) ++
                            ('>' :: renderToks rest) := by
                        show c :: (nm' ++ (renderAttrs attrs ++ ('>' :: renderToks rest))) =
                          ((c :: nm') ++ renderAttrs attrs) ++ ('>' :: renderToks rest)
                        simp [List.cons_append, List.append_assoc]
                      rw [hback]
                      rw [hskip n1 (by
                        rw [← hback]
                        simp only [List.length_cons, List.length_append] at hn ⊢
                        omega)]

theorem renderToks_last_gt :
    ∀ (ts : List HtmlTok), ts ≠ [] → ts.all (fun t => !isTextTok t) = true →
      (renderToks ts).getLast? = some '>' := by
  intro ts
  induction ts with
  | nil => intro h _; exact absurd rfl h
  | cons t rest ih =>
      intro _ hall
      rw [List.all_cons, Bool.and_eq_true] at hall
      have htt : isTextTok t = false := by
        have h2 := hall.1
        rwa [Bool.not_eq_true'] at h2
      cases rest with
      | nil =>
          rw [renderToks_cons, show renderToks ([] : List HtmlTok) = [] from rfl,
            List.append_nil, renderTok_tag htt,
            show '<' :: (tagInner t ++ ['>']) = ('<' :: tagInner t) ++ ['>'] from by
              rw [List.cons_append]]
          exact List.getLast?_concat _
      | cons t2 rest2 =>
          rw [renderToks_cons, List.getLast?_append, ih (by simp) hall.2]
          rfl

theorem renderToks_head {t : HtmlTok} {rest : List HtmlTok} (htt : isTextTok t = false) :
    (renderToks (t :: rest)).head? = some '<' := by
  rw [renderToks_tag_cons htt]
  rfl

theorem trimChars_id {l : List Char} (hh : l.head? = some '<') (hl : l.getLast? = some '>') :
    trimChars l = l := by
  unfold trimChars
  cases l with
  | nil => exact absurd hh (by simp)
  | cons c rest =>
      have hc : c = '<' := by
        rw [List.head?_cons] at hh
        exact Option.some.inj hh
      subst hc
      rw [List.dropWhile_cons_of_neg (by decide)]
      cases hrev : ('<' :: rest).reverse with
      | nil => exact absurd hrev (by simp)
      | cons d rrest =>
          have hd : d = '>' := by
            have h2 : ('<' :: rest).reverse.head? = some d := by
              rw [hrev, List.head?_cons]
            rw [List.head?_reverse] at h2
            rw [hl] at h2
            exact (Option.some.inj h2).symm
          subst hd
          rw [List.dropWhile_cons_of_neg (by decide), ← hrev, List.reverse_reverse]

/-! ### Composing the five passes -/

theorem all_filter_of_all {p q : α → Bool} {l : List α} (h : l.all p = true) :
    (l.filter q).all p = true := by
  rw [List.all_eq_true] at h ⊢
  exact fun x hx => h x (List.mem_of_mem_filter hx)

theorem filter_self_all (p : α → Bool) (l : List α) : (l.filter p).all p = true := by
  rw [List.all_eq_true]
  exact fun x hx => List.of_mem_filter hx

theorem isTextTok_filterAttrs (p : List Char × List Char → Bool) (t : HtmlTok) :
    isTextTok (filterAttrsTok p t) = isTextTok t := by
  cases t <;> rfl

theorem isTextTok_mapAttrs (f : List Char × List Char → List Char × List Char)
    (t : HtmlTok) : isTextTok (mapAttrsTok f t) = isTextTok t := by
  cases t <;> rfl

theorem tokOk_filterAttrs {p : List Char × List Char → Bool} {t : HtmlTok}
    (h : tokOk t = true) : tokOk (filterAttrsTok p t) = true := by
  cases t with
  | closeT nm => exact h
  | textT txt => exact h
  | openT nm attrs =>
      show (nameOk nm && (attrs.filter p).all attrOk) = true
      unfold tokOk at h
      rw [Bool.and_eq_true] at h ⊢
      exact ⟨h.1, all_filter_of_all h.2⟩

theorem map_tok_props {ts : List HtmlTok} (htok : ts.all tokOk = true)
    (htag : ts.all (fun t => !isTextTok t) = true)
    (p : List Char × List Char → Bool) :
    (ts.map (filterAttrsTok p)).all tokOk = true ∧
      (ts.map (filterAttrsTok p)).all (fun t => !isTextTok t) = true := by
  constructor
  · rw [List.all_eq_true]
    intro x hx
    rw [List.mem_map] at hx
    obtain ⟨t, ht, rfl⟩ := hx
    exact tokOk_filterAttrs (List.all_eq_true.1 htok t ht)
  · rw [List.all_eq_true]
    intro x hx
    rw [List.mem_map] at hx
    obtain ⟨t, ht, rfl⟩ := hx
    rw [isTextTok_filterAttrs]
    exact List.all_eq_true.1 htag t ht

theorem keep_iff (x : List Char) :
    ((dropNameCI dataName x).isNone &&
      !decide (x = ['v', 'a', 'l', 'u', 'e']) &&
      !decide (x = ['c', 's', 'r', 'f']) &&
      !decide (x = ['n', 'o', 'n', 'c', 'e']) &&
      !decide (x = ['s', 't', 'y', 'l', 'e']) &&
      !decide (x = ['i', 'd'])) =
      !isVolatileName x := by
  by_cases h1 : x = ['i', 'd']
  · subst h1; decide
  by_cases h2 : x = ['s', 't', 'y', 'l', 'e']
  · subst h2; decide
  by_cases h3 : x = ['n', 'o', 'n', 'c', 'e']
  · subst h3; decide
  by_cases h4 : x = ['c', 's', 'r', 'f']
  · subst h4; decide
  by_cases h5 : x = ['v', 'a', 'l', 'u', 'e']
  · subst h5; decide
  have hc : volatileSimpleNames.contains x = false := by
    rw [Bool.eq_false_iff]
    intro hcon
    rw [show volatileSimpleNames = [['i', 'd'], ['s', 't', 'y', 'l', 'e'],
        ['n', 'o', 'n', 'c', 'e'], ['c', 's', 'r', 'f'],
        ['v', 'a', 'l', 'u', 'e']] from rfl] at hcon
    rw [List.contains_cons, List.contains_cons, List.contains_cons,
      List.contains_cons, List.contains_cons, Bool.or_eq_true, Bool.or_eq_true,
      Bool.or_eq_true, Bool.or_eq_true, Bool.or_eq_true] at hcon
    rcases hcon with hb | hb | hb | hb | hb | hb
    · exact h1 (beq_iff_eq.1 hb)
    · exact h2 (beq_iff_eq.1 hb)
    · exact h3 (beq_iff_eq.1 hb)
    · exact h4 (beq_iff_eq.1 hb)
    · exact h5 (beq_iff_eq.1 hb)
    · rw [show (([] : List (List Char)).contains x) = false from rfl] at hb
      exact absurd hb (by decide)
  unfold isVolatileName
  rw [hc, Bool.false_or, decide_eq_false h1, decide_eq_false h2,
    decide_eq_false h3, decide_eq_false h4, decide_eq_false h5]
  cases hdn : dropNameCI dataName x <;> rfl

theorem eraseTok_decomp (t : HtmlTok) :
    mapAttrsTok eraseAttr
      (filterAttrsTok (fun a => (dropNameCI dataName a.1).isNone)
        (filterAttrsTok (fun a => !decide (a.1 = ['v', 'a', 'l', 'u', 'e']))
          (filterAttrsTok (fun a => !decide (a.1 = ['c', 's', 'r', 'f']))
            (filterAttrsTok (fun a => !decide (a.1 = ['n', 'o', 'n', 'c', 'e']))
              (filterAttrsTok (fun a => !decide (a.1 = ['s', 't', 'y', 'l', 'e']))
                (filterAttrsTok (fun a => !decide (a.1 = ['i', 'd'])) t)))))) =
      eraseTok t := by
  cases t with
  | closeT nm => rfl
  | textT txt => rfl
  | openT nm attrs =>
      show HtmlTok.openT nm
          ((((((((attrs.filter (fun a => !decide (a.1 = ['i', 'd']))).filter
            (fun a => !decide (a.1 = ['s', 't', 'y', 'l', 'e']))).filter
            (fun a => !decide (a.1 = ['n', 'o', 'n', 'c', 'e']))).filter
            (fun a => !decide (a.1 = ['c', 's', 'r', 'f']))).filter
            (fun a => !decide (a.1 = ['v', 'a', 'l', 'u', 'e']))).filter
            (fun a => (dropNameCI dataName a.1).isNone))).map eraseAttr) =
        HtmlTok.openT nm ((attrs.filter (fun a => !isVolatileName a.1)).map eraseAttr)
      have hf : (((((attrs.filter (fun a => !decide (a.1 = ['i', 'd']))).filter
          (fun a => !decide (a.1 = ['s', 't', 'y', 'l', 'e']))).filter
          (fun a => !decide (a.1 = ['n', 'o', 'n', 'c', 'e']))).filter
          (fun a => !decide (a.1 = ['c', 's', 'r', 'f']))).filter
          (fun a => !decide (a.1 = ['v', 'a', 'l', 'u', 'e']))).filter
          (fun a => (dropNameCI dataName a.1).isNone) =
          attrs.filter (fun a => !isVolatileName a.1) := by
        rw [List.filter_filter, List.filter_filter, List.filter_filter,
          List.filter_filter, List.filter_filter]
        refine List.filter_congr ?_
        intro a _
        exact keep_iff a.1
      rw [hf]

theorem tokTame_of_erase {t : HtmlTok} (htok : tokOk t = true)
    (htag : isTextTok t = false) : tokTame (mapAttrsTok eraseAttr t) = true := by
  cases t with
  | textT txt => exact absurd htag (by simp [isTextTok])
  | closeT nm => exact htok
  | openT nm attrs =>
      unfold tokOk at htok
      rw [Bool.and_eq_true] at htok
      show (nameOk nm && (attrs.map eraseAttr).all
        (fun a => nameOk a.1 && a.2.all tameVal)) = true
      rw [Bool.and_eq_true]
      refine ⟨htok.1, ?_⟩
      rw [List.all_eq_true]
      intro x hx
      rw [List.mem_map] at hx
      obtain ⟨a, ha, rfl⟩ := hx
      obtain ⟨hane, hanm, -, haval, -⟩ := attrOk_parts (List.all_eq_true.1 htok.2 a ha)
      unfold eraseAttr
      by_cases hcl : a.1 = className
      · rw [if_pos hcl]
        rw [Bool.and_eq_true]
        constructor
        · rw [hcl]; decide
        · rw [List.all_eq_true]
          intro c hc
          rcases sortClassTokens_chars hc with rfl | hcv
          · decide
          · have hvf := valChar_facts (List.all_eq_true.1 haval c hcv)
            unfold tameVal
            rw [Bool.and_eq_true, decide_eq_true_eq, decide_eq_true_eq]
            exact ⟨hvf.2.1, hvf.2.2.1⟩
      · rw [if_neg hcl]
        rw [Bool.and_eq_true]
        constructor
        · unfold nameOk
          rw [Bool.and_eq_true, decide_eq_true_eq]
          exact ⟨hane, hanm⟩
        · rw [List.all_eq_true]
          intro c hc
          have hvf := valChar_facts (List.all_eq_true.1 haval c hc)
          unfold tameVal
          rw [Bool.and_eq_true, decide_eq_true_eq, decide_eq_true_eq]
          exact ⟨hvf.2.1, hvf.2.2.1⟩

theorem normalizeHtmlStructure_pipeline (L : List Char) :
    normalizeHtmlStructure (String.mk L) =
      String.mk (trimChars (lowerTagsAux (collapseWsAux (sortClassesAux (removeVolatileAttrs (stripTextAux L.length L)).length (removeVolatileAttrs (stripTextAux L.length L))).length (sortClassesAux (removeVolatileAttrs (stripTextAux L.length L)).length (removeVolatileAttrs (stripTextAux L.length L)))).length (collapseWsAux (sortClassesAux (removeVolatileAttrs (stripTextAux L.length L)).length (removeVolatileAttrs (stripTextAux L.length L))).length (sortClassesAux (removeVolatileAttrs (stripTextAux L.length L)).length (removeVolatileAttrs (stripTextAux L.length L)))))) := rfl

theorem wfToks_parts {ts : List HtmlTok} (h : wfToks ts = true) :
    ts.all tokOk = true ∧ noAdjTexts ts = true ∧
      (∃ t rest, ts = t :: rest ∧ isTextTok t = false) ∧ lastNotText ts = true := by
  unfold wfToks at h
  rw [Bool.and_eq_true, Bool.and_eq_true, Bool.and_eq_true] at h
  obtain ⟨⟨⟨hA, hB⟩, hC⟩, hD⟩ := h
  refine ⟨hA, hB, ?_, ?_⟩
  · cases ts with
    | nil => exact absurd hC (by decide)
    | cons t rest =>
        refine ⟨t, rest, rfl, ?_⟩
        have hC2 : (!isTextTok t) = true := hC
        rwa [Bool.not_eq_true'] at hC2
  · unfold lastNotText
    cases hg : ts.getLast? with
    | none => rfl
    | some a =>
        rw [hg] at hD
        have hD2 : (!isTextTok a) = true := hD
        exact hD2

theorem removeVolatileAttrs_render {ts : List HtmlTok}
    (htok : ts.all tokOk = true) (htag : ts.all (fun t => !isTextTok t) = true) :
    removeVolatileAttrs (renderToks ts) =
      renderToks ((((((ts.map (filterAttrsTok (fun a => !decide (a.1 = ['i', 'd'])))).map (filterAttrsTok (fun a => !decide (a.1 = ['s', 't', 'y', 'l', 'e'])))).map (filterAttrsTok (fun a => !decide (a.1 = ['n', 'o', 'n', 'c', 'e'])))).map (filterAttrsTok (fun a => !decide (a.1 = ['c', 's', 'r', 'f'])))).map (filterAttrsTok (fun a => !decide (a.1 = ['v', 'a', 'l', 'u', 'e'])))).map (filterAttrsTok (fun a => (dropNameCI dataName a.1).isNone))) := by
  have p1 := map_tok_props htok htag (fun a => !decide (a.1 = ['i', 'd']))
  have p2 := map_tok_props p1.1 p1.2 (fun a => !decide (a.1 = ['s', 't', 'y', 'l', 'e']))
  have p3 := map_tok_props p2.1 p2.2 (fun a => !decide (a.1 = ['n', 'o', 'n', 'c', 'e']))
  have p4 := map_tok_props p3.1 p3.2 (fun a => !decide (a.1 = ['c', 's', 'r', 'f']))
  have p5 := map_tok_props p4.1 p4.2 (fun a => !decide (a.1 = ['v', 'a', 'l', 'u', 'e']))
  have e1 := @removeAttrAux_render ['i', 'd'] (by decide) ts.length ts le_rfl
    htok htag (renderToks ts).length le_rfl
  have e2 := @removeAttrAux_render ['s', 't', 'y', 'l', 'e'] (by decide)
    (ts.map (filterAttrsTok (fun a => !decide (a.1 = ['i', 'd'])))).length (ts.map (filterAttrsTok (fun a => !decide (a.1 = ['i', 'd'])))) le_rfl p1.1 p1.2
    (renderToks (ts.map (filterAttrsTok (fun a => !decide (a.1 = ['i', 'd']))))).length le_rfl
  have e3 := @removeAttrAux_render ['n', 'o', 'n', 'c', 'e'] (by decide)
    ((ts.map (filterAttrsTok (fun a => !decide (a.1 = ['i', 'd'])))).map (filterAttrsTok (fun a => !decide (a.1 = ['s', 't', 'y', 'l', 'e'])))).length ((ts.map (filterAttrsTok (fun a => !decide (a.1 = ['i', 'd'])))).map (filterAttrsTok (fun a => !decide (a.1 = ['s', 't', 'y', 'l', 'e'])))) le_rfl p2.1 p2.2
    (renderToks ((ts.map (filterAttrsTok (fun a => !decide (a.1 = ['i', 'd'])))).map (filterAttrsTok (fun a => !decide (a.1 = ['s', 't', 'y', 'l', 'e']))))).length le_rfl
  have e4 := @removeAttrAux_render ['c', 's', 'r', 'f'] (by decide)
    (((ts.map (filterAttrsTok (fun a => !decide (a.1 = ['i', 'd'])))).map (filterAttrsTok (fun a => !decide (a.1 = ['s', 't', 'y', 'l', 'e'])))).map (filterAttrsTok (fun a => !decide (a.1 = ['n', 'o', 'n', 'c', 'e'])))).length (((ts.map (filterAttrsTok (fun a => !decide (a.1 = ['i', 'd'])))).map (filterAttrsTok (fun a => !decide (a.1 = ['s', 't', 'y', 'l', 'e'])))).map (filterAttrsTok (fun a => !decide (a.1 = ['n', 'o', 'n', 'c', 'e'])))) le_rfl p3.1 p3.2
    (renderToks (((ts.map (filterAttrsTok (fun a => !decide (a.1 = ['i', 'd'])))).map (filterAttrsTok (fun a => !decide (a.1 = ['s', 't', 'y', 'l', 'e'])))).map (filterAttrsTok (fun a => !decide (a.1 = ['n', 'o', 'n', 'c', 'e']))))).length le_rfl
  have e5 := @removeAttrAux_render ['v', 'a', 'l', 'u', 'e'] (by decide)
    ((((ts.map (filterAttrsTok (fun a => !decide (a.1 = ['i', 'd'])))).map (filterAttrsTok (fun a => !decide (a.1 = ['s', 't', 'y', 'l', 'e'])))).map (filterAttrsTok (fun a => !decide (a.1 = ['n', 'o', 'n', 'c', 'e'])))).map (filterAttrsTok (fun a => !decide (a.1 = ['c', 's', 'r', 'f'])))).length ((((ts.map (filterAttrsTok (fun a => !decide (a.1 = ['i', 'd'])))).map (filterAttrsTok (fun a => !decide (a.1 = ['s', 't', 'y', 'l', 'e'])))).map (filterAttrsTok (fun a => !decide (a.1 = ['n', 'o', 'n', 'c', 'e'])))).map (filterAttrsTok (fun a => !decide (a.1 = ['c', 's', 'r', 'f'])))) le_rfl p4.1 p4.2
    (renderToks ((((ts.map (filterAttrsTok (fun a => !decide (a.1 = ['i', 'd'])))).map (filterAttrsTok (fun a => !decide (a.1 = ['s', 't', 'y', 'l', 'e'])))).map (filterAttrsTok (fun a => !decide (a.1 = ['n', 'o', 'n', 'c', 'e'])))).map (filterAttrsTok (fun a => !decide (a.1 = ['c', 's', 'r', 'f']))))).length le_rfl
  have e6 := removeDataAttrAux_render
    (((((ts.map (filterAttrsTok (fun a => !decide (a.1 = ['i', 'd'])))).map (filterAttrsTok (fun a => !decide (a.1 = ['s', 't', 'y', 'l', 'e'])))).map (filterAttrsTok (fun a => !decide (a.1 = ['n', 'o', 'n', 'c', 'e'])))).map (filterAttrsTok (fun a => !decide (a.1 = ['c', 's', 'r', 'f'])))).map (filterAttrsTok (fun a => !decide (a.1 = ['v', 'a', 'l', 'u', 'e'])))).length (((((ts.map (filterAttrsTok (fun a => !decide (a.1 = ['i', 'd'])))).map (filterAttrsTok (fun a => !decide (a.1 = ['s', 't', 'y', 'l', 'e'])))).map (filterAttrsTok (fun a => !decide (a.1 = ['n', 'o', 'n', 'c', 'e'])))).map (filterAttrsTok (fun a => !decide (a.1 = ['c', 's', 'r', 'f'])))).map (filterAttrsTok (fun a => !decide (a.1 = ['v', 'a', 'l', 'u', 'e'])))) le_rfl p5.1 p5.2
    (renderToks (((((ts.map (filterAttrsTok (fun a => !decide (a.1 = ['i', 'd'])))).map (filterAttrsTok (fun a => !decide (a.1 = ['s', 't', 'y', 'l', 'e'])))).map (filterAttrsTok (fun a => !decide (a.1 = ['n', 'o', 'n', 'c', 'e'])))).map (filterAttrsTok (fun a => !decide (a.1 = ['c', 's', 'r', 'f'])))).map (filterAttrsTok (fun a => !decide (a.1 = ['v', 'a', 'l', 'u', 'e']))))).length le_rfl
  show removeDataAttrAux
      (volatileSimpleNames.foldl (fun acc nm => removeAttrAux nm acc.length acc)
        (renderToks ts)).length
      (volatileSimpleNames.foldl (fun acc nm => removeAttrAux nm acc.length acc)
        (renderToks ts)) =
    renderToks ((((((ts.map (filterAttrsTok (fun a => !decide (a.1 = ['i', 'd'])))).map (filterAttrsTok (fun a => !decide (a.1 = ['s', 't', 'y', 'l', 'e'])))).map (filterAttrsTok (fun a => !decide (a.1 = ['n', 'o', 'n', 'c', 'e'])))).map (filterAttrsTok (fun a => !decide (a.1 = ['c', 's', 'r', 'f'])))).map (filterAttrsTok (fun a => !decide (a.1 = ['v', 'a', 'l', 'u', 'e'])))).map (filterAttrsTok (fun a => (dropNameCI dataName a.1).isNone)))
  rw [show volatileSimpleNames = [['i', 'd'], ['s', 't', 'y', 'l', 'e'],
      ['n', 'o', 'n', 'c', 'e'], ['c', 's', 'r', 'f'],
      ['v', 'a', 'l', 'u', 'e']] from rfl]
  rw [List.foldl_cons, List.foldl_cons, List.foldl_cons, List.foldl_cons,
    List.foldl_cons, List.foldl_nil]
  rw [e1, e2, e3, e4, e5, e6]

/-- `normalizeHtmlStructure` on the render of a well-formed token list acts
exactly as the token-level erasure `eraseToks`. -/
theorem normalizeHtmlStructure_render {ts : List HtmlTok} (h : wfToks ts = true) :
    normalizeHtmlStructure (String.mk (renderToks ts)) =
      String.mk (renderToks (eraseToks ts)) := by
  obtain ⟨htok, hadj, ⟨t0, rest0, hts, ht0⟩, hlast⟩ := wfToks_parts h
  subst hts
  have htok1 : ((t0 :: rest0).filter (fun x => !isTextTok x)).all tokOk = true := all_filter_of_all htok
  have htag1 : ((t0 :: rest0).filter (fun x => !isTextTok x)).all (fun t => !isTextTok t) = true := filter_self_all _ _
  have h1 : stripTextAux (renderToks (t0 :: rest0)).length (renderToks (t0 :: rest0)) =
      renderToks ((t0 :: rest0).filter (fun x => !isTextTok x)) := stripTextAux_render ht0 htok hadj hlast _ le_rfl
  have p1 := map_tok_props htok1 htag1 (fun a => !decide (a.1 = ['i', 'd']))
  have p2 := map_tok_props p1.1 p1.2 (fun a => !decide (a.1 = ['s', 't', 'y', 'l', 'e']))
  have p3 := map_tok_props p2.1 p2.2 (fun a => !decide (a.1 = ['n', 'o', 'n', 'c', 'e']))
  have p4 := map_tok_props p3.1 p3.2 (fun a => !decide (a.1 = ['c', 's', 'r', 'f']))
  have p5 := map_tok_props p4.1 p4.2 (fun a => !decide (a.1 = ['v', 'a', 'l', 'u', 'e']))
  have p6 := map_tok_props p5.1 p5.2 (fun a => (dropNameCI dataName a.1).isNone)
  have h2 := removeVolatileAttrs_render htok1 htag1
  have h3 := sortClassesAux_render ((((((((t0 :: rest0).filter (fun x => !isTextTok x)).map (filterAttrsTok (fun a => !decide (a.1 = ['i', 'd'])))).map (filterAttrsTok (fun a => !decide (a.1 = ['s', 't', 'y', 'l', 'e'])))).map (filterAttrsTok (fun a => !decide (a.1 = ['n', 'o', 'n', 'c', 'e'])))).map (filterAttrsTok (fun a => !decide (a.1 = ['c', 's', 'r', 'f'])))).map (filterAttrsTok (fun a => !decide (a.1 = ['v', 'a', 'l', 'u', 'e'])))).map (filterAttrsTok (fun a => (dropNameCI dataName a.1).isNone))).length ((((((((t0 :: rest0).filter (fun x => !isTextTok x)).map (filterAttrsTok (fun a => !decide (a.1 = ['i', 'd'])))).map (filterAttrsTok (fun a => !decide (a.1 = ['s', 't', 'y', 'l', 'e'])))).map (filterAttrsTok (fun a => !decide (a.1 = ['n', 'o', 'n', 'c', 'e'])))).map (filterAttrsTok (fun a => !decide (a.1 = ['c', 's', 'r', 'f'])))).map (filterAttrsTok (fun a => !decide (a.1 = ['v', 'a', 'l', 'u', 'e'])))).map (filterAttrsTok (fun a => (dropNameCI dataName a.1).isNone))) le_rfl p6.1 p6.2
    (renderToks ((((((((t0 :: rest0).filter (fun x => !isTextTok x)).map (filterAttrsTok (fun a => !decide (a.1 = ['i', 'd'])))).map (filterAttrsTok (fun a => !decide (a.1 = ['s', 't', 'y', 'l', 'e'])))).map (filterAttrsTok (fun a => !decide (a.1 = ['n', 'o', 'n', 'c', 'e'])))).map (filterAttrsTok (fun a => !decide (a.1 = ['c', 's', 'r', 'f'])))).map (filterAttrsTok (fun a => !decide (a.1 = ['v', 'a', 'l', 'u', 'e'])))).map (filterAttrsTok (fun a => (dropNameCI dataName a.1).isNone)))).length le_rfl
  have htame3 : (((((((((t0 :: rest0).filter (fun x => !isTextTok x)).map (filterAttrsTok (fun a => !decide (a.1 = ['i', 'd'])))).map (filterAttrsTok (fun a => !decide (a.1 = ['s', 't', 'y', 'l', 'e'])))).map (filterAttrsTok (fun a => !decide (a.1 = ['n', 'o', 'n', 'c', 'e'])))).map (filterAttrsTok (fun a => !decide (a.1 = ['c', 's', 'r', 'f'])))).map (filterAttrsTok (fun a => !decide (a.1 = ['v', 'a', 'l', 'u', 'e'])))).map (filterAttrsTok (fun a => (dropNameCI dataName a.1).isNone))).map (mapAttrsTok eraseAttr)).all tokTame = true := by
    rw [List.all_eq_true]
    intro x hx
    rw [List.mem_map] at hx
    obtain ⟨t6, ht6, rfl⟩ := hx
    refine tokTame_of_erase (List.all_eq_true.1 p6.1 t6 ht6) ?_
    have h7 := List.all_eq_true.1 p6.2 t6 ht6
    rwa [Bool.not_eq_true'] at h7
  have htag3 : (((((((((t0 :: rest0).filter (fun x => !isTextTok x)).map (filterAttrsTok (fun a => !decide (a.1 = ['i', 'd'])))).map (filterAttrsTok (fun a => !decide (a.1 = ['s', 't', 'y', 'l', 'e'])))).map (filterAttrsTok (fun a => !decide (a.1 = ['n', 'o', 'n', 'c', 'e'])))).map (filterAttrsTok (fun a => !decide (a.1 = ['c', 's', 'r', 'f'])))).map (filterAttrsTok (fun a => !decide (a.1 = ['v', 'a', 'l', 'u', 'e'])))).map (filterAttrsTok (fun a => (dropNameCI dataName a.1).isNone))).map (mapAttrsTok eraseAttr)).all (fun t => !isTextTok t) = true := by
    rw [List.all_eq_true]
    intro x hx
    rw [Bool.not_eq_true']
    exact tokTame_not_text (List.all_eq_true.1 htame3 x hx)
  have h4 := collapseWsAux_render (((((((((t0 :: rest0).filter (fun x => !isTextTok x)).map (filterAttrsTok (fun a => !decide (a.1 = ['i', 'd'])))).map (filterAttrsTok (fun a => !decide (a.1 = ['s', 't', 'y', 'l', 'e'])))).map (filterAttrsTok (fun a => !decide (a.1 = ['n', 'o', 'n', 'c', 'e'])))).map (filterAttrsTok (fun a => !decide (a.1 = ['c', 's', 'r', 'f'])))).map (filterAttrsTok (fun a => !decide (a.1 = ['v', 'a', 'l', 'u', 'e'])))).map (filterAttrsTok (fun a => (dropNameCI dataName a.1).isNone))).map (mapAttrsTok eraseAttr)).length (((((((((t0 :: rest0).filter (fun x => !isTextTok x)).map (filterAttrsTok (fun a => !decide (a.1 = ['i', 'd'])))).map (filterAttrsTok (fun a => !decide (a.1 = ['s', 't', 'y', 'l', 'e'])))).map (filterAttrsTok (fun a => !decide (a.1 = ['n', 'o', 'n', 'c', 'e'])))).map (filterAttrsTok (fun a => !decide (a.1 = ['c', 's', 'r', 'f'])))).map (filterAttrsTok (fun a => !decide (a.1 = ['v', 'a', 'l', 'u', 'e'])))).map (filterAttrsTok (fun a => (dropNameCI dataName a.1).isNone))).map (mapAttrsTok eraseAttr)) le_rfl htame3
    (renderToks (((((((((t0 :: rest0).filter (fun x => !isTextTok x)).map (filterAttrsTok (fun a => !decide (a.1 = ['i', 'd'])))).map (filterAttrsTok (fun a => !decide (a.1 = ['s', 't', 'y', 'l', 'e'])))).map (filterAttrsTok (fun a => !decide (a.1 = ['n', 'o', 'n', 'c', 'e'])))).map (filterAttrsTok (fun a => !decide (a.1 = ['c', 's', 'r', 'f'])))).map (filterAttrsTok (fun a => !decide (a.1 = ['v', 'a', 'l', 'u', 'e'])))).map (filterAttrsTok (fun a => (dropNameCI dataName a.1).isNone))).map (mapAttrsTok eraseAttr))).length le_rfl
  have h5 := lowerTagsAux_render (((((((((t0 :: rest0).filter (fun x => !isTextTok x)).map (filterAttrsTok (fun a => !decide (a.1 = ['i', 'd'])))).map (filterAttrsTok (fun a => !decide (a.1 = ['s', 't', 'y', 'l', 'e'])))).map (filterAttrsTok (fun a => !decide (a.1 = ['n', 'o', 'n', 'c', 'e'])))).map (filterAttrsTok (fun a => !decide (a.1 = ['c', 's', 'r', 'f'])))).map (filterAttrsTok (fun a => !decide (a.1 = ['v', 'a', 'l', 'u', 'e'])))).map (filterAttrsTok (fun a => (dropNameCI dataName a.1).isNone))).map (mapAttrsTok eraseAttr)).length (((((((((t0 :: rest0).filter (fun x => !isTextTok x)).map (filterAttrsTok (fun a => !decide (a.1 = ['i', 'd'])))).map (filterAttrsTok (fun a => !decide (a.1 = ['s', 't', 'y', 'l', 'e'])))).map (filterAttrsTok (fun a => !decide (a.1 = ['n', 'o', 'n', 'c', 'e'])))).map (filterAttrsTok (fun a => !decide (a.1 = ['c', 's', 'r', 'f'])))).map (filterAttrsTok (fun a => !decide (a.1 = ['v', 'a', 'l', 'u', 'e'])))).map (filterAttrsTok (fun a => (dropNameCI dataName a.1).isNone))).map (mapAttrsTok eraseAttr)) le_rfl htame3
    (renderToks (((((((((t0 :: rest0).filter (fun x => !isTextTok x)).map (filterAttrsTok (fun a => !decide (a.1 = ['i', 'd'])))).map (filterAttrsTok (fun a => !decide (a.1 = ['s', 't', 'y', 'l', 'e'])))).map (filterAttrsTok (fun a => !decide (a.1 = ['n', 'o', 'n', 'c', 'e'])))).map (filterAttrsTok (fun a => !decide (a.1 = ['c', 's', 'r', 'f'])))).map (filterAttrsTok (fun a => !decide (a.1 = ['v', 'a', 'l', 'u', 'e'])))).map (filterAttrsTok (fun a => (dropNameCI dataName a.1).isNone))).map (mapAttrsTok eraseAttr))).length le_rfl
  have hts1c : ((t0 :: rest0).filter (fun x => !isTextTok x)) = t0 :: (rest0.filter (fun x => !isTextTok x)) :=
    List.filter_cons_of_pos (by simp [ht0])
  have hne3 : (((((((((t0 :: rest0).filter (fun x => !isTextTok x)).map (filterAttrsTok (fun a => !decide (a.1 = ['i', 'd'])))).map (filterAttrsTok (fun a => !decide (a.1 = ['s', 't', 'y', 'l', 'e'])))).map (filterAttrsTok (fun a => !decide (a.1 = ['n', 'o', 'n', 'c', 'e'])))).map (filterAttrsTok (fun a => !decide (a.1 = ['c', 's', 'r', 'f'])))).map (filterAttrsTok (fun a => !decide (a.1 = ['v', 'a', 'l', 'u', 'e'])))).map (filterAttrsTok (fun a => (dropNameCI dataName a.1).isNone))).map (mapAttrsTok eraseAttr)) ≠ [] := by
    intro hnil
    have hlen := congrArg List.length hnil
    simp only [List.length_map, List.length_nil] at hlen
    rw [hts1c] at hlen
    simp at hlen
  obtain ⟨t3, r3, hts3c⟩ : ∃ t3 r3, (((((((((t0 :: rest0).filter (fun x => !isTextTok x)).map (filterAttrsTok (fun a => !decide (a.1 = ['i', 'd'])))).map (filterAttrsTok (fun a => !decide (a.1 = ['s', 't', 'y', 'l', 'e'])))).map (filterAttrsTok (fun a => !decide (a.1 = ['n', 'o', 'n', 'c', 'e'])))).map (filterAttrsTok (fun a => !decide (a.1 = ['c', 's', 'r', 'f'])))).map (filterAttrsTok (fun a => !decide (a.1 = ['v', 'a', 'l', 'u', 'e'])))).map (filterAttrsTok (fun a => (dropNameCI dataName a.1).isNone))).map (mapAttrsTok eraseAttr)) = t3 :: r3 := by
    cases hc : (((((((((t0 :: rest0).filter (fun x => !isTextTok x)).map (filterAttrsTok (fun a => !decide (a.1 = ['i', 'd'])))).map (filterAttrsTok (fun a => !decide (a.1 = ['s', 't', 'y', 'l', 'e'])))).map (filterAttrsTok (fun a => !decide (a.1 = ['n', 'o', 'n', 'c', 'e'])))).map (filterAttrsTok (fun a => !decide (a.1 = ['c', 's', 'r', 'f'])))).map (filterAttrsTok (fun a => !decide (a.1 = ['v', 'a', 'l', 'u', 'e'])))).map (filterAttrsTok (fun a => (dropNameCI dataName a.1).isNone))).map (mapAttrsTok eraseAttr)) with
    | nil => exact absurd hc hne3
    | cons a b => exact ⟨a, b, rfl⟩
  have hhead : (renderToks (((((((((t0 :: rest0).filter (fun x => !isTextTok x)).map (filterAttrsTok (fun a => !decide (a.1 = ['i', 'd'])))).map (filterAttrsTok (fun a => !decide (a.1 = ['s', 't', 'y', 'l', 'e'])))).map (filterAttrsTok (fun a => !decide (a.1 = ['n', 'o', 'n', 'c', 'e'])))).map (filterAttrsTok (fun a => !decide (a.1 = ['c', 's', 'r', 'f'])))).map (filterAttrsTok (fun a => !decide (a.1 = ['v', 'a', 'l', 'u', 'e'])))).map (filterAttrsTok (fun a => (dropNameCI dataName a.1).isNone))).map (mapAttrsTok eraseAttr))).head? = some '<' := by
    rw [hts3c]
    refine renderToks_head ?_
    have h8 : (t3 :: r3).all (fun t => !isTextTok t) = true := by
      rw [← hts3c]; exact htag3
    rw [List.all_cons, Bool.and_eq_true] at h8
    have h9 := h8.1
    rwa [Bool.not_eq_true'] at h9
  have hlast3 := renderToks_last_gt (((((((((t0 :: rest0).filter (fun x => !isTextTok x)).map (filterAttrsTok (fun a => !decide (a.1 = ['i', 'd'])))).map (filterAttrsTok (fun a => !decide (a.1 = ['s', 't', 'y', 'l', 'e'])))).map (filterAttrsTok (fun a => !decide (a.1 = ['n', 'o', 'n', 'c', 'e'])))).map (filterAttrsTok (fun a => !decide (a.1 = ['c', 's', 'r', 'f'])))).map (filterAttrsTok (fun a => !decide (a.1 = ['v', 'a', 'l', 'u', 'e'])))).map (filterAttrsTok (fun a => (dropNameCI dataName a.1).isNone))).map (mapAttrsTok eraseAttr)) hne3 htag3
  have h6 := trimChars_id hhead hlast3
  rw [normalizeHtmlStructure_pipeline, h1, h2, h3, h4, h5, h6]
  have hcomp : (((((((((t0 :: rest0).filter (fun x => !isTextTok x)).map (filterAttrsTok (fun a => !decide (a.1 = ['i', 'd'])))).map (filterAttrsTok (fun a => !decide (a.1 = ['s', 't', 'y', 'l', 'e'])))).map (filterAttrsTok (fun a => !decide (a.1 = ['n', 'o', 'n', 'c', 'e'])))).map (filterAttrsTok (fun a => !decide (a.1 = ['c', 's', 'r', 'f'])))).map (filterAttrsTok (fun a => !decide (a.1 = ['v', 'a', 'l', 'u', 'e'])))).map (filterAttrsTok (fun a => (dropNameCI dataName a.1).isNone))).map (mapAttrsTok eraseAttr)) = eraseToks (t0 :: rest0) := by
    show (((((((((t0 :: rest0).filter (fun x => !isTextTok x)).map (filterAttrsTok (fun a => !decide (a.1 = ['i', 'd'])))).map (filterAttrsTok (fun a => !decide (a.1 = ['s', 't', 'y', 'l', 'e'])))).map (filterAttrsTok (fun a => !decide (a.1 = ['n', 'o', 'n', 'c', 'e'])))).map (filterAttrsTok (fun a => !decide (a.1 = ['c', 's', 'r', 'f'])))).map (filterAttrsTok (fun a => !decide (a.1 = ['v', 'a', 'l', 'u', 'e'])))).map (filterAttrsTok (fun a => (dropNameCI dataName a.1).isNone))).map (mapAttrsTok eraseAttr)) = ((t0 :: rest0).filter (fun x => !isTextTok x)).map eraseTok
    rw [List.map_map, List.map_map, List.map_map, List.map_map, List.map_map,
      List.map_map]
    refine List.map_congr_left ?_
    intro t _
    show mapAttrsTok eraseAttr
        (filterAttrsTok (fun a => (dropNameCI dataName a.1).isNone)
          (filterAttrsTok (fun a => !decide (a.1 = ['v', 'a', 'l', 'u', 'e']))
            (filterAttrsTok (fun a => !decide (a.1 = ['c', 's', 'r', 'f']))
              (filterAttrsTok (fun a => !decide (a.1 = ['n', 'o', 'n', 'c', 'e']))
                (filterAttrsTok (fun a => !decide (a.1 = ['s', 't', 'y', 'l', 'e']))
                  (filterAttrsTok (fun a => !decide (a.1 = ['i', 'd'])) t)))))) = eraseTok t
    exact eraseTok_decomp t
  rw [hcomp]

/-! ### Tag-structure extraction: different skeletons give different renders -/

def tagNameEnd (c : Char) : Bool := c.isWhitespace ∨ c = '>'

/-- Parse the sequence of (isClosing, tagName) pairs out of a rendered token
list; used to show that renders of token lists with different tag skeletons
differ. -/
def tagsOfAux : Nat → List Char → List (Bool × List Char)
  | _, [] => []
  | 0, _ => []
  | n + 1, '<' :: '/' :: rest =>
      (true, rest.takeWhile (fun c => !tagNameEnd c)) ::
        tagsOfAux n ((rest.dropWhile (· ≠ '>')).drop 1)
  | n + 1, '<' :: rest =>
      (false, rest.takeWhile (fun c => !tagNameEnd c)) ::
        tagsOfAux n ((rest.dropWhile (· ≠ '>')).drop 1)
  | n + 1, _ :: rest => tagsOfAux n rest

theorem tagsOfAux_nil (n : Nat) : tagsOfAux n [] = [] := by cases n <;> rfl

theorem tagsOfAux_close (n : Nat) (rest : List Char) :
    tagsOfAux (n + 1) ('<' :: '/' :: rest) =
      (true, rest.takeWhile (fun c => !tagNameEnd c)) ::
        tagsOfAux n ((rest.dropWhile (· ≠ '>')).drop 1) := rfl

theorem tagsOfAux_open {d : Char} (hd : d ≠ '/') (cs : List Char) (n : Nat) :
    tagsOfAux (n + 1) ('<' :: d :: cs) =
      (false, (d :: cs).takeWhile (fun c => !tagNameEnd c)) ::
        tagsOfAux n (((d :: cs).dropWhile (· ≠ '>')).drop 1) := by
  rw [tagsOfAux]
  · intro c1 h1
    injection h1 with h2 h3
    exact hd h2

theorem name_not_end {nm : List Char} (h : nm.all nameChar = true) :
    nm.all (fun c => !tagNameEnd c) = true := by
  rw [List.all_eq_true] at h ⊢
  intro x hx
  have hf := nameChar_facts (h x hx)
  simp only [tagNameEnd, Bool.not_eq_true', decide_eq_false_iff_not]
  push_neg
  exact ⟨fun hw => by rw [hf.2.1] at hw; exact Bool.false_ne_true hw, hf.2.2.2.2.2.2.1⟩

theorem name_no_gt {nm : List Char} (h : nm.all nameChar = true) :
    nm.all (· ≠ '>') = true := by
  rw [List.all_eq_true] at h ⊢
  intro x hx
  simp only [decide_eq_true_eq]
  exact (nameChar_facts (h x hx)).2.2.2.2.2.2.1

theorem renderAttrs_no_gt {attrs : List (List Char × List Char)}
    (h : attrs.all (fun a => nameOk a.1 && a.2.all tameVal) = true) :
    (renderAttrs attrs).all (· ≠ '>') = true := by
  rw [List.all_eq_true]
  intro x hx
  simp only [decide_eq_true_eq]
  rcases renderAttrs_tame_chars h hx with rfl | rfl | rfl | hn | hv
  · decide
  · decide
  · decide
  · exact (nameChar_facts hn).2.2.2.2.2.2.1
  · unfold tameVal at hv
    rw [Bool.and_eq_true, decide_eq_true_eq, decide_eq_true_eq] at hv
    exact hv.2

theorem tagsOfAux_render :
    ∀ (k : Nat) (ts : List HtmlTok), ts.length ≤ k → ts.all tokTame = true →
      ∀ n, (renderToks ts).length ≤ n →
        tagsOfAux n (renderToks ts) = tagStructure ts := by
  intro k
  induction k with
  | zero =>
      intro ts hk _ n _
      have hts : ts = [] := List.length_eq_zero.1 (Nat.le_zero.1 hk)
      subst hts
      rw [show renderToks ([] : List HtmlTok) = [] from rfl, tagsOfAux_nil]
      rfl
  | succ k ih =>
      intro ts hk htame n hn
      cases ts with
      | nil =>
          rw [show renderToks ([] : List HtmlTok) = [] from rfl, tagsOfAux_nil]
          rfl
      | cons t rest =>
          rw [List.all_cons, Bool.and_eq_true] at htame
          rw [List.length_cons] at hk
          cases t with
          | textT txt => exact absurd htame.1 (by simp [tokTame])
          | closeT nm =>
              obtain ⟨-, hnm⟩ := nameOk_parts (by
                unfold tokTame at htame
                exact htame.1)
              rw [renderToks_close_flat] at hn ⊢
              cases n with
              | zero =>
                  exfalso
                  simp only [List.length_cons] at hn
                  omega
              | succ n1 =>
                  rw [tagsOfAux_close]
                  rw [takeWhile_append_all _ (name_not_end hnm),
                    List.takeWhile_cons_of_neg (by decide), List.append_nil]
                  rw [dropWhile_append_all _ (name_no_gt hnm),
                    List.dropWhile_cons_of_neg (by decide)]
                  rw [show ('>' :: renderToks rest).drop 1 = renderToks rest from rfl]
                  rw [ih rest (by omega) htame.2 n1 (by
                    simp only [List.length_cons, List.length_append] at hn ⊢
                    omega)]
                  rfl
          | openT nm attrs =>
              have ht1 := htame.1
              unfold tokTame at ht1
              rw [Bool.and_eq_true] at ht1
              obtain ⟨hne, hnm⟩ := nameOk_parts ht1.1
              cases nm with
              | nil => exact absurd rfl hne
              | cons c nm' =>
                  rw [List.all_cons, Bool.and_eq_true] at hnm
                  have hcf := nameChar_facts hnm.1
                  have hsh : renderToks (HtmlTok.openT (c :: nm') attrs :: rest) =
                      '<' :: c :: (nm' ++ (renderAttrs attrs ++ ('>' :: renderToks rest))) := by
                    rw [renderToks_open_flat2, List.cons_append]
                  rw [hsh] at hn ⊢
                  cases n with
                  | zero =>
                      exfalso
                      simp only [List.length_cons] at hn
                      omega
                  | succ n1 =>
                      rw [tagsOfAux_open hcf.2.2.2.2.2.2.2.1]
                      have hname : ((c :: nm') ++ (renderAttrs attrs ++
                          ('>' :: renderToks rest))).takeWhile
                            (fun c => !tagNameEnd c) = c :: nm' := by
                        rw [takeWhile_append_all _ (name_not_end (by
                          rw [List.all_cons, Bool.and_eq_true]
                          exact hnm))]
                        cases attrs with
                        | nil =>
                            rw [renderAttrs_nil, List.nil_append,
                              List.takeWhile_cons_of_neg (by decide), List.append_nil]
                        | cons a attrs2 =>
                            rw [renderAttrs_cons_flat,
                              List.takeWhile_cons_of_neg (by decide), List.append_nil]
                      have hdrop : (((c :: nm') ++ (renderAttrs attrs ++
                          ('>' :: renderToks rest))).dropWhile (· ≠ '>')).drop 1 =
                            renderToks rest := by
                        rw [dropWhile_append_all _ (name_no_gt (by
                          rw [List.all_cons, Bool.and_eq_true]
                          exact hnm))]
                        rw [dropWhile_append_all _ (renderAttrs_no_gt ht1.2),
                          List.dropWhile_cons_of_neg (by decide)]
                        rfl
                      rw [List.cons_append] at hname hdrop
                      rw [hname, hdrop]
                      rw [ih rest (by omega) htame.2 n1 (by
                        simp only [List.length_cons, List.length_append] at hn ⊢
                        omega)]
                      rfl

theorem tagStructure_erase (ts : List HtmlTok) :
    tagStructure (eraseToks ts) = tagStructure ts := by
  induction ts with
  | nil => rfl
  | cons t rest ih =>
      cases t with
      | openT nm attrs =>
          show tagStructure ((((HtmlTok.openT nm attrs) :: rest).filter
            (fun t => !isTextTok t)).map eraseTok) = _
          rw [List.filter_cons_of_pos (by simp [isTextTok]), List.map_cons]
          show (false, nm) :: tagStructure (eraseToks rest) = (false, nm) :: tagStructure rest
          rw [ih]
      | closeT nm =>
          show tagStructure ((((HtmlTok.closeT nm) :: rest).filter
            (fun t => !isTextTok t)).map eraseTok) = _
          rw [List.filter_cons_of_pos (by simp [isTextTok]), List.map_cons]
          show (true, nm) :: tagStructure (eraseToks rest) = (true, nm) :: tagStructure rest
          rw [ih]
      | textT txt =>
          show tagStructure ((((HtmlTok.textT txt) :: rest).filter
            (fun t => !isTextTok t)).map eraseTok) = _
          rw [List.filter_cons_of_neg (by simp [isTextTok])]
          show tagStructure (eraseToks rest) = tagStructure rest
          rw [ih]

theorem eraseToks_tame {ts : List HtmlTok} (htok : ts.all tokOk = true) :
    (eraseToks ts).all tokTame = true := by
  rw [List.all_eq_true]
  intro x hx
  unfold eraseToks at hx
  rw [List.mem_map] at hx
  obtain ⟨t, ht, rfl⟩ := hx
  have htok2 : tokOk t = true :=
    List.all_eq_true.1 htok t (List.mem_of_mem_filter ht)
  have htag2 : isTextTok t = false := by
    have h2 := List.of_mem_filter ht
    rwa [Bool.not_eq_true'] at h2
  have hdecomp : eraseTok t =
      mapAttrsTok eraseAttr (filterAttrsTok (fun a => !isVolatileName a.1) t) := by
    cases t <;> rfl
  rw [hdecomp]
  refine tokTame_of_erase (tokOk_filterAttrs htok2) ?_
  rw [isTextTok_filterAttrs]
  exact htag2

/-- C5 counterexample: the attribute set actually stripped by
`generateFingerprint` does not include `href` (nor `action`/`src`): two
anchors that differ only in their `href` value hash differently, while two
divs differing only in their `id` value and text content hash identically. -/
theorem generateFingerprint_href_cx :
    generateFingerprint "<a href=\"x\"></a>" ≠ generateFingerprint "<a href=\"y\"></a>" ∧
    generateFingerprint "<div id=\"a\">hello</div>" =
      generateFingerprint "<div id=\"b\">world</div>" := by
  exact ⟨by decide, by decide⟩

/-- C5 (amended): on renders of well-formed HTML subtree token lists,
`generateFingerprint` is invariant under every change that leaves the
token-level erasure (drop text nodes, drop the volatile attributes
`id`/`style`/`nonce`/`csrf`/`value`/`data-*`, sort class tokens) unchanged —
in particular under changes of text content, of stripped-attribute values and
of class-token order — and any two subtrees with different tag structure
receive different digests. -/
theorem generateFingerprint_stability :
    (∀ t1 t2 : List HtmlTok, wfToks t1 = true → wfToks t2 = true →
        eraseToks t1 = eraseToks t2 →
        generateFingerprint (String.mk (renderToks t1)) =
          generateFingerprint (String.mk (renderToks t2))) ∧
    (∀ t1 t2 : List HtmlTok, wfToks t1 = true → wfToks t2 = true →
        tagStructure t1 ≠ tagStructure t2 →
        generateFingerprint (String.mk (renderToks t1)) ≠
          generateFingerprint (String.mk (renderToks t2))) := by
  constructor
  · intro t1 t2 h1 h2 he
    unfold generateFingerprint sha256
    rw [normalizeHtmlStructure_render h1, normalizeHtmlStructure_render h2, he]
  · intro t1 t2 h1 h2 hne heq
    unfold generateFingerprint sha256 at heq
    rw [normalizeHtmlStructure_render h1, normalizeHtmlStructure_render h2] at heq
    have hlist : renderToks (eraseToks t1) = renderToks (eraseToks t2) :=
      congrArg String.toList heq
    have htok1 : t1.all tokOk = true := (wfToks_parts h1).1
    have htok2 : t2.all tokOk = true := (wfToks_parts h2).1
    have e1 := tagsOfAux_render (eraseToks t1).length (eraseToks t1) le_rfl
      (eraseToks_tame htok1) (renderToks (eraseToks t1)).length le_rfl
    have e2 := tagsOfAux_render (eraseToks t2).length (eraseToks t2) le_rfl
      (eraseToks_tame htok2) (renderToks (eraseToks t1)).length (by rw [hlist])
    have hts : tagStructure (eraseToks t1) = tagStructure (eraseToks t2) := by
      rw [← e1, ← e2, hlist]
    rw [tagStructure_erase, tagStructure_erase] at hts
    exact hne hts

/-- C5 witness: two divs differing only in the `id` value and the text node
have equal erasures, hence equal fingerprints; a div subtree and a span
subtree have different tag structures, hence different fingerprints. -/
theorem generateFingerprint_stability_witness :
    generateFingerprint (String.mk (renderToks
      [HtmlTok.openT ['d', 'i', 'v'] [(['i', 'd'], ['a'])],
       HtmlTok.textT ['h', 'i'], HtmlTok.closeT ['d', 'i', 'v']])) =
    generateFingerprint (String.mk (renderToks
      [HtmlTok.openT ['d', 'i', 'v'] [(['i', 'd'], ['b'])],
       HtmlTok.textT ['y', 'o'], HtmlTok.closeT ['d', 'i', 'v']])) ∧
    generateFingerprint (String.mk (renderToks
      [HtmlTok.openT ['d', 'i', 'v'] [(['i', 'd'], ['a'])],
       HtmlTok.textT ['h', 'i'], HtmlTok.closeT ['d', 'i', 'v']])) ≠
    generateFingerprint (String.mk (renderToks
      [HtmlTok.openT ['s', 'p', 'a', 'n'] [], HtmlTok.closeT ['s', 'p', 'a', 'n']])) :=
  ⟨generateFingerprint_stability.1 _ _ (by decide) (by decide) (by decide),
   generateFingerprint_stability.2 _ _ (by decide) (by decide) (by decide)⟩
